import Mathlib

/-!
# A verification model of the JoSon core (Doc.h, Doc.cpp, Joson.cpp)

This file is a shallow embedding of the JoSon document model, its
serializer (`Doc::str`) and its parser (`JoSon::Utils::string_to_doc`),
together with theorems about the embedded code.

Modelling conventions, used throughout:

* C++ raw pointers (`const char*`, `DocTuple*`, `DocArr*`, `DictObj*`)
  are modelled as numeric addresses (`Nat`) into an explicit `Heap`.
  Pointer equality is address equality; dereferencing a non-allocated
  address yields `none` (the source would have undefined behaviour there).
* `int` and `long long` are modelled as unbounded `Int`.  In the source
  the parser's numeric accumulators cannot overflow (widening to the next
  type happens strictly before the 2^31 / 2^63 boundaries can be reached),
  so this is exact on every execution path the theorems exercise.
* `float`, `double` and `long double` are modelled exactly as values of
  the subring ℤ[1/10]: a mantissa times a power of ten (`Dec` below) —
  every floating computation the embedded code performs (integer
  accumulation and multiplication by powers of ten) is closed in this
  subring.  Theorems that talk about floating values only do so at
  inputs where every double operation performed by the source is exact
  (small integers below 2^53), so the model agrees with IEEE doubles
  there; no theorem relies on rounded values.
* `while` loops are embedded either as structural recursion on the
  remaining input or as fuel-indexed step functions mirroring one loop
  iteration per fuel tick; running out of fuel yields `none`.
* Code paths that are undefined behaviour in the source (out-of-bounds
  indexing, out-of-bounds stores) are embedded bounds-guarded: the guard
  failing marks exactly the states where the source writes or reads
  outside an allocation.
-/

namespace JoSonM

/-- The `JoSon::Type` enumeration (Doc.h lines 20-40). -/
inductive Ty
  | Char
  | Int
  | LLong
  | Float
  | Double
  | LDouble
  | Bool
  | Str
  | Nullptr
  | Tuple
  | Array
  | Dict
deriving DecidableEq

/-- An exact decimal value `man * 10 ^ exp`, the model of the C++
floating types.  The representation is not normalized; `Dec.toRat` gives
the denoted rational value. -/
structure Dec where
  man : Int
  exp : Int
deriving DecidableEq

/-- The rational value denoted by a `Dec`. -/
def Dec.toRat (x : Dec) : ℚ := (x.man : ℚ) * (10 : ℚ) ^ x.exp

/-- Injection of an integer. -/
def Dec.fromInt (i : Int) : Dec := ⟨i, 0⟩

/-- Exact product (the model of a double multiplication whose result is
representable). -/
def Dec.mul (x y : Dec) : Dec := ⟨x.man * y.man, x.exp + y.exp⟩

/-- Exact sum, aligning the two scales. -/
def Dec.add (x y : Dec) : Dec :=
  if x.exp ≤ y.exp then ⟨x.man + y.man * 10 ^ (y.exp - x.exp).toNat, x.exp⟩
  else ⟨x.man * 10 ^ (x.exp - y.exp).toNat + y.man, y.exp⟩

/-- `pow(10.0, e)` for an integral exponent, as an exact decimal.  (For
negative `e` the C++ double result is rounded; the model keeps the exact
value — see the float note at the top of the file.) -/
def Dec.pow10 (e : Int) : Dec := ⟨1, e⟩

/-- Negation. -/
def Dec.neg (x : Dec) : Dec := ⟨-x.man, x.exp⟩

/-- The `Variant` payload (Doc.h lines 396-398):
`std::variant<char, int, long long, float, double, long double, bool,
const char*, nullptr_t, DocTuple*, DocArr*, DictObj*>`.  `char` is kept
as its integer value (the serializer prints it as an integer); pointer
members hold heap addresses. -/
inductive Val
  | vchar (c : Int)
  | vint (i : Int)
  | vllong (i : Int)
  | vfloat (q : Dec)
  | vdouble (q : Dec)
  | vldouble (q : Dec)
  | vbool (b : Bool)
  | vstr (p : Nat)
  | vnull
  | vtup (p : Nat)
  | varr (p : Nat)
  | vdict (p : Nat)
deriving DecidableEq

/-- `JoSon::Doc` (Doc.h 408-807): a type tag `t` plus the variant `var`. -/
structure Doc where
  t : Ty
  var : Val
deriving DecidableEq

/-- A default-constructed `Doc` (Doc.cpp 491): type `Nullptr`, value null. -/
def nullDoc : Doc := ⟨Ty.Nullptr, Val.vnull⟩

/-- `JoSon::DocArr` (Doc.h 189-377).  `arr` is the owned buffer: a list of
length `cap` whose slots at index ≥ `s` hold default-constructed null
documents (`new Doc[cap]` default-constructs every slot). -/
structure ArrObj where
  arr : List Doc
  s : Nat
  cap : Nat
deriving DecidableEq

/-- `JoSon::DocTuple` (Doc.h 54-180).  `tpl` is `none` when the tuple is
the uninitialized sentinel (`tpl == nullptr`). -/
structure TupObj where
  tpl : Option (List Doc)
  s : Nat
deriving DecidableEq

/-- `DocArr::DocArr()` (Doc.cpp 103): capacity-8 buffer of null docs, size 0. -/
def ArrObj.default8 : ArrObj := ⟨List.replicate 8 nullDoc, 0, 8⟩

/-- `DocArr::DocArr(size_t capacity)` (Doc.cpp 114-118). -/
def ArrObj.ofCapacity (capacity : Nat) : ArrObj :=
  ⟨List.replicate capacity nullDoc, 0, capacity⟩

/-- `DocArr::full` (Doc.cpp 123): `s == cap`. -/
def ArrObj.full (a : ArrObj) : Bool := a.s = a.cap

/-- `DocArr::emplace_back` (Doc.cpp 139-150).  If the array is not full the
document is stored at index `s` and `s` is incremented; otherwise the
capacity doubles, the `s` live elements are copied into a fresh
default-initialized buffer, and the document is stored at index `s`. -/
def ArrObj.emplace_back (a : ArrObj) (doc : Doc) : ArrObj :=
  if a.full then
    let cap := a.cap * 2
    ⟨(a.arr.take a.s ++ List.replicate (cap - a.s) nullDoc).set a.s doc, a.s + 1, cap⟩
  else
    ⟨a.arr.set a.s doc, a.s + 1, a.cap⟩

/-- `DocArr::pop_back` (Doc.cpp 153-161).  On an empty array it returns
`false` and changes nothing.  Otherwise the source executes
`arr[s] = Doc(Type::Nullptr); s--;` — a store at index `s` (the *old*
size) into the buffer of length `cap`.  The store is embedded
bounds-guarded: `none` marks the states where index `s` is outside the
buffer, i.e. where the source writes past the end of the allocation. -/
def ArrObj.pop_back (a : ArrObj) : Option (Bool × ArrObj) :=
  if a.s = 0 then some (false, a)
  else if a.s < a.cap then some (true, ⟨a.arr.set a.s nullDoc, a.s - 1, a.cap⟩)
  else none

/-- `DocArr::DocArr(const DocArr&)` (Doc.cpp 219-223): a deep copy — a fresh
buffer of length `cap`, with the `s` live elements copied over. -/
def ArrObj.copyCtor (other : ArrObj) : ArrObj :=
  ⟨other.arr.take other.s ++ List.replicate (other.cap - other.s) nullDoc, other.s, other.cap⟩

/-- `DictObj` (Doc.h 386): `std::unordered_map<const char*, Doc>`.  The key
type is the raw `const char*` pointer, so key identity is pointer
identity; the pointed-to characters live in the heap's string store.  The
map is modelled as an association list of (key address, document); the
unordered_map's unspecified iteration order is fixed as insertion order. -/
abbrev DictObjM := List (Nat × Doc)

/-- `(*map)[key] = doc` (Doc.cpp 689): if an entry whose key is
pointer-equal to `key` exists its value is replaced, otherwise a new
entry is inserted. -/
def mapUpsert : List (Nat × Doc) → Nat → Doc → List (Nat × Doc)
  | [], k, d => [(k, d)]
  | (k0, d0) :: rest, k, d =>
    if k0 = k then (k0, d) :: rest else (k0, d0) :: mapUpsert rest k d

/-- The store of heap-allocated objects.  Every `new` draws a fresh
address from `nextId`; the four stores keep the live allocations of each
object kind (C++ addresses of distinct objects are distinct, which the
single counter models). -/
structure Heap where
  nextId : Nat
  arrs : Nat → Option ArrObj
  tups : Nat → Option TupObj
  dicts : Nat → Option DictObjM
  strs : Nat → Option String

def Heap.empty : Heap := ⟨0, fun _ => none, fun _ => none, fun _ => none, fun _ => none⟩

def Heap.setArr (h : Heap) (p : Nat) (a : ArrObj) : Heap :=
  { h with arrs := fun i => if i = p then some a else h.arrs i }

def Heap.setTup (h : Heap) (p : Nat) (a : TupObj) : Heap :=
  { h with tups := fun i => if i = p then some a else h.tups i }

def Heap.setDict (h : Heap) (p : Nat) (m : DictObjM) : Heap :=
  { h with dicts := fun i => if i = p then some m else h.dicts i }

def Heap.setStr (h : Heap) (p : Nat) (s : String) : Heap :=
  { h with strs := fun i => if i = p then some s else h.strs i }

def Heap.freeArr (h : Heap) (p : Nat) : Heap :=
  { h with arrs := fun i => if i = p then none else h.arrs i }

def Heap.freeTup (h : Heap) (p : Nat) : Heap :=
  { h with tups := fun i => if i = p then none else h.tups i }

def Heap.freeDict (h : Heap) (p : Nat) : Heap :=
  { h with dicts := fun i => if i = p then none else h.dicts i }

def Heap.freeStr (h : Heap) (p : Nat) : Heap :=
  { h with strs := fun i => if i = p then none else h.strs i }

/-- Allocate a fresh array object (`new DocArr...`). -/
def Heap.allocArr (h : Heap) (a : ArrObj) : Heap × Nat :=
  ({ h.setArr h.nextId a with nextId := h.nextId + 1 }, h.nextId)

/-- Allocate a fresh tuple object (`new DocTuple...`). -/
def Heap.allocTup (h : Heap) (a : TupObj) : Heap × Nat :=
  ({ h.setTup h.nextId a with nextId := h.nextId + 1 }, h.nextId)

/-- Allocate a fresh map object (`new DictObj`). -/
def Heap.allocDict (h : Heap) (m : DictObjM) : Heap × Nat :=
  ({ h.setDict h.nextId m with nextId := h.nextId + 1 }, h.nextId)

/-- Allocate a fresh character buffer (`new char[...]`). -/
def Heap.allocStr (h : Heap) (s : String) : Heap × Nat :=
  ({ h.setStr h.nextId s with nextId := h.nextId + 1 }, h.nextId)

/-- `Doc::delete_var` (Doc.cpp 255-288) together with the destructors it
triggers: deleting an owned container destroys its element documents
recursively, then frees the container's own allocation; deleting an owned
string frees the character buffer.  Destroying a `DictObj` does not free
the key strings (the source never deletes map keys).  The recursion is
fuel-indexed; on the acyclic heaps built by the public interface any fuel
at least the tree height behaves like the source. -/
def delete_var (h : Heap) (d : Doc) : Nat → Heap
  | 0 => h
  | fuel + 1 =>
    match d.t, d.var with
    | Ty.Array, Val.varr p =>
      match h.arrs p with
      | some a => (a.arr.foldl (fun hh dd => delete_var hh dd fuel) h).freeArr p
      | none => h.freeArr p
    | Ty.Tuple, Val.vtup p =>
      match h.tups p with
      | some a =>
        (((a.tpl).getD []).foldl (fun hh dd => delete_var hh dd fuel) h).freeTup p
      | none => h.freeTup p
    | Ty.Dict, Val.vdict p =>
      match h.dicts p with
      | some m => (m.foldl (fun hh kd => delete_var hh kd.2 fuel) h).freeDict p
      | none => h.freeDict p
    | Ty.Str, Val.vstr p => h.freeStr p
    | _, _ => h

/-- `Doc::Doc(Type)` (Doc.cpp 447-486): a zero/empty value of the given
type.  The container cases allocate (`new DocTuple()`, `new DocArr()`,
`new DictObj`); the `Str` case installs the static empty string, modelled
as a fresh allocation holding `""`. -/
def Doc.ofType (h : Heap) (ty : Ty) : Heap × Doc :=
  match ty with
  | Ty.Char => (h, ⟨Ty.Char, Val.vchar 0⟩)
  | Ty.Int => (h, ⟨Ty.Int, Val.vint 0⟩)
  | Ty.LLong => (h, ⟨Ty.LLong, Val.vllong 0⟩)
  | Ty.Float => (h, ⟨Ty.Float, Val.vfloat (Dec.fromInt 0)⟩)
  | Ty.Double => (h, ⟨Ty.Double, Val.vdouble (Dec.fromInt 0)⟩)
  | Ty.LDouble => (h, ⟨Ty.LDouble, Val.vldouble (Dec.fromInt 0)⟩)
  | Ty.Bool => (h, ⟨Ty.Bool, Val.vbool false⟩)
  | Ty.Str =>
    let (h', p) := h.allocStr ""
    (h', ⟨Ty.Str, Val.vstr p⟩)
  | Ty.Nullptr => (h, nullDoc)
  | Ty.Tuple =>
    let (h', p) := h.allocTup ⟨none, 0⟩
    (h', ⟨Ty.Tuple, Val.vtup p⟩)
  | Ty.Array =>
    let (h', p) := h.allocArr ArrObj.default8
    (h', ⟨Ty.Array, Val.varr p⟩)
  | Ty.Dict =>
    let (h', p) := h.allocDict []
    (h', ⟨Ty.Dict, Val.vdict p⟩)

/-- `Doc::get_type` (Doc.cpp 680). -/
def Doc.get_type (d : Doc) : Ty := d.t

/-- `Doc::size` (Doc.cpp 621-647): 1 for primitives, element/entry count
for containers (read through the stored pointer), 0 for null.  `none`
marks a dangling or type-inconsistent pointer read (`std::get` throwing
or undefined behaviour in the source). -/
def Doc.sizeH (h : Heap) (d : Doc) : Option Nat :=
  match d.t with
  | Ty.Tuple => match d.var with
    | Val.vtup p => (h.tups p).map TupObj.s
    | _ => none
  | Ty.Array => match d.var with
    | Val.varr p => (h.arrs p).map ArrObj.s
    | _ => none
  | Ty.Dict => match d.var with
    | Val.vdict p => (h.dicts p).map List.length
    | _ => none
  | Ty.Nullptr => some 0
  | _ => some 1

/-- Errors surfaced by the document mutators: `wrongKind` models the
`std::runtime_error` throws, `dangling` marks dereferencing a freed
pointer (undefined behaviour in the source), `oobStore` marks the
out-of-bounds store described at `ArrObj.pop_back`. -/
inductive DocErr
  | wrongKind
  | dangling
  | oobStore
deriving DecidableEq

/-- `Doc::upsert` (Doc.cpp 682-695): valid only on `Dict`-kind documents
holding a map pointer; inserts or overwrites under pointer-keyed lookup. -/
def Doc.upsert (h : Heap) (d : Doc) (key : Nat) (doc : Doc) : Except DocErr Heap :=
  match d.t, d.var with
  | Ty.Dict, Val.vdict p =>
    match h.dicts p with
    | some m => Except.ok (h.setDict p (mapUpsert m key doc))
    | none => Except.error DocErr.dangling
  | _, _ => Except.error DocErr.wrongKind

/-- `Doc::emplace_back` (Doc.cpp 717-727): valid only on `Array`-kind
documents; appends to the owned array through the stored pointer. -/
def Doc.emplace_back (h : Heap) (d : Doc) (doc : Doc) : Except DocErr Heap :=
  match d.t, d.var with
  | Ty.Array, Val.varr p =>
    match h.arrs p with
    | some a => Except.ok (h.setArr p (a.emplace_back doc))
    | none => Except.error DocErr.dangling
  | _, _ => Except.error DocErr.wrongKind

/-- `Doc::pop_back` (Doc.cpp 729-737): valid only on `Array`-kind
documents; delegates to `DocArr::pop_back` on the owned array. -/
def Doc.pop_back (h : Heap) (d : Doc) : Except DocErr (Bool × Heap) :=
  match d.t, d.var with
  | Ty.Array, Val.varr p =>
    match h.arrs p with
    | some a =>
      match a.pop_back with
      | some (b, a') => Except.ok (b, h.setArr p a')
      | none => Except.error DocErr.oobStore
    | none => Except.error DocErr.dangling
  | _, _ => Except.error DocErr.wrongKind

/-- `Doc::operator=` (Doc.cpp 868-875) in the `this != &other` case: the
destination's payload is released (`delete_var`) and then `t` and `var`
are copied verbatim.  For container kinds `var` is a pointer, so after
the assignment destination and source share the same heap object; no
copy of the container is made.  (Self-assignment is a no-op in the
source and needs no separate model.) -/
def Doc.assign (h : Heap) (dst src : Doc) (fuel : Nat) : Heap × Doc :=
  (delete_var h dst fuel, ⟨src.t, src.var⟩)

/-! ## Decimal formatting helpers (used by the serializer) -/

/-- Little helper: the decimal digits of `n` (most significant first),
fuel-indexed so that it is structural; `natToString` supplies ample fuel. -/
def natDigitsGo : Nat → Nat → List Char
  | 0, _ => []
  | fuel + 1, n =>
    if n < 10 then [Char.ofNat (48 + n)]
    else natDigitsGo fuel (n / 10) ++ [Char.ofNat (48 + n % 10)]

/-- Decimal rendering of a natural number. -/
def natToString (n : Nat) : String := String.mk (natDigitsGo (n + 1) n)

/-- `std::to_string` on an integer value: optional minus sign followed by
the decimal digits of the absolute value. -/
def intToString (i : Int) : String :=
  (if i < 0 then "-" else "") ++ natToString i.natAbs

/-- The thousands-grouping loop of `prim_to_str` (Doc.cpp 313-316 and
330-332): `_` is inserted every three digits counted from the right.
Works on the reversed digit list, emitting `_` after every third digit
when more digits remain. -/
def groupRevGo : Nat → List Char → List Char
  | _, [] => []
  | 0, c :: cs => '_' :: c :: groupRevGo 2 cs
  | k + 1, c :: cs => c :: groupRevGo k cs

/-- Insert `_` separators every three digits from the right. -/
def groupUnderscore (s : String) : String :=
  String.mk (groupRevGo 3 s.toList.reverse).reverse

/-- Round an exact decimal to the nearest integer, ties to even — the
default IEEE rounding used when `printf` converts a double to decimal. -/
def Dec.roundHE (x : Dec) : Int :=
  if 0 ≤ x.exp then x.man * 10 ^ x.exp.toNat
  else
    let b : Int := 10 ^ (-x.exp).toNat
    let q := Int.fdiv x.man b
    let r := x.man - q * b
    if 2 * r < b then q
    else if b < 2 * r then q + 1
    else if q % 2 = 0 then q else q + 1

/-- Pad a digit string with leading zeros up to `len` characters. -/
def padZeros (s : String) (len : Nat) : String :=
  String.mk (List.replicate (len - s.length) '0') ++ s

/-- `std::to_string` on a floating value: `%f`, i.e. fixed-point with six
decimal places, of the exact decimal modelling the double. -/
def fixed6 (x : Dec) : String :=
  let n := (Dec.roundHE (Dec.mul ⟨|x.man|, x.exp⟩ (Dec.pow10 6))).toNat
  (if x.man < 0 then "-" else "") ++
    natToString (n / 1000000) ++ "." ++ padZeros (natToString (n % 1000000)) 6

/-- The decimal exponent of a nonzero exact decimal: the `e` with
`10^e ≤ |x| < 10^(e+1)`, from the mantissa's digit count. -/
def decExponent (x : Dec) : Int :=
  ((natDigitsGo (x.man.natAbs + 1) x.man.natAbs).length : Int) - 1 + x.exp

/-- `%.<prec>e` scientific formatting of the exact decimal modelling a
double: one leading digit, `prec` fractional digits, `e`±two-digit
exponent.  (Used only by the visualized float renderings; no theorem
below relies on its digits.) -/
def sciFormat (x : Dec) (prec : Nat) : String :=
  if x.man = 0 then "0." ++ String.mk (List.replicate prec '0') ++ "e+00"
  else
    let e := decExponent x
    let m0 := Dec.roundHE (Dec.mul ⟨|x.man|, x.exp⟩ (Dec.pow10 ((prec : Int) - e)))
    let me : Int × Int := if m0 = 10 ^ (prec + 1) then ((10 : Int) ^ prec, e + 1) else (m0, e)
    let ds := natToString me.1.toNat
    (if x.man < 0 then "-" else "") ++ String.mk (ds.toList.take 1) ++ "." ++
      padZeros (String.mk (ds.toList.drop 1)) prec ++ "e" ++
      (if me.2 < 0 then "-" else "+") ++ padZeros (natToString me.2.natAbs) 2

/-! ## The serializer: `prim_to_str` and the iterative `Doc::str` machine -/

/-- `Doc::prim_to_str` (Doc.cpp 293-396).  `none` marks reading the
variant at the wrong alternative (`std::get` throwing) or through a
dangling string pointer.  Container kinds fall through the switch and
yield the empty string, as in the source. -/
def primToStr (h : Heap) (visualize : Bool) (d : Doc) : Option String :=
  match d.t, d.var with
  | Ty.Char, Val.vchar c =>
    some (if visualize then "'" ++ String.mk [Char.ofNat c.toNat] ++ "'" else intToString c)
  | Ty.Int, Val.vint v =>
    some (if visualize then (if v < 0 then "-" else "") ++ groupUnderscore (natToString v.natAbs)
          else intToString v)
  | Ty.LLong, Val.vllong v =>
    some (if visualize then (if v < 0 then "-" else "") ++ groupUnderscore (natToString v.natAbs)
          else intToString v)
  | Ty.Float, Val.vfloat q => some (if visualize then sciFormat q 4 else fixed6 q)
  | Ty.Double, Val.vdouble q => some (if visualize then sciFormat q 8 else fixed6 q)
  | Ty.LDouble, Val.vldouble q => some (if visualize then sciFormat q 12 else fixed6 q)
  | Ty.Bool, Val.vbool b =>
    some (if visualize then (if b then "True" else "False") else (if b then "true" else "false"))
  | Ty.Nullptr, _ => some (if visualize then "NullPtr" else "null")
  | Ty.Str, Val.vstr p =>
    (h.strs p).map (fun s =>
      "\"" ++ String.mk (s.toList.map (fun ch => if ch = '"' then '\'' else ch)) ++ "\"")
  | Ty.Tuple, _ => some ""
  | Ty.Array, _ => some ""
  | Ty.Dict, _ => some ""
  | _, _ => none

/-- The element list a container document exposes through `operator()`
(Doc.cpp 753-772): the first `s` slots of the owned buffer.  `none` when
the buffer is missing or shorter than `s` (the reads would be
out-of-bounds in the source). -/
def Doc.elems (h : Heap) (d : Doc) : Option (List Doc) :=
  match d.var with
  | Val.varr p =>
    (h.arrs p).bind (fun a => if a.s ≤ a.arr.length then some (a.arr.take a.s) else none)
  | Val.vtup p =>
    (h.tups p).bind (fun a =>
      match a.tpl with
      | some l => if a.s ≤ l.length then some (l.take a.s) else none
      | none => none)
  | _ => none

/-- One stack entry of the `Doc::str` machine (Doc.cpp 776):
`(node pointer, prefix text, depth)`. -/
structure RFrame where
  d : Doc
  pre : String
  lvl : Nat

/-- Text appended when draining the bracket stack at the end of
`Doc::str` (Doc.cpp 813-817): each closing bracket, with a newline
before every `}`. -/
def drainText : List Char → String
  | [] => ""
  | c :: cs => (if c = '}' then "\n" else "") ++ String.mk [c] ++ drainText cs

/-- The level-closing loop of `Doc::str` (Doc.cpp 828-837): pop closing
brackets while `lvl > down` and the bracket stack is not empty, with a
newline before each `}`, and `",\n"` once when `lvl` reaches `down`.
Returns the appended text and the remaining bracket stack. -/
def closePops (down : Nat) : Nat → List Char → String × List Char
  | _, [] => ("", [])
  | lvl, c :: cs =>
    if down < lvl then
      let rec_ := closePops down (lvl - 1) cs
      ((if c = '}' then "\n" else "") ++ String.mk [c] ++
        (if lvl - 1 = down then ",\n" else "") ++ rec_.1, rec_.2)
    else ("", c :: cs)

/-- The empty-container text of `Doc::str` (Doc.cpp 793-808). -/
def emptyContainerText (visualize : Bool) (t : Ty) : String :=
  if t = Ty.Tuple ∧ visualize then "(Null)"
  else if t = Ty.Array ∧ visualize then "[Null]"
  else if t = Ty.Dict ∧ visualize then "\x7bNull\x7d"
  else if t = Ty.Dict then "\x7b\x7d"
  else "[]"

/-- One `while` iteration of `Doc::str` per fuel tick (Doc.cpp 779-864).
The machine pops a frame, appends its prefix, then either renders a
primitive / empty container and handles the separator-and-closing logic,
or pushes the container's children (elements in reverse so the first
child is processed first; dictionary entries in iteration order, which
the stack then serves in reverse). -/
def strLoop (h : Heap) (visualize : Bool) :
    Nat → List RFrame → List Char → String → Option String
  | 0, _, _, _ => none
  | _ + 1, [], _, result => some result
  | fuel + 1, fr :: rest, char_stk, result =>
    let doc := fr.d
    let result := result ++ fr.pre
    match Doc.sizeH h doc with
    | none => none
    | some sz =>
      if (doc.t ≠ Ty.Tuple ∧ doc.t ≠ Ty.Array ∧ doc.t ≠ Ty.Dict) ∨ sz = 0 then
        match
          (if sz = 1 ∨ doc.t = Ty.Nullptr then primToStr h visualize doc
           else some (emptyContainerText visualize doc.t)) with
        | none => none
        | some txt =>
          match rest with
          | [] => some (result ++ txt ++ drainText char_stk)
          | nxt :: _ =>
            let down := nxt.lvl
            let sep := if fr.lvl = down then ", " ++ (if fr.pre ≠ "" then "\n" else "") else ""
            let cp := closePops down fr.lvl char_stk
            strLoop h visualize fuel rest cp.2 (result ++ txt ++ sep ++ cp.1)
      else if doc.t = Ty.Tuple ∨ doc.t = Ty.Array then
        match Doc.elems h doc with
        | none => none
        | some els =>
          let oc : Char × Char :=
            if visualize ∧ doc.t = Ty.Tuple then ('(', ')') else ('[', ']')
          strLoop h visualize fuel
            (els.map (fun e => ⟨e, "", fr.lvl + 1⟩) ++ rest)
            (oc.2 :: char_stk) (result ++ String.mk [oc.1])
      else
        match doc.var with
        | Val.vdict p =>
          match h.dicts p with
          | none => none
          | some m =>
            match m.mapM (fun kd => (h.strs kd.1).map (fun k =>
                RFrame.mk kd.2 ("\"" ++ k ++ "\": ") (fr.lvl + 1))) with
            | none => none
            | some fs =>
              strLoop h visualize fuel (fs.reverse ++ rest)
                ('}' :: char_stk) (result ++ "\x7b\n")
        | _ => none

/-- `Doc::str` (Doc.cpp 774-866), fuel-indexed: seed the stack with the
root document, empty prefix, level 0. -/
def Doc.str (h : Heap) (d : Doc) (visualize : Bool) (fuel : Nat) : Option String :=
  strLoop h visualize fuel [⟨d, "", 0⟩] [] ""

/-! ## The primitive scanner: `string_to_prim_doc` (Joson.cpp 41-191) -/

/-- Indexing into the parser's `const char*` input: reads at or past the
end of the string yield the NUL terminator.  (The source's `c_str()`
guarantees this at index = length; every loop below stops at NUL, so
positions beyond length + 1 are never reached on the paths the theorems
exercise.) -/
def cAt (input : List Char) (i : Nat) : Char := input.getD i (Char.ofNat 0)

/-- `strncmp(input + pos, lit, lit.length) == 0`. -/
def strncmpEq (input : List Char) : Nat → List Char → Bool
  | _, [] => true
  | pos, c :: cs => cAt input pos = c && strncmpEq input (pos + 1) cs

/-- `'0' <= c && c <= '9'`. -/
def isDigitC (c : Char) : Bool := '0' ≤ c && c ≤ '9'

/-- The state of the numeric-literal branch (Joson.cpp 75-97):
`sign` is carried separately by the caller. -/
structure NumSt where
  t : Ty
  floating : Nat
  len : Nat
  int_val : Int
  long_val : Int
  decimal : Dec
  has_point : Bool
  pos : Nat
deriving DecidableEq

/-- Result of the digit-reading loop: either a normal exit (`done` with
the loop state) or the early `return Doc(Type::Nullptr)` taken on a
second decimal point (Joson.cpp 103-105), with the position of that
point. -/
inductive NumLoopRes
  | done (st : NumSt)
  | nullEarly (pos : Nat)
deriving DecidableEq

/-- The digit-reading loop (Joson.cpp 100-144).  `int` widens to
`long long` when a digit arrives with `len == 9` already; `long long`
widens to `double` when a digit arrives with `len == 16`; a decimal
point widens to `double` immediately and a second one returns null.
Fuel `input.length + 2` always suffices: each iteration advances `pos`
and the loop exits on the NUL at the end of the input. -/
def numLoop (input : List Char) : Nat → NumSt → Option NumLoopRes
  | 0, _ => none
  | fuel + 1, st =>
    let c := cAt input st.pos
    if isDigitC c || c = '.' then
      if c = '.' then
        if st.has_point then some (NumLoopRes.nullEarly st.pos)
        else
          let dec2 : Dec :=
            if st.t = Ty.Int then Dec.fromInt st.int_val
            else if st.t = Ty.LLong then Dec.fromInt st.long_val
            else st.decimal
          numLoop input fuel
            { st with has_point := true, decimal := dec2, t := Ty.Double, pos := st.pos + 1 }
      else
        let st1 :=
          if st.t = Ty.Int ∧ st.len = 9 then
            { st with t := Ty.LLong, long_val := st.int_val } else st
        let st2 :=
          if st1.t = Ty.LLong ∧ st1.len = 16 then
            { st1 with t := Ty.Double, decimal := Dec.fromInt st1.long_val } else st1
        let st3 := if st2.has_point then { st2 with floating := st2.floating + 1 } else st2
        let d : Int := (c.toNat - 48 : Nat)
        let st4 :=
          if st3.t = Ty.Int then { st3 with int_val := st3.int_val * 10 + d }
          else if st3.t = Ty.LLong then { st3 with long_val := st3.long_val * 10 + d }
          else { st3 with
            decimal := Dec.add (Dec.mul st3.decimal (Dec.fromInt 10)) (Dec.fromInt d) }
        numLoop input fuel { st4 with len := st4.len + 1, pos := st4.pos + 1 }
    else some (NumLoopRes.done st)

/-- The exponent-digit loop (Joson.cpp 162-166): accumulate the exponent
value, advancing past the digits.  (The source accumulates into a
`double`; the accumulated value is always a small integer, kept here as
`Nat`.) -/
def expLoop (input : List Char) : Nat → Nat → Nat → Nat × Nat
  | 0, acc, pos => (acc, pos)
  | fuel + 1, acc, pos =>
    let c := cAt input pos
    if isDigitC c then expLoop input fuel (acc * 10 + (c.toNat - 48)) (pos + 1)
    else (acc, pos)

/-- The trailing-garbage loop (Joson.cpp 187-189): skip forward until
NUL, `,` or the caller's closing delimiter.  Fuel `input.length + 2`
always suffices (the loop stops at the NUL at the end of the input). -/
def skipGarbage (input : List Char) (fin : Char) : Nat → Nat → Nat
  | 0, pos => pos
  | fuel + 1, pos =>
    let c := cAt input pos
    if c = Char.ofNat 0 ∨ c = ',' ∨ c = fin then pos
    else skipGarbage input fin fuel (pos + 1)

/-- Is the character one of the literal terminators accepted at
Joson.cpp 170-172: NUL, space, comma, tab, newline, carriage return, or
the caller-supplied delimiter `fin`? -/
def isTermChar (c fin : Char) : Bool :=
  c = Char.ofNat 0 || c = ' ' || c = ',' || c = '\t' || c = '\n' || c = '\r' || c = fin

/-- `string_to_prim_doc` (Joson.cpp 41-191).  Recognizes, in order:
a quoted string (terminated by the next `"`; `none` marks the
unterminated case, where the source's scan loop leaves the buffer), the
literals `true` / `false` / `null`, and a numeric literal with the
widening behaviour of `numLoop`; everything else, and a numeric literal
not followed by a terminator, skips to the next delimiter and yields a
null document.  Returns (heap, document, new position). -/
def string_to_prim_doc (input : List Char) (pos : Nat) (fin : Char) (h : Heap) :
    Option (Heap × Doc × Nat) :=
  if cAt input pos = '"' then
    match (input.drop (pos + 1)).findIdx? (fun c => c = '"') with
    | none => none
    | some j =>
      let content := String.mk ((input.drop (pos + 1)).take j)
      let hp := h.allocStr content
      some (hp.1, ⟨Ty.Str, Val.vstr hp.2⟩, pos + 1 + j + 1)
  else if strncmpEq input pos ['t', 'r', 'u', 'e'] then
    some (h, ⟨Ty.Bool, Val.vbool true⟩, pos + 4)
  else if strncmpEq input pos ['f', 'a', 'l', 's', 'e'] then
    some (h, ⟨Ty.Bool, Val.vbool false⟩, pos + 5)
  else if strncmpEq input pos ['n', 'u', 'l', 'l'] then
    some (h, nullDoc, pos + 4)
  else if cAt input pos = '+' ∨ cAt input pos = '-' ∨ cAt input pos = '.' ∨
      isDigitC (cAt input pos) then
    let sign := cAt input pos ≠ '-'
    let pos1 := if cAt input pos = '-' ∨ cAt input pos = '+' then pos + 1 else pos
    let leadPoint := cAt input pos1 = '.'
    let st0 : NumSt :=
      { t := if leadPoint then Ty.Double else Ty.Int, floating := 0, len := 0,
        int_val := 0, long_val := 0, decimal := Dec.fromInt 0, has_point := leadPoint,
        pos := if leadPoint then pos1 + 1 else pos1 }
    match numLoop input (input.length + 2) st0 with
    | none => none
    | some (NumLoopRes.nullEarly p) => some (h, nullDoc, p)
    | some (NumLoopRes.done st) =>
      let st := { st with decimal := Dec.mul st.decimal (Dec.pow10 (-(st.floating : Int))) }
      let st :=
        if cAt input st.pos = 'e' ∨ cAt input st.pos = 'E' then
          let dec : Dec :=
            if st.t = Ty.Int then Dec.fromInt st.int_val
            else if st.t = Ty.LLong then Dec.fromInt st.long_val
            else st.decimal
          let p1 := st.pos + 1
          let esp : Bool × Nat :=
            if cAt input p1 = '+' ∨ cAt input p1 = '-' then (cAt input p1 ≠ '-', p1 + 1)
            else (true, p1)
          let ep := expLoop input (input.length + 2) 0 esp.2
          { st with
            t := Ty.Double,
            decimal := Dec.mul dec (Dec.pow10 (if esp.1 then (ep.1 : Int) else -(ep.1 : Int))),
            pos := ep.2 }
        else st
      if isTermChar (cAt input st.pos) fin then
        if st.t = Ty.Int then
          some (h, ⟨Ty.Int, Val.vint (if sign then st.int_val else -st.int_val)⟩, st.pos)
        else if st.t = Ty.LLong then
          some (h, ⟨Ty.LLong, Val.vllong (if sign then st.long_val else -st.long_val)⟩, st.pos)
        else
          some (h, ⟨Ty.Double, Val.vdouble (if sign then st.decimal else st.decimal.neg)⟩, st.pos)
      else some (h, nullDoc, skipGarbage input fin (input.length + 2) st.pos)
  else some (h, nullDoc, skipGarbage input fin (input.length + 2) pos)

/-! ## Basic lemmas about the heap and the array operations -/

theorem Heap.setArr_arrs_self (h : Heap) (p : Nat) (a : ArrObj) :
    (h.setArr p a).arrs p = some a := by
  simp [Heap.setArr]

theorem Heap.setArr_self (h : Heap) (p : Nat) (a : ArrObj) (hp : h.arrs p = some a) :
    h.setArr p a = h := by
  cases h with
  | mk nextId arrs tups dicts strs =>
    simp only [Heap.setArr, Heap.mk.injEq, and_true, true_and]
    funext i
    by_cases hi : i = p
    · subst hi; simpa using hp.symm
    · simp [hi]

theorem ArrObj.emplace_back_s (a : ArrObj) (doc : Doc) :
    (a.emplace_back doc).s = a.s + 1 := by
  unfold ArrObj.emplace_back
  split <;> rfl

theorem delete_var_null (h : Heap) (d : Doc) (fuel : Nat) (hd : d.t = Ty.Nullptr) :
    delete_var h d fuel = h := by
  cases fuel with
  | zero => rfl
  | succ n =>
    cases d with
    | mk t var =>
      cases hd
      cases var <;> rfl

/-! ## Claim C7 — popping an empty sequence -/

/-- C7: for every empty sequence (an `Array`-kind document whose owned
`DocArr` has size 0), `Doc::pop_back` returns `false` as a failure
indicator, leaves the heap — in particular the size — unchanged, and
raises no error (`Except.ok`, not `Except.error`): a normal recoverable
outcome, not an exception path, and the size never underflows. -/
theorem pop_back_empty_ok (h : Heap) (d : Doc) (p : Nat) (A : ArrObj)
    (ht : d.t = Ty.Array) (hv : d.var = Val.varr p)
    (hp : h.arrs p = some A) (hs : A.s = 0) :
    Doc.pop_back h d = Except.ok (false, h) := by
  cases d with
  | mk t var =>
    cases ht
    cases hv
    have hpop : A.pop_back = some (false, A) := by
      unfold ArrObj.pop_back
      rw [if_pos hs]
    simp only [Doc.pop_back, hp, hpop]
    rw [Heap.setArr_self h p A hp]

/-- Witness for `pop_back_empty_ok` at a concrete freshly constructed
empty `Array`-kind document. -/
theorem pop_back_empty_ok_witness :
    Doc.pop_back (Doc.ofType Heap.empty Ty.Array).1 (Doc.ofType Heap.empty Ty.Array).2
      = Except.ok (false, (Doc.ofType Heap.empty Ty.Array).1) :=
  pop_back_empty_ok _ _ 0 ArrObj.default8 rfl rfl rfl rfl

/-! ## Claim C10 — the store performed by `pop_back` on a full array -/

/-- C10: the state reached from a default-constructed `DocArr` by exactly
8 `emplace_back` calls has `s = 8 = cap`, and on it the bounds-guarded
embedding of `pop_back` takes its error branch (`none`): the source's
store `arr[s] = Doc(Type::Nullptr)` targets index 8 of an 8-slot buffer,
one past the end of the allocation.  This refutes the claim that the
store index is always strictly below the capacity on reachable states. -/
theorem pop_back_store_out_of_bounds :
    ((((((((ArrObj.default8.emplace_back nullDoc).emplace_back
      nullDoc).emplace_back nullDoc).emplace_back nullDoc).emplace_back
      nullDoc).emplace_back nullDoc).emplace_back nullDoc).emplace_back nullDoc).s = 8 ∧
    ((((((((ArrObj.default8.emplace_back nullDoc).emplace_back
      nullDoc).emplace_back nullDoc).emplace_back nullDoc).emplace_back
      nullDoc).emplace_back nullDoc).emplace_back nullDoc).emplace_back nullDoc).cap = 8 ∧
    ((((((((ArrObj.default8.emplace_back nullDoc).emplace_back
      nullDoc).emplace_back nullDoc).emplace_back nullDoc).emplace_back
      nullDoc).emplace_back nullDoc).emplace_back nullDoc).emplace_back nullDoc).pop_back
      = none := by
  decide

/-! ## The top-level parser: `string_to_doc` (Joson.cpp 193-376) -/

/-- Failure modes of the embedded parser: `fuelOut` marks exhaustion of
the step budget (the source loop simply keeps running); `ubRead` marks an
out-of-bounds read — `std::string::operator[]` beyond the terminator, or
the quote scan of `string_to_prim_doc` leaving the buffer — which is
undefined behaviour in the source. -/
inductive PErr
  | fuelOut
  | ubRead
deriving DecidableEq

/-- Events the parser writes to the standard streams, in order:
`text` models a direct `std::cout`/`std::cerr` print, `bar` one
`ProgressBar::update()` call together with the `(progress, total)` pair
it reads.  (`update` only reads the counters and writes to the terminal
— Viso.cpp — so its display text is irrelevant to every claim and is not
reproduced.) -/
inductive OutEvent
  | text (s : String)
  | bar (progress total : Nat)
deriving DecidableEq

/-- `std::string::operator[]`: positions below the length read the
character, position = length reads the NUL terminator, anything beyond
is undefined behaviour (`none`). -/
def stdIdx (input : List Char) (i : Nat) : Option Char :=
  if hlt : i < input.length then some (input.get ⟨i, hlt⟩)
  else if i = input.length then some (Char.ofNat 0)
  else none

/-- `SIZE_MAX`: the value of `input.size() - 1` on an empty input. -/
def SIZE_T_MAX : Nat := 2 ^ 64 - 1

/-- Is the character one of the trim set of Joson.cpp 199-201: space,
tab, newline, carriage return or NUL? -/
def isTrimChar (c : Char) : Bool :=
  c = ' ' || c = '\t' || c = '\n' || c = '\r' || c = Char.ofNat 0

/-- The leading-trim loop (Joson.cpp 198-203): advance `start` while it
is at or before `endv` and reads a trim character.  Fuel
`input.length + 3` always suffices (see `string_to_doc`). -/
def trimLeftGo (input : List Char) (endv : Nat) : Nat → Nat → Except PErr Nat
  | 0, _ => Except.error PErr.fuelOut
  | fuel + 1, start =>
    if start ≤ endv then
      match stdIdx input start with
      | none => Except.error PErr.ubRead
      | some c => if isTrimChar c then trimLeftGo input endv fuel (start + 1) else Except.ok start
    else Except.ok start

/-- The trailing-trim loop (Joson.cpp 206-210): decrement `endv` while it
is at or after `startv` and reads a trim character.  The decrement wraps
like `size_t` (`--end` at 0 gives `SIZE_MAX`; not reachable from the
public entry point, where the loop stops at `startv`). -/
def trimEndGo (input : List Char) (startv : Nat) : Nat → Nat → Except PErr Nat
  | 0, _ => Except.error PErr.fuelOut
  | fuel + 1, endv =>
    if startv ≤ endv then
      match stdIdx input endv with
      | none => Except.error PErr.ubRead
      | some c =>
        if isTrimChar c then
          trimEndGo input startv fuel (if endv = 0 then SIZE_T_MAX else endv - 1)
        else Except.ok endv
    else Except.ok endv

/-- The colon scan of the dict branch (Joson.cpp 269-275): the first
position at or after `next` holding `:`, stopping at `total`. -/
def scanColon (input : List Char) (total : Nat) : Nat → Nat → Nat
  | 0, next => next
  | fuel + 1, next =>
    if next < total then
      if cAt input next = ':' then next else scanColon input total fuel (next + 1)
    else next

/-- The key right-trim loop (Joson.cpp 285-292): decrement `right` while
`left < right` and the character at `right` is whitespace. -/
def keyTrimRight (input : List Char) (left : Nat) : Nat → Nat → Nat
  | 0, right => right
  | fuel + 1, right =>
    if left < right ∧ (cAt input right = ' ' ∨ cAt input right = '\n' ∨
        cAt input right = '\t' ∨ cAt input right = '\r') then
      keyTrimRight input left fuel (right - 1)
    else right

/-- The value-whitespace skip of the dict branch (Joson.cpp 306-314):
advance while below `total` over space, newline, tab, carriage return. -/
def skipWsVal (input : List Char) (total : Nat) : Nat → Nat → Nat
  | 0, count => count
  | fuel + 1, count =>
    if count < total then
      if cAt input count = ' ' ∨ cAt input count = '\n' ∨ cAt input count = '\t' ∨
          cAt input count = '\r' then
        skipWsVal input total fuel (count + 1)
      else count
    else count

/-- The dict-branch key extraction (Joson.cpp 280-303): strip one leading
quote, right-trim whitespace before the colon, keep a closing quote
outside the key, and widen by one character when the key was unquoted.
Returns the key text. -/
def extractKey (input : List Char) (count next : Nat) : String :=
  let left := if cAt input count = '"' then count + 1 else count
  let right := keyTrimRight input left (next + 1) (next - 1)
  let right2 := if cAt input right ≠ '"' then right + 1 else right
  String.mk ((input.drop left).take (right2 - left))

/-- The final stack drain (Joson.cpp 367-375): pop everything and return
the bottom-most document; an empty stack yields a fresh null document. -/
def drainStack : List Doc → Doc
  | [] => nullDoc
  | [d] => d
  | _ :: rest => drainStack rest

/-- One iteration of the parser's `while (count < totalCharacters)` loop
per fuel tick (Joson.cpp 243-361), followed by the epilogue of lines
362-375 when the loop condition fails.  State: heap, frame stack
(`ge_stk`, top first), cursor `count`, output log.  The stack top is
read by `ge_stk.top()` — a shallow copy sharing the container pointer —
so every mutation below goes through the heap.  `none`-like failures:
running out of fuel, a scanner reading out of bounds, and the
(unreachable from the entry point) `top()` on an empty stack. -/
def parseLoop (input : List Char) (total : Nat) (show_bar : Bool) :
    Nat → Heap → List Doc → Nat → List OutEvent → Except PErr (Heap × Doc × List OutEvent)
  | 0, _, _, _, _ => Except.error PErr.fuelOut
  | fuel + 1, h, stk, count, log =>
    if count < total then
      let c := cAt input count
      if c = ' ' ∨ c = '\n' ∨ c = '\t' ∨ c = '\r' then
        parseLoop input total show_bar fuel h stk (count + 1) log
      else
        match stk with
        | [] => Except.error PErr.ubRead
        | doc :: rest =>
          if c = ',' then parseLoop input total show_bar fuel h stk (count + 1) log
          else if c = '}' ∨ c = ']' then
            match rest with
            | [] =>
              Except.ok (h, doc, log ++
                (if show_bar then
                  [OutEvent.bar (count + 1) total, OutEvent.text "\nProgress Finished.\n"]
                 else []))
            | _ => parseLoop input total show_bar fuel h rest (count + 1) log
          else
            let barLog := fun cnt lg =>
              lg ++ (if show_bar then [OutEvent.bar cnt total] else [])
            if doc.get_type = Ty.Dict then
              let next := scanColon input total total (count + 1)
              if next = total then
                -- `count = next; break;` (Joson.cpp 276-279): fall to the epilogue
                Except.ok (h, drainStack stk, log ++
                  (if show_bar then
                    [OutEvent.bar next total, OutEvent.text "\nProgress Finished.\n"]
                   else []))
              else
                let key := extractKey input count next
                let hk := h.allocStr key
                let count3 := skipWsVal input total total (next + 1)
                if count3 = total then
                  -- `break;` (Joson.cpp 316-318): fall to the epilogue
                  Except.ok (hk.1, drainStack stk, log ++
                    (if show_bar then
                      [OutEvent.bar count3 total, OutEvent.text "\nProgress Finished.\n"]
                     else []))
                else if cAt input count3 = '{' then
                  let hd := Doc.ofType hk.1 Ty.Dict
                  match Doc.upsert hd.1 doc hk.2 hd.2 with
                  | Except.error _ => Except.error PErr.ubRead
                  | Except.ok h2 =>
                    parseLoop input total show_bar fuel h2 (hd.2 :: stk) (count3 + 1)
                      (barLog (count3 + 1) log)
                else if cAt input count3 = '[' then
                  let hd := Doc.ofType hk.1 Ty.Array
                  match Doc.upsert hd.1 doc hk.2 hd.2 with
                  | Except.error _ => Except.error PErr.ubRead
                  | Except.ok h2 =>
                    parseLoop input total show_bar fuel h2 (hd.2 :: stk) (count3 + 1)
                      (barLog (count3 + 1) log)
                else if cAt input count3 = '}' ∨ cAt input count3 = ']' ∨
                    cAt input count3 = ',' then
                  match Doc.upsert hk.1 doc hk.2 nullDoc with
                  | Except.error _ => Except.error PErr.ubRead
                  | Except.ok h2 =>
                    parseLoop input total show_bar fuel h2 stk total (barLog total log)
                else
                  match string_to_prim_doc input count3 '}' hk.1 with
                  | none => Except.error PErr.ubRead
                  | some (h2, nd, count4) =>
                    match Doc.upsert h2 doc hk.2 nd with
                    | Except.error _ => Except.error PErr.ubRead
                    | Except.ok h3 =>
                      parseLoop input total show_bar fuel h3 stk count4 (barLog count4 log)
            else if doc.get_type = Ty.Array then
              if c = '{' then
                let hd := Doc.ofType h Ty.Dict
                match Doc.emplace_back hd.1 doc hd.2 with
                | Except.error _ => Except.error PErr.ubRead
                | Except.ok h2 =>
                  parseLoop input total show_bar fuel h2 (hd.2 :: stk) (count + 1)
                    (barLog (count + 1) log)
              else if c = '[' then
                let hd := Doc.ofType h Ty.Array
                match Doc.emplace_back hd.1 doc hd.2 with
                | Except.error _ => Except.error PErr.ubRead
                | Except.ok h2 =>
                  parseLoop input total show_bar fuel h2 (hd.2 :: stk) (count + 1)
                    (barLog (count + 1) log)
              else if c = '}' then
                -- Joson.cpp 349-351; unreachable: a `}` at `count` is
                -- consumed by the generic closing case above
                match Doc.emplace_back h doc nullDoc with
                | Except.error _ => Except.error PErr.ubRead
                | Except.ok h2 =>
                  parseLoop input total show_bar fuel h2 stk total (barLog total log)
              else
                match string_to_prim_doc input count ']' h with
                | none => Except.error PErr.ubRead
                | some (h2, nd, count4) =>
                  match Doc.emplace_back h2 doc nd with
                  | Except.error _ => Except.error PErr.ubRead
                  | Except.ok h3 =>
                    parseLoop input total show_bar fuel h3 stk count4 (barLog count4 log)
            else
              -- neither Dict nor Array on the stack: the source loops
              -- without advancing
              parseLoop input total show_bar fuel h stk count (barLog count log)
    else
      Except.ok (h, drainStack stk, log ++
        (if show_bar then
          [OutEvent.bar count total, OutEvent.text "\nProgress Finished.\n"]
         else []))

/-- `string_to_doc` (Joson.cpp 193-376): trim (with the `size_t`
underflow of `input.size() - 1` on empty input), classify the bracketed
shape, parse a bare primitive directly, or run the frame-stack loop.
`fuel` bounds the number of loop iterations; the preamble's own loops
get ample internal fuel (`input.length + 3`: the trims advance one
position per step and stop no later than one past the terminator). -/
def string_to_doc (input : List Char) (show_bar : Bool) (fuel : Nat) :
    Except PErr (Heap × Doc × List OutEvent) :=
  let size := input.length
  let endInit : Nat := if size = 0 then SIZE_T_MAX else size - 1
  match trimLeftGo input endInit (size + 3) 0 with
  | Except.error e => Except.error e
  | Except.ok start =>
    match trimEndGo input start (size + 3) endInit with
    | Except.error e => Except.error e
    | Except.ok endv =>
      if endv < start then
        Except.ok (Heap.empty, nullDoc,
          [OutEvent.text "Error: Empty or invalid JSON content.\n"])
      else if cAt input start = '{' ∧ cAt input endv = '}' then
        let hd := Doc.ofType Heap.empty Ty.Dict
        parseLoop input size show_bar fuel hd.1 [hd.2] (start + 1)
          (if show_bar then [OutEvent.text "\nParsing...\n"] else [])
      else if cAt input start = '[' ∧ cAt input endv = ']' then
        let hd := Doc.ofType Heap.empty Ty.Array
        parseLoop input size show_bar fuel hd.1 [hd.2] (start + 1)
          (if show_bar then [OutEvent.text "\nParsing...\n"] else [])
      else if cAt input start ≠ '[' ∧ cAt input endv ≠ ']' ∧
          cAt input start ≠ '{' ∧ cAt input endv ≠ '}' then
        match string_to_prim_doc input start ' ' Heap.empty with
        | none => Except.error PErr.ubRead
        | some (h, d, _) => Except.ok (h, d, [])
      else
        Except.ok (Heap.empty, nullDoc, [])

/-! ## Observing a heap document as a pure tree -/

/-- A pure document tree: the heap-independent observation of a `Doc`.
Dictionary entries carry the key *text* in iteration order. -/
inductive PDoc
  | pchar (c : Int)
  | pint (i : Int)
  | pllong (i : Int)
  | pfloat (q : Dec)
  | pdouble (q : Dec)
  | pldouble (q : Dec)
  | pbool (b : Bool)
  | pstr (s : String)
  | pnull
  | ptup (l : List PDoc)
  | parr (l : List PDoc)
  | pdict (l : List (String × PDoc))

/-- Read the tree rooted at a document out of the heap.  `none` marks a
dangling pointer, a type-inconsistent variant, a buffer shorter than the
recorded size, or insufficient fuel (fuel exceeding the tree height
always suffices on acyclic heaps). -/
def obsDoc (h : Heap) : Nat → Doc → Option PDoc
  | 0, _ => none
  | fuel + 1, d =>
    match d.t, d.var with
    | Ty.Char, Val.vchar c => some (PDoc.pchar c)
    | Ty.Int, Val.vint i => some (PDoc.pint i)
    | Ty.LLong, Val.vllong i => some (PDoc.pllong i)
    | Ty.Float, Val.vfloat q => some (PDoc.pfloat q)
    | Ty.Double, Val.vdouble q => some (PDoc.pdouble q)
    | Ty.LDouble, Val.vldouble q => some (PDoc.pldouble q)
    | Ty.Bool, Val.vbool b => some (PDoc.pbool b)
    | Ty.Str, Val.vstr p => (h.strs p).map PDoc.pstr
    | Ty.Nullptr, Val.vnull => some PDoc.pnull
    | Ty.Array, Val.varr p =>
      (h.arrs p).bind (fun a =>
        if a.s ≤ a.arr.length then
          ((a.arr.take a.s).mapM (obsDoc h fuel)).map PDoc.parr
        else none)
    | Ty.Tuple, Val.vtup p =>
      (h.tups p).bind (fun a =>
        match a.tpl with
        | none => if a.s = 0 then some (PDoc.ptup []) else none
        | some l =>
          if a.s ≤ l.length then ((l.take a.s).mapM (obsDoc h fuel)).map PDoc.ptup
          else none)
    | Ty.Dict, Val.vdict p =>
      (h.dicts p).bind (fun m =>
        (m.mapM (fun kd =>
          (h.strs kd.1).bind (fun k => (obsDoc h fuel kd.2).map (fun v => (k, v))))).map
          PDoc.pdict)
    | _, _ => none

/-! ## Claim C3 — numeric-literal widening thresholds -/

/-- C3 counterexample: parsing the 9-digit literal `"123456789"` yields a
document of 32-bit `Int` kind, not the 64-bit `LLong` kind the claim
states.  (The widening check `len == 9` runs before a digit is
accumulated, so it fires on the *10th* digit, not after the 9th.) -/
theorem nine_digit_literal_is_int_cex :
    (string_to_prim_doc "123456789".toList 0 ' ' Heap.empty).map (fun r => r.2.1)
      = some ⟨Ty.Int, Val.vint 123456789⟩ ∧
    (string_to_prim_doc "123456789".toList 0 ' ' Heap.empty).map (fun r => r.2.1.t)
      ≠ some Ty.LLong := by
  constructor
  · rfl
  · decide

/-- The double payload of a `Double`-kind document, if any. -/
def Doc.doubleVal (d : Doc) : Option Dec :=
  match d.var with
  | Val.vdouble q => some q
  | _ => none

/-- C3 amended: the widening thresholds sit one digit later than claimed —
a 9-digit literal still parses as a 32-bit integer; the 10th digit widens
to 64-bit (`"1234567890"` parses as `LLong`); the 17th digit widens to
floating (`Double`); `"3.14"` parses as floating; `"1e3"` parses as
floating with value exactly 1000.  (The values recorded for
`"1234567890"` and `"1e3"` are exact in IEEE double arithmetic as well:
every operation the source performs on them stays on small integers.) -/
theorem numeric_widening_amended :
    (string_to_prim_doc "123456789".toList 0 ' ' Heap.empty).map (fun r => r.2.1)
      = some ⟨Ty.Int, Val.vint 123456789⟩ ∧
    (string_to_prim_doc "1234567890".toList 0 ' ' Heap.empty).map (fun r => r.2.1)
      = some ⟨Ty.LLong, Val.vllong 1234567890⟩ ∧
    (string_to_prim_doc "12345678901234567".toList 0 ' ' Heap.empty).map (fun r => r.2.1.t)
      = some Ty.Double ∧
    (string_to_prim_doc "3.14".toList 0 ' ' Heap.empty).map (fun r => r.2.1.t)
      = some Ty.Double ∧
    ((string_to_prim_doc "1e3".toList 0 ' ' Heap.empty).bind
        (fun r => r.2.1.doubleVal)).map Dec.toRat = some 1000 := by
  refine ⟨rfl, rfl, rfl, rfl, ?_⟩
  have hv : (string_to_prim_doc "1e3".toList 0 ' ' Heap.empty).bind
      (fun r => r.2.1.doubleVal) = some ⟨1, 3⟩ := by decide
  rw [hv]
  norm_num [Dec.toRat, Option.map]

/-! ## Claim C5 — malformed primitive tokens degrade to null -/

theorem cAt_nul_of_len_le (input : List Char) (pos : Nat) (hlen : input.length ≤ pos) :
    cAt input pos = Char.ofNat 0 := by
  simp only [cAt, List.getD]
  rw [List.get?_eq_getElem?, List.getElem?_eq_none hlen]
  rfl

/-- The trailing-garbage loop never moves backwards and, given enough
fuel, stops exactly on NUL, `,` or the delimiter `fin`. -/
theorem skipGarbage_spec (input : List Char) (fin : Char) :
    ∀ fuel pos, input.length + 1 ≤ fuel + pos →
      pos ≤ skipGarbage input fin fuel pos ∧
      (cAt input (skipGarbage input fin fuel pos) = Char.ofNat 0 ∨
       cAt input (skipGarbage input fin fuel pos) = ',' ∨
       cAt input (skipGarbage input fin fuel pos) = fin) := by
  intro fuel
  induction fuel with
  | zero =>
    intro pos hpos
    refine ⟨Nat.le_refl _, Or.inl ?_⟩
    exact cAt_nul_of_len_le input pos (by omega)
  | succ n ih =>
    intro pos hpos
    by_cases hc : cAt input pos = Char.ofNat 0 ∨ cAt input pos = ',' ∨ cAt input pos = fin
    · simp [skipGarbage, hc]
    · have hrec := ih (pos + 1) (by omega)
      simp only [skipGarbage, if_neg hc]
      exact ⟨Nat.le_trans (Nat.le_succ pos) hrec.1, hrec.2⟩

/-- C5 (corrected): the silent null degradation with a skip to the next
delimiter holds for every malformed primitive token inside a container
that does not begin like a numeric literal — one that is not a quoted
string, not `true`, `false` or `null`, and whose first character is not
`+`, `-`, `.` or a digit (such as the truncated literal in
`{"a": tru}`): the scanner does not abort, `string_to_prim_doc` returns
a null-kind document with the heap untouched, and its final position has
only skipped forward, landing on the next delimiter (NUL, `,`, or the
container's closing character `fin`), where the containing parser loop
resumes and stores the null under the pending key or slot.  Malformed
tokens that do begin like a numeric literal must be excluded: the
original claim fails on them, because on a second decimal point the
scanner returns null at the offending character without skipping to the
delimiter (see `malformed_numeric_token_cex`). -/
theorem malformed_token_yields_null (input : List Char) (pos : Nat) (fin : Char) (h : Heap)
    (h1 : cAt input pos ≠ '"')
    (h2 : strncmpEq input pos ['t', 'r', 'u', 'e'] = false)
    (h3 : strncmpEq input pos ['f', 'a', 'l', 's', 'e'] = false)
    (h4 : strncmpEq input pos ['n', 'u', 'l', 'l'] = false)
    (h5 : ¬(cAt input pos = '+' ∨ cAt input pos = '-' ∨ cAt input pos = '.' ∨
        isDigitC (cAt input pos) = true)) :
    string_to_prim_doc input pos fin h
      = some (h, nullDoc, skipGarbage input fin (input.length + 2) pos) ∧
    pos ≤ skipGarbage input fin (input.length + 2) pos ∧
    (cAt input (skipGarbage input fin (input.length + 2) pos) = Char.ofNat 0 ∨
     cAt input (skipGarbage input fin (input.length + 2) pos) = ',' ∨
     cAt input (skipGarbage input fin (input.length + 2) pos) = fin) := by
  have hskip := skipGarbage_spec input fin (input.length + 2) pos (by omega)
  refine ⟨?_, hskip.1, hskip.2⟩
  simp only [string_to_prim_doc, if_neg h1, h2, h3, h4, if_neg h5, Bool.false_eq_true,
    if_false]

/-- Witness for `malformed_token_yields_null`: the truncated literal
`tru` followed by the dict delimiter, as in `{"a": tru}` (the scanner is
invoked at position 0 of `"tru}"` with delimiter `}`). -/
theorem malformed_token_yields_null_witness :
    string_to_prim_doc "tru\x7d".toList 0 '}' Heap.empty
      = some (Heap.empty, nullDoc, skipGarbage "tru\x7d".toList '}' ("tru\x7d".toList.length + 2) 0) ∧
    0 ≤ skipGarbage "tru\x7d".toList '}' ("tru\x7d".toList.length + 2) 0 ∧
    (cAt "tru\x7d".toList (skipGarbage "tru\x7d".toList '}' ("tru\x7d".toList.length + 2) 0)
        = Char.ofNat 0 ∨
     cAt "tru\x7d".toList (skipGarbage "tru\x7d".toList '}' ("tru\x7d".toList.length + 2) 0)
        = ',' ∨
     cAt "tru\x7d".toList (skipGarbage "tru\x7d".toList '}' ("tru\x7d".toList.length + 2) 0)
        = '}') :=
  malformed_token_yields_null "tru\x7d".toList 0 '}' Heap.empty
    (by decide) (by decide) (by decide) (by decide) (by decide)

/-- Counterexample to claim C5 as stated: `1.2.3` is not a well-formed
numeric literal, yet inside an array the scanner does not skip forward
to the next delimiter — at the second decimal point, position 3, it
returns the null document immediately (the early `return Doc(Nullptr)`
at Joson.cpp 103-105), even though the next delimiter, the `,`, sits at
position 5, which is exactly where the garbage skip would have landed.
The character at the returned position is the offending `.` itself, not
a delimiter, so the containing parser loop resumes mid-token and
re-scans the leftover `.3` as a floating document of value 3/10 ending
at the delimiter: an array slot holding `1.2.3` produces a null followed
by a phantom extra element, not a single nulled slot. -/
theorem malformed_numeric_token_cex :
    string_to_prim_doc "1.2.3,".toList 0 ']' Heap.empty
      = some (Heap.empty, nullDoc, 3) ∧
    skipGarbage "1.2.3,".toList ']' ("1.2.3,".toList.length + 2) 3 = 5 ∧
    cAt "1.2.3,".toList 3 = '.' ∧
    string_to_prim_doc "1.2.3,".toList 3 ']' Heap.empty
      = some (Heap.empty, ⟨Ty.Double, Val.vdouble ⟨3, -1⟩⟩, 5) ∧
    Dec.toRat ⟨3, -1⟩ = 3 / 10 := by
  refine ⟨rfl, rfl, rfl, rfl, ?_⟩
  norm_num [Dec.toRat]

/-- Supporting fact for C5: the whole parse of `{"a": tru}` does not
abort and yields a dictionary mapping the key text `"a"` to a null
document. -/
theorem parse_truncated_literal_maps_null :
    (string_to_doc "\x7b\"a\": tru\x7d".toList false 20).toOption.bind
        (fun r => obsDoc r.1 3 r.2.1)
      = some (PDoc.pdict [("a", PDoc.pnull)]) := by
  rfl

/-! ## Claim C2 — parse/render round-trip -/

/-- C2 counterexample: the round-trip does not preserve kinds.  The
document holding `5` at 64-bit kind (`LLong`) renders in plain mode as
`"5"`, but parsing `"5"` re-infers the 32-bit `Int` kind: the
round-tripped tree differs from the original in kind. -/
theorem roundtrip_kind_cex :
    Doc.str Heap.empty ⟨Ty.LLong, Val.vllong 5⟩ false 2 = some "5" ∧
    (string_to_doc "5".toList false 4).map (fun r => r.2.1)
      = Except.ok ⟨Ty.Int, Val.vint 5⟩ ∧
    Ty.Int ≠ Ty.LLong := by
  refine ⟨rfl, rfl, by decide⟩

/-! ## The round-trip development: pure-tree renderings

The amended round-trip claim is proved for the class `GoodP` of trees:
null, booleans, strings without `"` or NUL, 32-bit integers of at most
nine digits, arrays, and dictionaries whose keys contain no `:`, `"` or
NUL — exactly the shapes on which rendering and re-parsing are inverse
(the counterexample `roundtrip_kind_cex` and the kind analysis in the
parser show each excluded shape genuinely fails).  `renderL` is the
character-level specification of the plain-mode serializer, proved equal
to the `Doc::str` machine below. -/

/-- Does the serializer treat the tree through its primitive/empty
branch (Doc.cpp 784-787): not a container, or an empty one? -/
def primLike : PDoc → Bool
  | PDoc.ptup l => l.isEmpty
  | PDoc.parr l => l.isEmpty
  | PDoc.pdict m => m.isEmpty
  | _ => true

/-- The quote-replacement of the string renderer (Doc.cpp 378-383). -/
def strQuote (s : String) : List Char :=
  s.toList.map (fun ch => if ch = '"' then '\'' else ch)

mutual

/-- The plain-mode (`visualize = false`) rendering of a pure tree, at
character level: the specification the `Doc::str` machine satisfies.
Dictionary entries appear in *reverse* iteration order (the machine
pushes them onto its stack in order and pops them reversed), each
prefixed by the quoted key and `": "`, separated by `", \n"` after a
primitive value and `",\n"` after a nonempty container value; array
elements appear in order separated by `", "` / `",\n"`; a newline
precedes every closing `}`. -/
def renderL : PDoc → List Char
  | PDoc.pchar c => (intToString c).toList
  | PDoc.pint i => (intToString i).toList
  | PDoc.pllong i => (intToString i).toList
  | PDoc.pfloat q => (fixed6 q).toList
  | PDoc.pdouble q => (fixed6 q).toList
  | PDoc.pldouble q => (fixed6 q).toList
  | PDoc.pbool b => if b then ['t', 'r', 'u', 'e'] else ['f', 'a', 'l', 's', 'e']
  | PDoc.pnull => ['n', 'u', 'l', 'l']
  | PDoc.pstr s => '"' :: strQuote s ++ ['"']
  | PDoc.ptup [] => ['[', ']']
  | PDoc.parr [] => ['[', ']']
  | PDoc.pdict [] => ['{', '}']
  | PDoc.ptup (t :: ts) => '[' :: renderArr (t :: ts) ++ [']']
  | PDoc.parr (t :: ts) => '[' :: renderArr (t :: ts) ++ [']']
  | PDoc.pdict (e :: es) => '{' :: '\n' :: renderEntsRev (e :: es) ++ ['\n', '}']

/-- The rendered elements of a nonempty array, in order. -/
def renderArr : List PDoc → List Char
  | [] => []
  | [t] => renderL t
  | t :: t2 :: ts =>
    renderL t ++ (if primLike t then [',', ' '] else [',', '\n']) ++ renderArr (t2 :: ts)

/-- The rendered entries of a nonempty dictionary in *reverse* list
order: the recursion emits the tail first, then the separator chosen by
the tail's head entry, then the head entry. -/
def renderEntsRev : List (String × PDoc) → List Char
  | [] => []
  | [(k, v)] => '"' :: k.toList ++ ['"', ':', ' '] ++ renderL v
  | (k, v) :: (k2, v2) :: es =>
    renderEntsRev ((k2, v2) :: es) ++
      (if primLike v2 then [',', ' ', '\n'] else [',', '\n']) ++
      ('"' :: k.toList ++ ['"', ':', ' '] ++ renderL v)

/-- The rendered entries in *processing* order (first-rendered first):
the shape in which the serializer machine produces them.  Equal to
`renderEntsRev` of the reversed list (`entsTextFwd_reverse`). -/
def entsTextFwd : List (String × PDoc) → List Char
  | [] => []
  | [(k, v)] => '"' :: k.toList ++ ['"', ':', ' '] ++ renderL v
  | (k, v) :: e2 :: es =>
    ('"' :: k.toList ++ ['"', ':', ' '] ++ renderL v) ++
      (if primLike v then [',', ' ', '\n'] else [',', '\n']) ++ entsTextFwd (e2 :: es)

end

mutual

/-- The number of serializer-machine iterations a tree costs: one per
node (each node is one popped frame). -/
def nodes : PDoc → Nat
  | PDoc.ptup l => 1 + nodesL l
  | PDoc.parr l => 1 + nodesL l
  | PDoc.pdict m => 1 + nodesE m
  | _ => 1

def nodesL : List PDoc → Nat
  | [] => 0
  | t :: ts => nodes t + nodesL ts

def nodesE : List (String × PDoc) → Nat
  | [] => 0
  | e :: es => nodes e.2 + nodesE es

end

/-- String content admissible for the round-trip: no `"` (the renderer
would rewrite it) and no NUL (unrepresentable in the `const char*`
payload of the source anyway). -/
def goodStr (s : String) : Bool :=
  s.toList.all (fun c => c ≠ '"' && c ≠ Char.ofNat 0)

/-- Key content admissible for the round-trip: additionally no `:` (the
parser's key scan stops at the first colon). -/
def goodKey (k : String) : Bool :=
  k.toList.all (fun c => c ≠ ':' && c ≠ '"' && c ≠ Char.ofNat 0)

mutual

/-- The tree class for which the round-trip is proved: null, booleans,
admissible strings, integers below ten decimal digits, arrays and
dictionaries of such trees. -/
def GoodP : PDoc → Bool
  | PDoc.pint i => decide (-1000000000 < i) && decide (i < 1000000000)
  | PDoc.pbool _ => true
  | PDoc.pnull => true
  | PDoc.pstr s => goodStr s
  | PDoc.parr l => GoodL l
  | PDoc.pdict m => GoodE m
  | _ => false

def GoodL : List PDoc → Bool
  | [] => true
  | t :: ts => GoodP t && GoodL ts

def GoodE : List (String × PDoc) → Bool
  | [] => true
  | e :: es => goodKey e.1 && GoodP e.2 && GoodE es

end

mutual

/-- The tree the parser reconstructs from the rendering: every
dictionary's entry list comes back reversed (rendered reversed, then
re-appended in text order), recursively. -/
def revDict : PDoc → PDoc
  | PDoc.parr l => PDoc.parr (revDictL l)
  | PDoc.pdict m => PDoc.pdict (revDictE m).reverse
  | t => t

def revDictL : List PDoc → List PDoc
  | [] => []
  | t :: ts => revDict t :: revDictL ts

def revDictE : List (String × PDoc) → List (String × PDoc)
  | [] => []
  | e :: es => (e.1, revDict e.2) :: revDictE es

end

/-- Equality of trees up to the iteration order of dictionary entries:
reflexivity, congruence through arrays and tuples, and permutation of
dictionary entry lists (with keys compared by text). -/
inductive PEquiv : PDoc → PDoc → Prop
  | refl (t : PDoc) : PEquiv t t
  | parr {l1 l2 : List PDoc} : List.Forall₂ PEquiv l1 l2 → PEquiv (PDoc.parr l1) (PDoc.parr l2)
  | ptup {l1 l2 : List PDoc} : List.Forall₂ PEquiv l1 l2 → PEquiv (PDoc.ptup l1) (PDoc.ptup l2)
  | pdict {l1 l2 l : List (String × PDoc)} :
      l1.map Prod.fst = l.map Prod.fst →
      List.Forall₂ PEquiv (l1.map Prod.snd) (l.map Prod.snd) → l.Perm l2 →
      PEquiv (PDoc.pdict l1) (PDoc.pdict l2)

/-- `revDictE` preserves the key texts. -/
theorem revDictE_fst : ∀ m : List (String × PDoc), (revDictE m).map Prod.fst = m.map Prod.fst
  | [] => by simp [revDictE]
  | e :: es => by simp [revDictE, revDictE_fst es]

mutual

/-- The parser's dictionary reversal only permutes dictionary entries:
the reconstructed tree is equivalent to the original up to dictionary
entry order. -/
theorem revDict_equiv : ∀ t : PDoc, PEquiv (revDict t) t
  | PDoc.pchar c => by simp only [revDict]; exact PEquiv.refl _
  | PDoc.pint i => by simp only [revDict]; exact PEquiv.refl _
  | PDoc.pllong i => by simp only [revDict]; exact PEquiv.refl _
  | PDoc.pfloat q => by simp only [revDict]; exact PEquiv.refl _
  | PDoc.pdouble q => by simp only [revDict]; exact PEquiv.refl _
  | PDoc.pldouble q => by simp only [revDict]; exact PEquiv.refl _
  | PDoc.pbool b => by simp only [revDict]; exact PEquiv.refl _
  | PDoc.pstr s => by simp only [revDict]; exact PEquiv.refl _
  | PDoc.pnull => by simp only [revDict]; exact PEquiv.refl _
  | PDoc.ptup l => by simp only [revDict]; exact PEquiv.refl _
  | PDoc.parr l => by
    rw [revDict]
    exact PEquiv.parr (revDictL_forall l)
  | PDoc.pdict m => by
    rw [revDict]
    refine PEquiv.pdict (l := m.reverse) ?_ ?_ m.reverse_perm
    · rw [List.map_reverse, List.map_reverse, revDictE_fst]
    · rw [List.map_reverse, List.map_reverse]
      exact List.forall₂_reverse_iff.mpr (revDictE_forall m)

theorem revDictL_forall : ∀ l : List PDoc, List.Forall₂ PEquiv (revDictL l) l
  | [] => by rw [revDictL]; exact List.Forall₂.nil
  | t :: ts => by
    rw [revDictL]
    exact List.Forall₂.cons (revDict_equiv t) (revDictL_forall ts)

theorem revDictE_forall :
    ∀ m : List (String × PDoc),
      List.Forall₂ PEquiv ((revDictE m).map Prod.snd) (m.map Prod.snd)
  | [] => by rw [revDictE]; exact List.Forall₂.nil
  | e :: es => by
    rw [revDictE]
    exact List.Forall₂.cons (revDict_equiv e.2) (revDictE_forall es)

end

/-! ### Inversion of the observation function -/

theorem obs_pnull_inv {h : Heap} {fo : Nat} {d : Doc} (hob : obsDoc h fo d = some PDoc.pnull) :
    d.t = Ty.Nullptr ∧ d.var = Val.vnull := by
  cases fo with
  | zero => simp [obsDoc] at hob
  | succ n =>
    cases d with
    | mk t var =>
      cases t <;> cases var <;> simp_all [obsDoc]
      all_goals
        obtain ⟨a, ha, hf⟩ := Option.bind_eq_some.mp hob
        (try split at hf) <;> (try split at hf) <;> simp_all [Option.map_eq_some']

theorem obs_pbool_inv {h : Heap} {fo : Nat} {d : Doc} {b : Bool}
    (hob : obsDoc h fo d = some (PDoc.pbool b)) :
    d.t = Ty.Bool ∧ d.var = Val.vbool b := by
  cases fo with
  | zero => simp [obsDoc] at hob
  | succ n =>
    cases d with
    | mk t var =>
      cases t <;> cases var <;> simp_all [obsDoc]
      all_goals
        obtain ⟨a, ha, hf⟩ := Option.bind_eq_some.mp hob
        (try split at hf) <;> (try split at hf) <;> simp_all [Option.map_eq_some']

theorem obs_pint_inv {h : Heap} {fo : Nat} {d : Doc} {i : Int}
    (hob : obsDoc h fo d = some (PDoc.pint i)) :
    d.t = Ty.Int ∧ d.var = Val.vint i := by
  cases fo with
  | zero => simp [obsDoc] at hob
  | succ n =>
    cases d with
    | mk t var =>
      cases t <;> cases var <;> simp_all [obsDoc]
      all_goals
        obtain ⟨a, ha, hf⟩ := Option.bind_eq_some.mp hob
        (try split at hf) <;> (try split at hf) <;> simp_all [Option.map_eq_some']

theorem obs_pstr_inv {h : Heap} {fo : Nat} {d : Doc} {s : String}
    (hob : obsDoc h fo d = some (PDoc.pstr s)) :
    d.t = Ty.Str ∧ ∃ p, d.var = Val.vstr p ∧ h.strs p = some s := by
  cases fo with
  | zero => simp [obsDoc] at hob
  | succ n =>
    cases d with
    | mk t var =>
      cases t <;> cases var <;> simp_all [obsDoc]
      all_goals
        obtain ⟨a, ha, hf⟩ := Option.bind_eq_some.mp hob
        (try split at hf) <;> (try split at hf) <;> simp_all [Option.map_eq_some']

theorem obs_parr_inv {h : Heap} {fo : Nat} {d : Doc} {ts : List PDoc}
    (hob : obsDoc h fo d = some (PDoc.parr ts)) :
    d.t = Ty.Array ∧ ∃ p a fo', d.var = Val.varr p ∧ h.arrs p = some a ∧
      a.s ≤ a.arr.length ∧ fo = fo' + 1 ∧
      (a.arr.take a.s).mapM (obsDoc h fo') = some ts := by
  cases fo with
  | zero => simp [obsDoc] at hob
  | succ n =>
    cases d with
    | mk t var =>
      cases t <;> cases var <;> simp_all [obsDoc]
      case Tuple.vtup p =>
        obtain ⟨a, ha, hf⟩ := Option.bind_eq_some.mp hob
        (try split at hf) <;> (try split at hf) <;> simp_all [Option.map_eq_some']
      case Dict.vdict p =>
        obtain ⟨a, ha, hf⟩ := Option.bind_eq_some.mp hob
        simp_all [Option.map_eq_some']
      case Array.varr p =>
        obtain ⟨a, ha, hf⟩ := Option.bind_eq_some.mp hob
        split at hf
        · rw [Option.map_eq_some'] at hf
          obtain ⟨l, hl, he⟩ := hf
          cases he
          exact ⟨a, ha, by assumption, hl⟩
        · simp at hf

theorem obs_pdict_inv {h : Heap} {fo : Nat} {d : Doc} {ts : List (String × PDoc)}
    (hob : obsDoc h fo d = some (PDoc.pdict ts)) :
    d.t = Ty.Dict ∧ ∃ p m fo', d.var = Val.vdict p ∧ h.dicts p = some m ∧ fo = fo' + 1 ∧
      m.mapM (fun kd => (h.strs kd.1).bind
        (fun k => (obsDoc h fo' kd.2).map (fun v => (k, v)))) = some ts := by
  cases fo with
  | zero => simp [obsDoc] at hob
  | succ n =>
    cases d with
    | mk t var =>
      cases t <;> cases var <;> simp_all [obsDoc]
      case Tuple.vtup p =>
        obtain ⟨a, ha, hf⟩ := Option.bind_eq_some.mp hob
        (try split at hf) <;> (try split at hf) <;> simp_all [Option.map_eq_some']
      case Array.varr p =>
        obtain ⟨a, ha, hf⟩ := Option.bind_eq_some.mp hob
        (try split at hf) <;> simp_all [Option.map_eq_some']
      case Dict.vdict p =>
        obtain ⟨a, ha, hf⟩ := Option.bind_eq_some.mp hob
        rw [Option.map_eq_some'] at hf
        obtain ⟨l, hl, he⟩ := hf
        cases he
        exact ⟨a, ha, hl⟩

/-! ### Small facts used by the serializer and parser correspondences -/

theorem mapM_opt_eq_some {α β : Type} {f : α → Option β} :
    ∀ {l : List α} {l' : List β},
      l.mapM f = some l' ↔ List.Forall₂ (fun a b => f a = some b) l l' := by
  intro l
  induction l with
  | nil =>
    intro l'
    constructor
    · intro hm
      cases hm
      exact List.Forall₂.nil
    · intro hf
      cases hf
      rfl
  | cons a t ih =>
    intro l'
    constructor
    · intro hm
      rw [List.mapM_cons] at hm
      obtain ⟨b, hb, hrest⟩ := Option.bind_eq_some.mp hm
      obtain ⟨bs, hbs, he⟩ := Option.bind_eq_some.mp hrest
      cases he
      exact List.Forall₂.cons hb (ih.mp hbs)
    · intro hf
      cases hf with
      | cons hb hrest =>
        rw [List.mapM_cons]
        exact Option.bind_eq_some.mpr ⟨_, hb, Option.bind_eq_some.mpr ⟨_, ih.mpr hrest, rfl⟩⟩

theorem closePops_stop (down l : Nat) (C : List Char) (hld : l ≤ down) :
    closePops down l C = ("", C) := by
  cases C with
  | nil => rfl
  | cons c cs => simp [closePops, Nat.not_lt.mpr hld]

theorem closePops_cons (down l : Nat) (c : Char) (C : List Char) (hdl : down ≤ l) :
    closePops down (l + 1) (c :: C)
      = ((if c = '}' then "\n" else "") ++ String.mk [c] ++
          (if l = down then ",\n" else "") ++ (closePops down l C).1,
         (closePops down l C).2) := by
  simp [closePops, Nat.lt_succ_of_le hdl]

theorem GoodL_mem {l : List PDoc} (hg : GoodL l = true) {t : PDoc} (ht : t ∈ l) :
    GoodP t = true := by
  induction l with
  | nil => cases ht
  | cons a as ih =>
    rw [GoodL, Bool.and_eq_true] at hg
    cases ht with
    | head => exact hg.1
    | tail _ hmem => exact ih hg.2 hmem

theorem GoodE_mem {m : List (String × PDoc)} (hg : GoodE m = true) {e : String × PDoc}
    (he : e ∈ m) : goodKey e.1 = true ∧ GoodP e.2 = true := by
  induction m with
  | nil => cases he
  | cons a as ih =>
    rw [GoodE, Bool.and_eq_true, Bool.and_eq_true] at hg
    cases he with
    | head => exact ⟨hg.1.1, hg.1.2⟩
    | tail _ hmem => exact ih hg.2 hmem

theorem nodesE_append : ∀ (a b : List (String × PDoc)), nodesE (a ++ b) = nodesE a + nodesE b
  | [], b => by simp [nodesE]
  | e :: es, b => by simp [nodesE, nodesE_append es b]; omega

theorem nodesE_reverse (m : List (String × PDoc)) : nodesE m.reverse = nodesE m := by
  induction m with
  | nil => rfl
  | cons e es ih => simp [nodesE, nodesE_append, ih]; omega

/-- Appending one entry at the end of the processing list appends its
entry text after the separator chosen by the previously-last entry. -/
theorem entsTextFwd_concat :
    ∀ (l : List (String × PDoc)) (e : String × PDoc), l ≠ [] →
      entsTextFwd (l ++ [e])
        = entsTextFwd l ++
          (if primLike (l.getLastD ("", PDoc.pnull)).2 then [',', ' ', '\n'] else [',', '\n']) ++
          ('"' :: e.1.toList ++ ['"', ':', ' '] ++ renderL e.2)
  | [], _, hne => absurd rfl hne
  | [(k, v)], e, _ => by
    obtain ⟨ke, ve⟩ := e
    simp [entsTextFwd, List.getLastD, List.append_assoc, String.toList]
  | (k, v) :: (k2, v2) :: ls, e, _ => by
    have ih := entsTextFwd_concat ((k2, v2) :: ls) e (by simp)
    have h1 : entsTextFwd (((k, v) :: (k2, v2) :: ls) ++ [e])
        = ('"' :: k.toList ++ ['"', ':', ' '] ++ renderL v) ++
          ((if primLike v then [',', ' ', '\n'] else [',', '\n']) ++
            entsTextFwd (((k2, v2) :: ls) ++ [e])) := by
      rw [List.cons_append, List.cons_append, entsTextFwd]
      simp [List.append_assoc, List.cons_append]
    have h2 : entsTextFwd ((k, v) :: (k2, v2) :: ls)
        = ('"' :: k.toList ++ ['"', ':', ' '] ++ renderL v) ++
          ((if primLike v then [',', ' ', '\n'] else [',', '\n']) ++
            entsTextFwd ((k2, v2) :: ls)) := by
      rw [entsTextFwd]
      simp [List.append_assoc, List.cons_append]
    have h3 : ((k, v) :: (k2, v2) :: ls).getLastD ("", PDoc.pnull)
        = ((k2, v2) :: ls).getLastD ("", PDoc.pnull) := by
      rw [List.getLastD_cons, List.getLastD_cons, List.getLastD_cons]
    rw [h1, ih, h2, h3]
    simp [List.append_assoc, List.cons_append]

/-- The machine renders dictionary entries in processing order; on the
reversed entry list this is exactly `renderEntsRev`. -/
theorem entsTextFwd_reverse : ∀ m : List (String × PDoc),
    entsTextFwd m.reverse = renderEntsRev m := by
  intro m
  induction m with
  | nil => rfl
  | cons e es ih =>
    cases es with
    | nil => rfl
    | cons e2 es2 =>
      have hrev : (e :: e2 :: es2).reverse = (e2 :: es2).reverse ++ [e] := by simp
      have hlast : ((e2 :: es2).reverse).getLastD ("", PDoc.pnull) = e2 := by
        rw [List.reverse_cons, List.getLastD_concat]
      rw [hrev, entsTextFwd_concat _ _ (by simp), ih, hlast, renderEntsRev]

/-! ### String plumbing for the serializer correspondence -/

theorem strData_append (a b : String) : (a ++ b).data = a.data ++ b.data := rfl

theorem strData_mk (l : List Char) : (String.mk l).data = l := rfl

theorem strExt {a b : String} (hd : a.data = b.data) : a = b :=
  congrArg String.mk hd

theorem strMk_append (a b : List Char) : String.mk (a ++ b) = String.mk a ++ String.mk b := rfl

/-- Every node costs at least one machine iteration. -/
theorem nodes_pos : ∀ t : PDoc, 1 ≤ nodes t := by
  intro t
  cases t <;> simp [nodes]

theorem nodesL_cons (t : PDoc) (ts : List PDoc) : nodesL (t :: ts) = nodes t + nodesL ts := by
  rw [nodesL]

theorem nodesE_cons (e : String × PDoc) (es : List (String × PDoc)) :
    nodesE (e :: es) = nodes e.2 + nodesE es := by
  rw [nodesE]

theorem GoodE_of_forall {m : List (String × PDoc)}
    (hg : ∀ e ∈ m, goodKey e.1 = true ∧ GoodP e.2 = true) : GoodE m = true := by
  induction m with
  | nil => rw [GoodE]
  | cons a as ih =>
    rw [GoodE]
    simp only [Bool.and_eq_true]
    exact ⟨⟨(hg a (by simp)).1, (hg a (by simp)).2⟩,
      ih (fun e he => hg e (List.mem_cons_of_mem a he))⟩

theorem GoodE_reverse {m : List (String × PDoc)} (hg : GoodE m = true) :
    GoodE m.reverse = true :=
  GoodE_of_forall (fun e he => GoodE_mem hg (List.mem_reverse.mp he))

/-! ### The separator-and-closing bookkeeping of the `Doc::str` machine -/

/-- The separator text the machine appends right after finishing the
subtree of a frame at level `l` whose next frame sits at level `down`
(Doc.cpp 822-827 for the primitive case, the popped bracket's `",\n"`
for the container case — see `closePops`). -/
def afterSepR (isPrim : Bool) (pre : String) (l down : Nat) : String :=
  if l = down then (if isPrim then ", " ++ (if pre ≠ "" then "\n" else "") else ",\n") else ""

/-- The level constraint the machine's stack maintains: the next frame
below the top sits at a level no higher than the top's. -/
def headLvlLe (F : List RFrame) (l : Nat) : Prop :=
  match F with
  | [] => True
  | nxt :: _ => nxt.lvl ≤ l

/-- The state of the machine after it has fully rendered a tree `t` from
a frame `⟨d, pre, l⟩` sitting on top of `F`: with no further frames the
run ends, draining the bracket stack; otherwise the run continues at `F`
after the separator/closing text. -/
def strCont (h : Heap) (t : PDoc) (pre : String) (l : Nat) (F : List RFrame)
    (C : List Char) (R : String) (fuel : Nat) : Option String :=
  match F with
  | [] => some (R ++ pre ++ String.mk (renderL t) ++ drainText C)
  | nxt :: _ =>
    strLoop h false fuel F (closePops nxt.lvl l C).2
      (R ++ pre ++ String.mk (renderL t) ++ afterSepR (primLike t) pre l nxt.lvl ++
        (closePops nxt.lvl l C).1)

/-- The state of the machine after it has rendered all element frames of
a nonempty array whose own frame sat at level `l`. -/
def arrCont (h : Heap) (ts : List PDoc) (l : Nat) (F : List RFrame)
    (C : List Char) (R : String) (fuel : Nat) : Option String :=
  match F with
  | [] => some (R ++ String.mk (renderArr ts) ++ drainText C)
  | nxt :: _ =>
    strLoop h false fuel F (closePops nxt.lvl (l + 1) C).2
      (R ++ String.mk (renderArr ts) ++ (closePops nxt.lvl (l + 1) C).1)

/-- The state of the machine after it has rendered all entry frames of a
nonempty dictionary whose own frame sat at level `l`; `ts` lists the
entries in processing order. -/
def dictCont (h : Heap) (ts : List (String × PDoc)) (l : Nat) (F : List RFrame)
    (C : List Char) (R : String) (fuel : Nat) : Option String :=
  match F with
  | [] => some (R ++ String.mk (entsTextFwd ts) ++ drainText C)
  | nxt :: _ =>
    strLoop h false fuel F (closePops nxt.lvl (l + 1) C).2
      (R ++ String.mk (entsTextFwd ts) ++ (closePops nxt.lvl (l + 1) C).1)

/-- The frames the dict branch of the machine builds (Doc.cpp 844-852),
one per map entry, pairing the stored value document with the quoted key
text read through the key pointer. -/
def dFrames (L : Nat) : List (Nat × Doc) → List (String × PDoc) → List RFrame
  | [], _ => []
  | _, [] => []
  | kd :: m', e :: ts' => RFrame.mk kd.2 ("\"" ++ e.1 ++ "\": ") L :: dFrames L m' ts'

/-- The per-entry observation relation of `obsDoc` on dictionaries. -/
def entryObsRel (h : Heap) (fo : Nat) (kd : Nat × Doc) (e : String × PDoc) : Prop :=
  (h.strs kd.1).bind (fun k => (obsDoc h fo kd.2).map (fun v => (k, v))) = some e

theorem entryObsRel_inv {h : Heap} {fo : Nat} {kd : Nat × Doc} {e : String × PDoc}
    (hr : entryObsRel h fo kd e) :
    h.strs kd.1 = some e.1 ∧ obsDoc h fo kd.2 = some e.2 := by
  unfold entryObsRel at hr
  obtain ⟨k, hk, hv⟩ := Option.bind_eq_some.mp hr
  obtain ⟨v, hv2, he⟩ := Option.map_eq_some'.mp hv
  cases he
  exact ⟨hk, hv2⟩

/-- The machine's frame-building `mapM` over a dictionary succeeds and
yields `dFrames` whenever the map observes as an entry list. -/
theorem dict_frames_eq {h : Heap} {fo : Nat} {m : List (Nat × Doc)}
    {ts : List (String × PDoc)} (L : Nat)
    (hm : List.Forall₂ (entryObsRel h fo) m ts) :
    m.mapM (fun kd => (h.strs kd.1).map (fun k => RFrame.mk kd.2 ("\"" ++ k ++ "\": ") L))
      = some (dFrames L m ts) := by
  induction hm with
  | nil => rfl
  | cons hr hrest ih =>
    rw [List.mapM_cons]
    have h1 := (entryObsRel_inv hr).1
    rw [h1, dFrames]
    exact Option.bind_eq_some.mpr ⟨_, rfl, Option.bind_eq_some.mpr ⟨_, ih, rfl⟩⟩

theorem dFrames_append (L : Nat) :
    ∀ (m1 m2 : List (Nat × Doc)) (t1 t2 : List (String × PDoc)), m1.length = t1.length →
      dFrames L (m1 ++ m2) (t1 ++ t2) = dFrames L m1 t1 ++ dFrames L m2 t2
  | [], m2, [], t2, _ => by simp [dFrames]
  | kd :: m1, m2, e :: t1, t2, hlen => by
    rw [List.cons_append, List.cons_append, dFrames, dFrames,
      dFrames_append L m1 m2 t1 t2 (by simpa using hlen), List.cons_append]

theorem dFrames_reverse (L : Nat) :
    ∀ (m : List (Nat × Doc)) (ts : List (String × PDoc)), m.length = ts.length →
      (dFrames L m ts).reverse = dFrames L m.reverse ts.reverse
  | [], [], _ => by simp [dFrames]
  | [], t :: ts, hlen => by simp at hlen
  | kd :: m, [], hlen => by simp at hlen
  | kd :: m, e :: ts, hlen => by
    rw [dFrames, List.reverse_cons, List.reverse_cons, List.reverse_cons,
      dFrames_append L m.reverse [kd] ts.reverse [e] (by simpa using hlen),
      dFrames_reverse L m ts (by simpa using hlen)]
    rfl

/-- A quoted-key prefix is never the empty string. -/
theorem keyPre_ne_empty (k : String) : ("\"" ++ k ++ "\": " : String) ≠ "" := by
  intro hc
  have hd := congrArg String.data hc
  simp [strData_append] at hd

/-! ## Claim C4 — dictionary keys are pointer-keyed, not text-keyed -/

/-- C4: `DictObj` keys on the raw `const char*`, and the parser allocates
a fresh key buffer for every entry, so parsing a dict whose text repeats
the same quoted key yields *two* entries whose key texts are equal —
refuting uniqueness of keys under string-content equality.  (Evaluated:
parsing `{"a": 1, "a": 2}` yields a dictionary observing as the entry
list `[("a", 1), ("a", 2)]`, two entries for the key text `"a"`.) -/
theorem dict_repeated_key_two_entries :
    (string_to_doc "\x7b\"a\": 1, \"a\": 2\x7d".toList false 40).toOption.bind
        (fun r => obsDoc r.1 3 r.2.1)
      = some (PDoc.pdict [("a", PDoc.pint 1), ("a", PDoc.pint 2)]) := by
  rfl

/-! ## Claim C6 — empty and whitespace-only input -/

/-- C6: on the *empty* string the claim fails in the source: the trim
phase computes `end = input.size() - 1`, which underflows to `SIZE_MAX`,
and the leading-trim loop then evaluates `input[1]` on a string of size
0 — an out-of-bounds `std::string::operator[]`, undefined behaviour —
instead of returning a null document.  The embedding reports exactly
that read (`ubRead`), for every fuel and either progress-bar mode. -/
theorem empty_input_trim_underflow (show_bar : Bool) (fuel : Nat) :
    string_to_doc [] show_bar fuel = Except.error PErr.ubRead := rfl

/-- Supporting fact for C6: on *nonempty* all-whitespace input the claim
does hold — the parser terminates and returns a null document (with the
diagnostic on the error stream), without touching the heap. -/
theorem ws_only_input_yields_null (input : List Char) (show_bar : Bool) (fuel : Nat)
    (hne : input ≠ []) (hws : ∀ c ∈ input, isTrimChar c = true) :
    string_to_doc input show_bar fuel
      = Except.ok (Heap.empty, nullDoc,
          [OutEvent.text "Error: Empty or invalid JSON content.\n"]) := by
  have hlen : 1 ≤ input.length := by
    cases input with
    | nil => exact absurd rfl hne
    | cons a l => simp
  have hleft : ∀ fl start, input.length + 1 ≤ fl + start → start ≤ input.length →
      trimLeftGo input (input.length - 1) fl start = Except.ok input.length := by
    intro fl
    induction fl with
    | zero =>
      intro start h1 h2
      omega
    | succ n ih =>
      intro start h1 h2
      by_cases hlt : start < input.length
      · have hcond : start ≤ input.length - 1 := by omega
        have hidx : stdIdx input start = some (input.get ⟨start, hlt⟩) := by
          simp [stdIdx, hlt]
        have hmem : input.get ⟨start, hlt⟩ ∈ input := List.get_mem input start hlt
        simp only [trimLeftGo, if_pos hcond, hidx, hws _ hmem, if_pos rfl]
        exact ih (start + 1) (by omega) (by omega)
      · have hstart : start = input.length := by omega
        subst hstart
        have hcond : ¬(input.length ≤ input.length - 1) := by omega
        simp [trimLeftGo, hcond]
  have hright : trimEndGo input input.length (input.length + 3) (input.length - 1)
      = Except.ok (input.length - 1) := by
    have hcond : ¬(input.length ≤ input.length - 1) := by omega
    simp [trimEndGo, hcond]
  have hend : (if input.length = 0 then SIZE_T_MAX else input.length - 1)
      = input.length - 1 := by
    have : input.length ≠ 0 := by omega
    simp [this]
  simp only [string_to_doc, hend, hleft (input.length + 3) 0 (by omega) (by omega), hright]
  have : input.length - 1 < input.length := by omega
  simp [this]

/-! ## Claim C9 — the progress bar does not affect the parse result -/

/-- The parse loop's heap, stack, cursor and resulting document never
depend on `show_bar` or on the log accumulated so far: those only select
which output events are appended.  Stated as: under either flag and any
starting logs, the non-log projection of the outcome coincides. -/
theorem parseLoop_log_independent (input : List Char) (total : Nat) :
    ∀ fuel h stk count log1 log2 b1 b2,
      (parseLoop input total b1 fuel h stk count log1).map (fun r => (r.1, r.2.1))
        = (parseLoop input total b2 fuel h stk count log2).map (fun r => (r.1, r.2.1)) := by
  intro fuel
  induction fuel with
  | zero => intro h stk count log1 log2 b1 b2; rfl
  | succ n ih =>
    intro h stk count log1 log2 b1 b2
    simp only [parseLoop]
    by_cases h1 : count < total
    · simp only [if_pos h1]
      by_cases h2 : cAt input count = ' ' ∨ cAt input count = '\n' ∨
          cAt input count = '\t' ∨ cAt input count = '\r'
      · simp only [if_pos h2]
        exact ih h stk (count + 1) log1 log2 b1 b2
      · simp only [if_neg h2]
        match stk with
        | [] => rfl
        | doc :: rest =>
          by_cases h3 : cAt input count = ','
          · simp only [if_pos h3]
            exact ih h (doc :: rest) (count + 1) log1 log2 b1 b2
          · simp only [if_neg h3]
            by_cases h4 : cAt input count = '}' ∨ cAt input count = ']'
            · simp only [if_pos h4]
              match rest with
              | [] => rfl
              | d2 :: rest2 => exact ih h (d2 :: rest2) (count + 1) log1 log2 b1 b2
            · simp only [if_neg h4]
              by_cases h5 : doc.get_type = Ty.Dict
              · simp only [if_pos h5]
                by_cases h6 : scanColon input total total (count + 1) = total
                · simp [if_pos h6, Except.map]
                · simp only [if_neg h6]
                  by_cases h7 : skipWsVal input total total
                      (scanColon input total total (count + 1) + 1) = total
                  · simp [if_pos h7, Except.map]
                  · simp only [if_pos, if_neg h7]
                    by_cases h8 : cAt input (skipWsVal input total total
                        (scanColon input total total (count + 1) + 1)) = '{'
                    · simp only [if_pos h8]
                      cases hup : Doc.upsert (Doc.ofType (Heap.allocStr h
                            (extractKey input count
                              (scanColon input total total (count + 1)))).1 Ty.Dict).1
                          doc (Heap.allocStr h (extractKey input count
                            (scanColon input total total (count + 1)))).2
                          (Doc.ofType (Heap.allocStr h (extractKey input count
                            (scanColon input total total (count + 1)))).1 Ty.Dict).2 with
                      | error e => simp [hup, Except.map]
                      | ok h2 => simp only [hup]; exact ih _ _ _ _ _ b1 b2
                    · simp only [if_neg h8]
                      by_cases h9 : cAt input (skipWsVal input total total
                          (scanColon input total total (count + 1) + 1)) = '['
                      · simp only [if_pos h9]
                        cases hup : Doc.upsert (Doc.ofType (Heap.allocStr h
                              (extractKey input count
                                (scanColon input total total (count + 1)))).1 Ty.Array).1
                            doc (Heap.allocStr h (extractKey input count
                              (scanColon input total total (count + 1)))).2
                            (Doc.ofType (Heap.allocStr h (extractKey input count
                              (scanColon input total total (count + 1)))).1 Ty.Array).2 with
                        | error e => simp [hup, Except.map]
                        | ok h2 => simp only [hup]; exact ih _ _ _ _ _ b1 b2
                      · simp only [if_neg h9]
                        by_cases h10 : cAt input (skipWsVal input total total
                              (scanColon input total total (count + 1) + 1)) = '}' ∨
                            cAt input (skipWsVal input total total
                              (scanColon input total total (count + 1) + 1)) = ']' ∨
                            cAt input (skipWsVal input total total
                              (scanColon input total total (count + 1) + 1)) = ','
                        · simp only [if_pos h10]
                          cases hup : Doc.upsert (Heap.allocStr h (extractKey input count
                                (scanColon input total total (count + 1)))).1 doc
                              (Heap.allocStr h (extractKey input count
                                (scanColon input total total (count + 1)))).2 nullDoc with
                          | error e => simp [hup, Except.map]
                          | ok h2 => simp only [hup]; exact ih _ _ _ _ _ b1 b2
                        · simp only [if_neg h10]
                          cases hpr : string_to_prim_doc input (skipWsVal input total total
                              (scanColon input total total (count + 1) + 1)) '}'
                              (Heap.allocStr h (extractKey input count
                                (scanColon input total total (count + 1)))).1 with
                          | none => simp [hpr, Except.map]
                          | some r =>
                            simp only [hpr]
                            cases hup : Doc.upsert r.1 doc (Heap.allocStr h
                                (extractKey input count
                                  (scanColon input total total (count + 1)))).2 r.2.1 with
                            | error e => simp [hpr, hup, Except.map]
                            | ok h3 => simp only [hpr, hup]; exact ih _ _ _ _ _ b1 b2
              · simp only [if_neg h5]
                by_cases h11 : doc.get_type = Ty.Array
                · simp only [if_pos h11]
                  by_cases h12 : cAt input count = '{'
                  · simp only [if_pos h12]
                    cases hem : Doc.emplace_back (Doc.ofType h Ty.Dict).1 doc
                        (Doc.ofType h Ty.Dict).2 with
                    | error e => simp [hem, Except.map]
                    | ok h2 => simp only [hem]; exact ih _ _ _ _ _ b1 b2
                  · simp only [if_neg h12]
                    by_cases h13 : cAt input count = '['
                    · simp only [if_pos h13]
                      cases hem : Doc.emplace_back (Doc.ofType h Ty.Array).1 doc
                          (Doc.ofType h Ty.Array).2 with
                      | error e => simp [hem, Except.map]
                      | ok h2 => simp only [hem]; exact ih _ _ _ _ _ b1 b2
                    · simp only [if_neg h13]
                      by_cases h14 : cAt input count = '}'
                      · simp only [if_pos h14]
                        cases hem : Doc.emplace_back h doc nullDoc with
                        | error e => simp [hem, Except.map]
                        | ok h2 => simp only [hem]; exact ih _ _ _ _ _ b1 b2
                      · simp only [if_neg h14]
                        cases hpr : string_to_prim_doc input count ']' h with
                        | none => simp [hpr, Except.map]
                        | some r =>
                          simp only [hpr]
                          cases hem : Doc.emplace_back r.1 doc r.2.1 with
                          | error e => simp [hpr, hem, Except.map]
                          | ok h3 => simp only [hpr, hem]; exact ih _ _ _ _ _ b1 b2
                · simp only [if_neg h11]
                  exact ih _ _ _ _ _ b1 b2
    · simp [if_neg h1, Except.map]

/-- C9: the progress-reporting machinery has no effect on the parse
result: for every input and step budget, running `string_to_doc` with
the progress bar enabled and disabled produces the same outcome up to
the output log — the same error, or the same final heap and document. -/
theorem show_bar_no_effect (input : List Char) (fuel : Nat) :
    (string_to_doc input true fuel).map (fun r => (r.1, r.2.1))
      = (string_to_doc input false fuel).map (fun r => (r.1, r.2.1)) := by
  simp only [string_to_doc]
  cases trimLeftGo input (if input.length = 0 then SIZE_T_MAX else input.length - 1)
      (input.length + 3) 0 with
  | error e => rfl
  | ok start =>
    simp only
    cases trimEndGo input start (input.length + 3)
        (if input.length = 0 then SIZE_T_MAX else input.length - 1) with
    | error e => rfl
    | ok endv =>
      simp only
      by_cases h1 : endv < start
      · simp [h1, Except.map]
      · simp only [if_neg h1]
        by_cases h2 : cAt input start = '{' ∧ cAt input endv = '}'
        · simp only [if_pos h2]
          exact parseLoop_log_independent input input.length fuel _ _ _ _ _ true false
        · simp only [if_neg h2]
          by_cases h3 : cAt input start = '[' ∧ cAt input endv = ']'
          · simp only [if_pos h3]
            exact parseLoop_log_independent input input.length fuel _ _ _ _ _ true false
          · -- the remaining branches (bare primitive, wrong format) do
            -- not mention the flag at all
            simp only [if_neg h3]

/-! ## Claim C8 — rendering empty containers in the two output modes -/

/-- A heap holding one freshly constructed empty dictionary, one empty
array and one uninitialized tuple. -/
def c8Heap : Heap :=
  (Doc.ofType (Doc.ofType (Doc.ofType Heap.empty Ty.Dict).1 Ty.Array).1 Ty.Tuple).1

def c8Dict : Doc := (Doc.ofType Heap.empty Ty.Dict).2

def c8Arr : Doc := (Doc.ofType (Doc.ofType Heap.empty Ty.Dict).1 Ty.Array).2

def c8Tup : Doc :=
  (Doc.ofType (Doc.ofType (Doc.ofType Heap.empty Ty.Dict).1 Ty.Array).1 Ty.Tuple).2

/-- C8: `Doc::str` on an empty container depends only on the mode: an
empty `Dict` renders as `{}` in plain mode and `{Null}` in visualized
mode; an empty `Array` as `[]` and `[Null]`; an empty `Tuple` as `[]`
and `(Null)`.  (The two braces are written `\x7b`/`\x7d`.) -/
theorem empty_container_rendering :
    Doc.str c8Heap c8Dict false 2 = some "\x7b\x7d" ∧
    Doc.str c8Heap c8Dict true 2 = some "\x7bNull\x7d" ∧
    Doc.str c8Heap c8Arr false 2 = some "[]" ∧
    Doc.str c8Heap c8Arr true 2 = some "[Null]" ∧
    Doc.str c8Heap c8Tup false 2 = some "[]" ∧
    Doc.str c8Heap c8Tup true 2 = some "(Null)" :=
  ⟨rfl, rfl, rfl, rfl, rfl, rfl⟩

/-! ## Claim C1 — copy assignment does not deep-copy the owned container -/

/-- C1 counterexample: construct an `Array`-kind document (its array is
empty), "copy" it into a null destination with the copy assignment
operator, and `emplace_back` one element through the copy.  Reading the
*original* document afterwards finds size 1, not 0: the mutation of the
copy is visible through the original, so copy assignment did not
deep-copy the owned container as the claim states. -/
theorem assign_not_deep_copy_cex :
    (Doc.emplace_back
        (Doc.assign (Doc.ofType Heap.empty Ty.Array).1 nullDoc
          (Doc.ofType Heap.empty Ty.Array).2 1).1
        (Doc.assign (Doc.ofType Heap.empty Ty.Array).1 nullDoc
          (Doc.ofType Heap.empty Ty.Array).2 1).2
        ⟨Ty.Int, Val.vint 5⟩).map
      (fun h3 => Doc.sizeH h3 (Doc.ofType Heap.empty Ty.Array).2)
      = Except.ok (some 1) := by
  rfl

/-- C1 amended: `Doc::operator=` copies the tagged pointer, so the copy
*shares* the owned container with the source.  For every `Array`-kind
document `d` owning array `A` at address `p`, assigning `d` into a
null destination yields a document with the very same payload (`= d`),
and appending one element through the copy is literally the same heap
operation as appending through `d` — afterwards the original `d`
observes size `A.s + 1`, not its old size. -/
theorem assign_shares_container (h : Heap) (dst d v : Doc) (p : Nat) (A : ArrObj) (fuel : Nat)
    (hdst : dst.t = Ty.Nullptr) (ht : d.t = Ty.Array) (hv : d.var = Val.varr p)
    (hp : h.arrs p = some A) :
    (Doc.assign h dst d fuel).2 = d ∧
    Doc.emplace_back (Doc.assign h dst d fuel).1 (Doc.assign h dst d fuel).2 v
      = Doc.emplace_back h d v ∧
    (Doc.emplace_back (Doc.assign h dst d fuel).1 (Doc.assign h dst d fuel).2 v).map
        (fun h3 => Doc.sizeH h3 d)
      = Except.ok (some (A.s + 1)) := by
  have hheap : (Doc.assign h dst d fuel).1 = h := delete_var_null h dst fuel hdst
  have hdoc : (Doc.assign h dst d fuel).2 = d := rfl
  refine ⟨hdoc, ?_, ?_⟩
  · rw [hheap, hdoc]
  · rw [hheap, hdoc]
    cases d with
    | mk t var =>
      cases ht
      cases hv
      simp [Doc.emplace_back, hp, Doc.sizeH, Except.map, Heap.setArr_arrs_self,
        ArrObj.emplace_back_s]

/-- Witness for `assign_shares_container` at the concrete state of
`assign_not_deep_copy_cex`. -/
theorem assign_shares_container_witness :
    (Doc.assign (Doc.ofType Heap.empty Ty.Array).1 nullDoc
        (Doc.ofType Heap.empty Ty.Array).2 1).2 = (Doc.ofType Heap.empty Ty.Array).2 ∧
    Doc.emplace_back
        (Doc.assign (Doc.ofType Heap.empty Ty.Array).1 nullDoc
          (Doc.ofType Heap.empty Ty.Array).2 1).1
        (Doc.assign (Doc.ofType Heap.empty Ty.Array).1 nullDoc
          (Doc.ofType Heap.empty Ty.Array).2 1).2 ⟨Ty.Int, Val.vint 5⟩
      = Doc.emplace_back (Doc.ofType Heap.empty Ty.Array).1
          (Doc.ofType Heap.empty Ty.Array).2 ⟨Ty.Int, Val.vint 5⟩ ∧
    (Doc.emplace_back
        (Doc.assign (Doc.ofType Heap.empty Ty.Array).1 nullDoc
          (Doc.ofType Heap.empty Ty.Array).2 1).1
        (Doc.assign (Doc.ofType Heap.empty Ty.Array).1 nullDoc
          (Doc.ofType Heap.empty Ty.Array).2 1).2 ⟨Ty.Int, Val.vint 5⟩).map
        (fun h3 => Doc.sizeH h3 (Doc.ofType Heap.empty Ty.Array).2)
      = Except.ok (some (ArrObj.default8.s + 1)) :=
  assign_shares_container _ nullDoc _ ⟨Ty.Int, Val.vint 5⟩ 0 ArrObj.default8 1
    rfl rfl rfl rfl


theorem dataLBraceNl : ("\x7b\n" : String).data = ['{', '\n'] := rfl

theorem dataCommaSpace : (", " : String).data = [',', ' '] := rfl

theorem dataCommaNl : (",\n" : String).data = [',', '\n'] := rfl

theorem dataNl : ("\n" : String).data = ['\n'] := rfl

theorem dataEmptyStr : ("" : String).data = [] := rfl

theorem dataQuoteS : ("\"" : String).data = ['"'] := rfl

theorem dataQuoteColon : ("\": " : String).data = ['"', ':', ' '] := rfl

theorem closePops_stop_1 (down l : Nat) (C : List Char) (hld : l ≤ down) :
    (closePops down l C).1 = "" := by
  rw [closePops_stop down l C hld]

theorem closePops_stop_2 (down l : Nat) (C : List Char) (hld : l ≤ down) :
    (closePops down l C).2 = C := by
  rw [closePops_stop down l C hld]

theorem entsTextFwd_reverse2 (e : String × PDoc) (m : List (String × PDoc)) :
    entsTextFwd (m.reverse ++ [e]) = renderEntsRev (e :: m) := by
  rw [show m.reverse ++ [e] = (e :: m).reverse by simp, entsTextFwd_reverse]

theorem headLvlLe_succ {F : List RFrame} {l : Nat} (hF : headLvlLe F l) :
    headLvlLe F (l + 1) := by
  cases F with
  | nil => trivial
  | cons nxt F2 => exact Nat.le_succ_of_le hF

mutual

theorem strLoop_tree :
    ∀ (t : PDoc) (h : Heap) (fo : Nat) (d : Doc) (pre : String) (l : Nat)
      (F : List RFrame) (C : List Char) (R : String) (fuel : Nat),
      obsDoc h fo d = some t → GoodP t = true → headLvlLe F l →
      strLoop h false (nodes t + fuel) (⟨d, pre, l⟩ :: F) C R = strCont h t pre l F C R fuel
  | PDoc.pchar c, h, fo, d, pre, l, F, C, R, fuel => by
    intro hob hg hF
    simp [GoodP] at hg
  | PDoc.pllong i, h, fo, d, pre, l, F, C, R, fuel => by
    intro hob hg hF
    simp [GoodP] at hg
  | PDoc.pfloat q, h, fo, d, pre, l, F, C, R, fuel => by
    intro hob hg hF
    simp [GoodP] at hg
  | PDoc.pdouble q, h, fo, d, pre, l, F, C, R, fuel => by
    intro hob hg hF
    simp [GoodP] at hg
  | PDoc.pldouble q, h, fo, d, pre, l, F, C, R, fuel => by
    intro hob hg hF
    simp [GoodP] at hg
  | PDoc.ptup ts, h, fo, d, pre, l, F, C, R, fuel => by
    intro hob hg hF
    simp [GoodP] at hg
  | PDoc.pnull, h, fo, d, pre, l, F, C, R, fuel => by
    intro hob hg hF
    obtain ⟨hdt, hdv⟩ := obs_pnull_inv hob
    have hn : nodes PDoc.pnull + fuel = fuel + 1 := by simp [nodes]; omega
    rw [hn, strLoop]
    simp only [Doc.sizeH, hdt, hdv]
    cases F with
    | nil => simp [primToStr, hdt, hdv, strCont, renderL]
    | cons nxt Ftl => simp [primToStr, hdt, hdv, strCont, renderL, afterSepR, primLike]
  | PDoc.pint i, h, fo, d, pre, l, F, C, R, fuel => by
    intro hob hg hF
    obtain ⟨hdt, hdv⟩ := obs_pint_inv hob
    have hn : nodes (PDoc.pint i) + fuel = fuel + 1 := by simp [nodes]; omega
    rw [hn, strLoop]
    simp only [Doc.sizeH, hdt, hdv]
    cases F with
    | nil => simp [primToStr, hdt, hdv, strCont, renderL, String.toList]
    | cons nxt Ftl =>
      simp [primToStr, hdt, hdv, strCont, renderL, afterSepR, primLike, String.toList]
  | PDoc.pbool b, h, fo, d, pre, l, F, C, R, fuel => by
    intro hob hg hF
    obtain ⟨hdt, hdv⟩ := obs_pbool_inv hob
    have hn : nodes (PDoc.pbool b) + fuel = fuel + 1 := by simp [nodes]; omega
    rw [hn, strLoop]
    simp only [Doc.sizeH, hdt, hdv]
    cases b with
    | true =>
      cases F with
      | nil => simp [primToStr, hdt, hdv, strCont, renderL]
      | cons nxt Ftl => simp [primToStr, hdt, hdv, strCont, renderL, afterSepR, primLike]
    | false =>
      cases F with
      | nil => simp [primToStr, hdt, hdv, strCont, renderL]
      | cons nxt Ftl => simp [primToStr, hdt, hdv, strCont, renderL, afterSepR, primLike]
  | PDoc.pstr s, h, fo, d, pre, l, F, C, R, fuel => by
    intro hob hg hF
    obtain ⟨hdt, p, hdv, hsp⟩ := obs_pstr_inv hob
    have hn : nodes (PDoc.pstr s) + fuel = fuel + 1 := by simp [nodes]; omega
    rw [hn, strLoop]
    simp only [Doc.sizeH, hdt, hdv, hsp]
    cases F with
    | nil =>
      simp [primToStr, hdt, hdv, hsp, strCont, renderL, strQuote]
      apply strExt
      simp [strData_append, strData_mk, String.toList]
    | cons nxt Ftl =>
      simp [primToStr, hdt, hdv, hsp, strCont, renderL, afterSepR, primLike, strQuote]
      congr 1
  | PDoc.parr [], h, fo, d, pre, l, F, C, R, fuel => by
      intro hob hg hF
      obtain ⟨hdt, p, a, fo2, hdv, hap, hsle, hfo, hmap⟩ := obs_parr_inv hob
      have hnil : a.arr.take a.s = [] :=
        List.forall₂_nil_right_iff.mp (mapM_opt_eq_some.mp hmap)
      have hs0 : a.s = 0 := by
        rcases List.take_eq_nil_iff.mp hnil with h0 | h0
        · exact h0
        · rw [h0] at hsle
          simpa using hsle
      have hn : nodes (PDoc.parr []) + fuel = fuel + 1 := by simp [nodes, nodesL]; omega
      rw [hn, strLoop]
      simp only [Doc.sizeH, hdt, hdv, hap, Option.map_some', hs0]
      cases F with
      | nil => simp [strCont, renderL, emptyContainerText]
      | cons nxt Ftl => simp [strCont, renderL, afterSepR, primLike, emptyContainerText]
  | PDoc.parr (t1 :: ts2), h, fo, d, pre, l, F, C, R, fuel => by
      intro hob hg hF
      obtain ⟨hdt, p, a, fo2, hdv, hap, hsle, hfo, hmap⟩ := obs_parr_inv hob
      have hfa : List.Forall₂ (fun dd tv => obsDoc h fo2 dd = some tv)
          (a.arr.take a.s) (t1 :: ts2) := mapM_opt_eq_some.mp hmap
      have hlen := List.Forall₂.length_eq hfa
      have hs_pos : ¬ a.s = 0 := by
        intro h0
        rw [h0] at hlen
        simp at hlen
      have hgl : GoodL (t1 :: ts2) = true := by
        rw [GoodP] at hg
        exact hg
      have helems : Doc.elems h d = some (a.arr.take a.s) := by
        simp [Doc.elems, hdv, hap, hsle]
      have hn : nodes (PDoc.parr (t1 :: ts2)) + fuel = (nodesL (t1 :: ts2) + fuel) + 1 := by
        simp [nodes]
        omega
      rw [hn, strLoop]
      simp only [Doc.sizeH, hdt, hdv, hap, Option.map_some', helems]
      rw [if_neg (by simp [hs_pos]), if_pos (by simp)]
      simp only [Bool.false_eq_true, false_and, if_false]
      rw [strLoop_arr (t1 :: ts2) (a.arr.take a.s) h fo2 l F _ _ fuel hfa hgl (by simp) hF]
      cases F with
      | nil =>
        simp only [arrCont, strCont]
        congr 1
        apply strExt
        simp [strData_append, strData_mk, renderL, drainText]
      | cons nxt Ftl =>
        simp only [arrCont, strCont]
        rw [closePops_cons nxt.lvl l ']' C hF]
        congr 1
        apply strExt
        simp [strData_append, strData_mk, renderL, afterSepR, primLike, apply_ite String.data,
          List.append_assoc]
  | PDoc.pdict [], h, fo, d, pre, l, F, C, R, fuel => by
      intro hob hg hF
      obtain ⟨hdt, p, m, fo2, hdv, hmp, hfo, hmap⟩ := obs_pdict_inv hob
      have hnil : m = [] :=
        List.forall₂_nil_right_iff.mp (mapM_opt_eq_some.mp hmap)
      have hn : nodes (PDoc.pdict []) + fuel = fuel + 1 := by simp [nodes, nodesE]; omega
      rw [hn, strLoop]
      simp only [Doc.sizeH, hdt, hdv, hmp, Option.map_some', hnil]
      cases F with
      | nil => simp [strCont, renderL, emptyContainerText]
      | cons nxt Ftl => simp [strCont, renderL, afterSepR, primLike, emptyContainerText]
  | PDoc.pdict (e1 :: ts2), h, fo, d, pre, l, F, C, R, fuel => by
      intro hob hg hF
      obtain ⟨hdt, p, m, fo2, hdv, hmp, hfo, hmap⟩ := obs_pdict_inv hob
      have hfa : List.Forall₂ (entryObsRel h fo2) m (e1 :: ts2) := mapM_opt_eq_some.mp hmap
      have hlen := List.Forall₂.length_eq hfa
      have hm_pos : ¬ m.length = 0 := by
        rw [hlen]
        simp
      have hge : GoodE (e1 :: ts2) = true := by
        rw [GoodP] at hg
        exact hg
      have hn : nodes (PDoc.pdict (e1 :: ts2)) + fuel = (nodesE (e1 :: ts2) + fuel) + 1 := by
        simp [nodes]
        omega
      rw [hn, strLoop]
      simp only [Doc.sizeH, hdt, hdv, hmp, Option.map_some']
      rw [if_neg (by simp [hm_pos]), if_neg (by simp)]
      simp only [hdv, hmp, dict_frames_eq (l + 1) hfa]
      rw [dFrames_reverse (l + 1) m (e1 :: ts2) hlen]
      have hnrev : nodesE (e1 :: ts2) + fuel = nodesE ((e1 :: ts2).reverse) + fuel := by
        rw [nodesE_reverse]
      rw [hnrev, strLoop_dict ((e1 :: ts2).reverse) m.reverse h fo2 l F _ _ fuel
        (List.forall₂_reverse_iff.mpr hfa) (GoodE_reverse hge) (by simp) hF]
      cases F with
      | nil =>
        simp only [dictCont, strCont]
        congr 1
        apply strExt
        simp [strData_append, strData_mk, renderL, drainText, entsTextFwd_reverse,
          entsTextFwd_reverse2, dataLBraceNl, List.append_assoc]
      | cons nxt Ftl =>
        simp only [dictCont, strCont]
        rw [closePops_cons nxt.lvl l '}' C hF]
        congr 1
        apply strExt
        simp [strData_append, strData_mk, renderL, afterSepR, primLike, apply_ite String.data,
          List.append_assoc, entsTextFwd_reverse, entsTextFwd_reverse2, dataLBraceNl,
          dataCommaNl, dataNl, dataEmptyStr]
termination_by t _ _ _ _ _ _ _ _ _ => 2 * nodes t
decreasing_by
  all_goals simp [nodes, nodesE_reverse, nodesE_append, nodesE_cons, nodesE, nodesL_cons, nodesL]
  all_goals omega

theorem strLoop_arr :
    ∀ (ts : List PDoc) (ds : List Doc) (h : Heap) (fo : Nat) (l : Nat)
      (F : List RFrame) (C : List Char) (R : String) (fuel : Nat),
      List.Forall₂ (fun dd tv => obsDoc h fo dd = some tv) ds ts →
      GoodL ts = true → ts ≠ [] → headLvlLe F l →
      strLoop h false (nodesL ts + fuel) (ds.map (fun e => ⟨e, "", l + 1⟩) ++ F) C R
        = arrCont h ts l F C R fuel
  | [], ds, h, fo, l, F, C, R, fuel => by
    intro hm hg hne hF
    exact absurd rfl hne
  | [t1], ds, h, fo, l, F, C, R, fuel => by
      intro hm hg hne hF
      obtain ⟨d1, ds2, h1, hrest, hds⟩ := List.forall₂_cons_right_iff.mp hm
      subst hds
      have hg1 : GoodP t1 = true := by
        rw [GoodL, Bool.and_eq_true] at hg
        exact hg.1
      have hds2 : ds2 = [] := List.forall₂_nil_right_iff.mp hrest
      subst hds2
      have hn : nodesL [t1] + fuel = nodes t1 + fuel := by simp [nodesL]
      rw [hn]
      simp only [List.map_cons, List.map_nil, List.nil_append, List.cons_append]
      rw [strLoop_tree t1 h fo d1 "" (l + 1) F C R fuel h1 hg1 (headLvlLe_succ hF)]
      cases F with
      | nil =>
        simp only [strCont, arrCont]
        congr 1
        apply strExt
        simp [strData_append, strData_mk, renderArr]
      | cons nxt Ftl =>
        simp only [strCont, arrCont]
        have hne2 : ¬ (l + 1 = nxt.lvl) := by
          have : nxt.lvl ≤ l := hF
          omega
        congr 1
        apply strExt
        simp [strData_append, strData_mk, renderArr, afterSepR, hne2]
  | t1 :: t2 :: ts3, ds, h, fo, l, F, C, R, fuel => by
      intro hm hg hne hF
      obtain ⟨d1, ds2, h1, hrest, hds⟩ := List.forall₂_cons_right_iff.mp hm
      subst hds
      have hg1 : GoodP t1 = true := by
        rw [GoodL, Bool.and_eq_true] at hg
        exact hg.1
      have hg2 : GoodL (t2 :: ts3) = true := by
        rw [GoodL, Bool.and_eq_true] at hg
        exact hg.2
      obtain ⟨d2, ds3, h2, hrest2, hds2⟩ := List.forall₂_cons_right_iff.mp hrest
      subst hds2
      have hn : nodesL (t1 :: t2 :: ts3) + fuel = nodes t1 + (nodesL (t2 :: ts3) + fuel) := by
        simp [nodesL_cons]
        omega
      rw [hn]
      simp only [List.map_cons, List.cons_append]
      have hstep := strLoop_tree t1 h fo d1 "" (l + 1)
        ((d2 :: ds3).map (fun e => ⟨e, "", l + 1⟩) ++ F) C R (nodesL (t2 :: ts3) + fuel)
        h1 hg1 (by simp [List.map_cons, List.cons_append, headLvlLe])
      simp only [List.map_cons, List.cons_append] at hstep
      rw [hstep]
      simp only [strCont, List.map_cons, List.cons_append]
      rw [closePops_stop_1 (l + 1) (l + 1) C (Nat.le_refl _),
        closePops_stop_2 (l + 1) (l + 1) C (Nat.le_refl _)]
      have harr := strLoop_arr (t2 :: ts3) (d2 :: ds3) h fo l F C
        (R ++ "" ++ { data := renderL t1 } ++
          afterSepR (primLike t1) "" (l + 1) (l + 1) ++ "") fuel hrest hg2 (by simp) hF
      simp only [List.map_cons, List.cons_append] at harr
      rw [harr]
      cases F with
      | nil =>
        simp only [arrCont]
        congr 1
        apply strExt
        cases hp : primLike t1 with
        | true =>
          simp [strData_append, strData_mk, renderArr, afterSepR, hp, List.append_assoc]
        | false =>
          simp [strData_append, strData_mk, renderArr, afterSepR, hp, List.append_assoc]
      | cons nxt Ftl =>
        simp only [arrCont]
        congr 1
        apply strExt
        cases hp : primLike t1 with
        | true =>
          simp [strData_append, strData_mk, renderArr, afterSepR, hp, List.append_assoc]
        | false =>
          simp [strData_append, strData_mk, renderArr, afterSepR, hp, List.append_assoc]
termination_by ts _ _ _ _ _ _ _ _ => 2 * nodesL ts + 1
decreasing_by
  all_goals have hp1 := nodes_pos t1
  all_goals simp [nodesL_cons, nodesL]
  all_goals omega

theorem strLoop_dict :
    ∀ (ts : List (String × PDoc)) (m : List (Nat × Doc)) (h : Heap) (fo : Nat)
      (l : Nat) (F : List RFrame) (C : List Char) (R : String) (fuel : Nat),
      List.Forall₂ (entryObsRel h fo) m ts →
      GoodE ts = true → ts ≠ [] → headLvlLe F l →
      strLoop h false (nodesE ts + fuel) (dFrames (l + 1) m ts ++ F) C R
        = dictCont h ts l F C R fuel
  | [], m, h, fo, l, F, C, R, fuel => by
    intro hm hg hne hF
    exact absurd rfl hne
  | [e1], m, h, fo, l, F, C, R, fuel => by
      intro hm hg hne hF
      obtain ⟨kd1, m2, h1, hrest, hds⟩ := List.forall₂_cons_right_iff.mp hm
      subst hds
      have hg1 : GoodP e1.2 = true := by
        rw [GoodE, Bool.and_eq_true, Bool.and_eq_true] at hg
        exact hg.1.2
      have hm2 : m2 = [] := List.forall₂_nil_right_iff.mp hrest
      subst hm2
      have hn : nodesE [e1] + fuel = nodes e1.2 + fuel := by simp [nodesE, nodesE_cons]
      rw [hn]
      rw [dFrames, dFrames]
      simp only [List.nil_append, List.cons_append]
      rw [strLoop_tree e1.2 h fo kd1.2 ("\"" ++ e1.1 ++ "\": ") (l + 1) F C R fuel
        (entryObsRel_inv h1).2 hg1 (headLvlLe_succ hF)]
      cases F with
      | nil =>
        simp only [strCont, dictCont]
        congr 1
        apply strExt
        obtain ⟨k1, v1⟩ := e1
        simp [strData_append, strData_mk, entsTextFwd, String.toList, List.append_assoc]
      | cons nxt Ftl =>
        simp only [strCont, dictCont]
        have hne2 : ¬ (l + 1 = nxt.lvl) := by
          have : nxt.lvl ≤ l := hF
          omega
        congr 1
        apply strExt
        obtain ⟨k1, v1⟩ := e1
        simp [strData_append, strData_mk, entsTextFwd, afterSepR, hne2, String.toList,
          List.append_assoc]
  | e1 :: e2 :: ts3, m, h, fo, l, F, C, R, fuel => by
      intro hm hg hne hF
      obtain ⟨kd1, m2, h1, hrest, hds⟩ := List.forall₂_cons_right_iff.mp hm
      subst hds
      have hg1 : GoodP e1.2 = true := by
        rw [GoodE, Bool.and_eq_true, Bool.and_eq_true] at hg
        exact hg.1.2
      have hg2 : GoodE (e2 :: ts3) = true := by
        rw [GoodE, Bool.and_eq_true] at hg
        exact hg.2
      have hpre : ("\"" ++ e1.1 ++ "\": " : String) ≠ "" := keyPre_ne_empty e1.1
      obtain ⟨kd2, m3, h2, hrest2, hds2⟩ := List.forall₂_cons_right_iff.mp hrest
      subst hds2
      have hn : nodesE (e1 :: e2 :: ts3) + fuel = nodes e1.2 + (nodesE (e2 :: ts3) + fuel) := by
        simp [nodesE_cons]
        omega
      rw [hn]
      rw [dFrames]
      simp only [List.cons_append]
      have hstep := strLoop_tree e1.2 h fo kd1.2 ("\"" ++ e1.1 ++ "\": ") (l + 1)
        (dFrames (l + 1) (kd2 :: m3) (e2 :: ts3) ++ F) C R (nodesE (e2 :: ts3) + fuel)
        (entryObsRel_inv h1).2 hg1 (by rw [dFrames]; simp [List.cons_append, headLvlLe])
      rw [hstep]
      rw [dFrames]
      simp only [strCont, List.cons_append]
      rw [closePops_stop_1 (l + 1) (l + 1) C (Nat.le_refl _),
        closePops_stop_2 (l + 1) (l + 1) C (Nat.le_refl _)]
      have hdict := strLoop_dict (e2 :: ts3) (kd2 :: m3) h fo l F C
        (R ++ ("\"" ++ e1.1 ++ "\": ") ++ { data := renderL e1.2 } ++
          afterSepR (primLike e1.2) ("\"" ++ e1.1 ++ "\": ") (l + 1) (l + 1) ++ "") fuel
        hrest hg2 (by simp) hF
      rw [dFrames] at hdict
      simp only [List.cons_append] at hdict
      rw [hdict]
      cases F with
      | nil =>
        simp only [dictCont]
        congr 1
        apply strExt
        obtain ⟨k1, v1⟩ := e1
        cases hp : primLike v1 with
        | true =>
          simp [strData_append, strData_mk, entsTextFwd, afterSepR, hp, hpre, String.toList,
            List.append_assoc]
        | false =>
          simp [strData_append, strData_mk, entsTextFwd, afterSepR, hp, hpre, String.toList,
            List.append_assoc]
      | cons nxt Ftl =>
        simp only [dictCont]
        congr 1
        apply strExt
        obtain ⟨k1, v1⟩ := e1
        cases hp : primLike v1 with
        | true =>
          simp [strData_append, strData_mk, entsTextFwd, afterSepR, hp, hpre, String.toList,
            List.append_assoc]
        | false =>
          simp [strData_append, strData_mk, entsTextFwd, afterSepR, hp, hpre, String.toList,
            List.append_assoc]
termination_by ts _ _ _ _ _ _ _ _ => 2 * nodesE ts + 1
decreasing_by
  all_goals have hp1 := nodes_pos e1.2
  all_goals simp [nodesE_cons, nodesE]
  all_goals omega

end

/-! ### Heap agreement and observation stability (used by the parser
correspondence): the parser only ever mutates the container on top of its
stack and freshly allocated cells, so observations of finished subtrees
persist. -/

/-- The two heaps hold the same object (or both none) at address `p` in
all four stores. -/
def cellEq (h h2 : Heap) (p : Nat) : Prop :=
  h2.arrs p = h.arrs p ∧ h2.dicts p = h.dicts p ∧ h2.tups p = h.tups p ∧ h2.strs p = h.strs p

/-- `h2` agrees with `h` on every address of `[lo, hi)` except (possibly)
the single address `ex`. -/
def AgreeOn (h h2 : Heap) (lo hi : Nat) (ex : Option Nat) : Prop :=
  ∀ p, lo ≤ p → p < hi → some p ≠ ex → cellEq h h2 p

theorem AgreeOn_refl (h : Heap) (lo hi : Nat) (ex : Option Nat) : AgreeOn h h lo hi ex :=
  fun _ _ _ _ => ⟨Eq.refl _, Eq.refl _, Eq.refl _, Eq.refl _⟩

theorem AgreeOn_shrink {h h2 : Heap} {lo hi lo2 hi2 : Nat} {ex : Option Nat}
    (ha : AgreeOn h h2 lo hi ex) (hlo : lo ≤ lo2) (hhi : hi2 ≤ hi) :
    AgreeOn h h2 lo2 hi2 ex :=
  fun p hp1 hp2 hp3 => ha p (le_trans hlo hp1) (lt_of_lt_of_le hp2 hhi) hp3

theorem AgreeOn_drop_ex {h h2 : Heap} {lo hi : Nat} {ex : Option Nat}
    (ha : AgreeOn h h2 lo hi none) : AgreeOn h h2 lo hi ex :=
  fun p hp1 hp2 _ => ha p hp1 hp2 (by simp)

/-- Chain an observation interval through a later parsing step: the step
from `h1` to `h2` only touched addresses at or above `h1.nextId` and the
excepted address `exq` (which lies below `lo`), so agreement with `h2` on
`[lo, h2.nextId)` restricts to agreement with `h1` on `[lo, h1.nextId)`. -/
theorem AgreeOn_chain {h1 h2 h3 : Heap} {lo : Nat} {exq : Option Nat}
    (h12 : AgreeOn h1 h2 0 h1.nextId exq) (hq : ∀ q, exq = some q → q < lo)
    (hni : h1.nextId ≤ h2.nextId)
    (h23 : AgreeOn h2 h3 lo h2.nextId none) : AgreeOn h1 h3 lo h1.nextId none := by
  intro p hp1 hp2 _
  have hc23 := h23 p hp1 (lt_of_lt_of_le hp2 hni) (by simp)
  have hc12 := h12 p (Nat.zero_le p) hp2 (by
    intro hc
    rcases exq with _ | q
    · cases hc
    · cases hc
      exact absurd hp1 (Nat.not_le.mpr (hq p rfl)))
  exact ⟨hc23.1.trans hc12.1, hc23.2.1.trans hc12.2.1, hc23.2.2.1.trans hc12.2.2.1,
    hc23.2.2.2.trans hc12.2.2.2⟩

/-- Compose two framing facts: a step confined below `B` except `ex`,
followed by a step confined below `h2.nextId` except `ex2`, where `ex2`
is either above `B` or equal to `ex`. -/
theorem AgreeOn_comp0 {h1 h2 h3 : Heap} {B : Nat} {ex ex2 : Option Nat}
    (a12 : AgreeOn h1 h2 0 B ex) (a23 : AgreeOn h2 h3 0 h2.nextId ex2)
    (hB : B ≤ h2.nextId) (hex2 : ∀ q, ex2 = some q → q < B → ex = some q) :
    AgreeOn h1 h3 0 B ex := by
  intro p hp1 hp2 hp3
  have hc23 := a23 p hp1 (lt_of_lt_of_le hp2 hB) (by
    intro hc
    rcases ex2 with _ | q
    · cases hc
    · cases hc
      exact absurd (hex2 p rfl hp2) (Ne.symm hp3))
  have hc12 := a12 p hp1 hp2 hp3
  exact ⟨hc23.1.trans hc12.1, hc23.2.1.trans hc12.2.1, hc23.2.2.1.trans hc12.2.2.1,
    hc23.2.2.2.trans hc12.2.2.2⟩

/-! Introduction lemmas for `obsDoc` at successor fuel, plus the `ptup`
inversion (the container inversions for arrays and dictionaries are
above). -/

theorem obs_arr_intro {h : Heap} {fo : Nat} {d : Doc} {p : Nat} {a : ArrObj} {ts : List PDoc}
    (hdt : d.t = Ty.Array) (hdv : d.var = Val.varr p) (hap : h.arrs p = some a)
    (hsle : a.s ≤ a.arr.length) (hmap : (a.arr.take a.s).mapM (obsDoc h fo) = some ts) :
    obsDoc h (fo + 1) d = some (PDoc.parr ts) := by
  rw [obsDoc, hdt, hdv]
  simp [hap, hsle]
  exact hmap

theorem obs_dict_intro {h : Heap} {fo : Nat} {d : Doc} {p : Nat} {m : DictObjM}
    {ts : List (String × PDoc)}
    (hdt : d.t = Ty.Dict) (hdv : d.var = Val.vdict p) (hmp : h.dicts p = some m)
    (hmap : (m.mapM (fun kd =>
      (h.strs kd.1).bind (fun k => (obsDoc h fo kd.2).map (fun v => (k, v))))) = some ts) :
    obsDoc h (fo + 1) d = some (PDoc.pdict ts) := by
  rw [obsDoc, hdt, hdv]
  simp [hmp]
  exact hmap

theorem obs_tup_none_intro {h : Heap} {fo : Nat} {d : Doc} {p : Nat} {a : TupObj}
    (hdt : d.t = Ty.Tuple) (hdv : d.var = Val.vtup p) (hap : h.tups p = some a)
    (htp : a.tpl = none) (hs : a.s = 0) :
    obsDoc h (fo + 1) d = some (PDoc.ptup []) := by
  rw [obsDoc, hdt, hdv]
  simp [hap, htp, hs]

theorem obs_tup_some_intro {h : Heap} {fo : Nat} {d : Doc} {p : Nat} {a : TupObj}
    {ltp : List Doc} {ts : List PDoc}
    (hdt : d.t = Ty.Tuple) (hdv : d.var = Val.vtup p) (hap : h.tups p = some a)
    (htp : a.tpl = some ltp) (hsle : a.s ≤ ltp.length)
    (hmap : (ltp.take a.s).mapM (obsDoc h fo) = some ts) :
    obsDoc h (fo + 1) d = some (PDoc.ptup ts) := by
  rw [obsDoc, hdt, hdv]
  simp [hap, htp, hsle]
  exact hmap

theorem obs_pchar_inv {h : Heap} {fo : Nat} {d : Doc} {c : Int}
    (hob : obsDoc h fo d = some (PDoc.pchar c)) :
    d.t = Ty.Char ∧ d.var = Val.vchar c := by
  cases fo with
  | zero => simp [obsDoc] at hob
  | succ n =>
    cases d with
    | mk t var =>
      cases t <;> cases var <;> simp_all [obsDoc]
      all_goals obtain ⟨a, ha, hf⟩ := Option.bind_eq_some.mp hob
      all_goals (try split at hf) <;> (try split at hf) <;> simp_all [Option.map_eq_some']

theorem obs_pllong_inv {h : Heap} {fo : Nat} {d : Doc} {i : Int}
    (hob : obsDoc h fo d = some (PDoc.pllong i)) :
    d.t = Ty.LLong ∧ d.var = Val.vllong i := by
  cases fo with
  | zero => simp [obsDoc] at hob
  | succ n =>
    cases d with
    | mk t var =>
      cases t <;> cases var <;> simp_all [obsDoc]
      all_goals obtain ⟨a, ha, hf⟩ := Option.bind_eq_some.mp hob
      all_goals (try split at hf) <;> (try split at hf) <;> simp_all [Option.map_eq_some']

theorem obs_pfloat_inv {h : Heap} {fo : Nat} {d : Doc} {q : Dec}
    (hob : obsDoc h fo d = some (PDoc.pfloat q)) :
    d.t = Ty.Float ∧ d.var = Val.vfloat q := by
  cases fo with
  | zero => simp [obsDoc] at hob
  | succ n =>
    cases d with
    | mk t var =>
      cases t <;> cases var <;> simp_all [obsDoc]
      all_goals obtain ⟨a, ha, hf⟩ := Option.bind_eq_some.mp hob
      all_goals (try split at hf) <;> (try split at hf) <;> simp_all [Option.map_eq_some']

theorem obs_pdouble_inv {h : Heap} {fo : Nat} {d : Doc} {q : Dec}
    (hob : obsDoc h fo d = some (PDoc.pdouble q)) :
    d.t = Ty.Double ∧ d.var = Val.vdouble q := by
  cases fo with
  | zero => simp [obsDoc] at hob
  | succ n =>
    cases d with
    | mk t var =>
      cases t <;> cases var <;> simp_all [obsDoc]
      all_goals obtain ⟨a, ha, hf⟩ := Option.bind_eq_some.mp hob
      all_goals (try split at hf) <;> (try split at hf) <;> simp_all [Option.map_eq_some']

theorem obs_pldouble_inv {h : Heap} {fo : Nat} {d : Doc} {q : Dec}
    (hob : obsDoc h fo d = some (PDoc.pldouble q)) :
    d.t = Ty.LDouble ∧ d.var = Val.vldouble q := by
  cases fo with
  | zero => simp [obsDoc] at hob
  | succ n =>
    cases d with
    | mk t var =>
      cases t <;> cases var <;> simp_all [obsDoc]
      all_goals obtain ⟨a, ha, hf⟩ := Option.bind_eq_some.mp hob
      all_goals (try split at hf) <;> (try split at hf) <;> simp_all [Option.map_eq_some']

theorem obs_ptup_inv {h : Heap} {fo : Nat} {d : Doc} {ts : List PDoc}
    (hob : obsDoc h fo d = some (PDoc.ptup ts)) :
    d.t = Ty.Tuple ∧ ∃ p a fo2, d.var = Val.vtup p ∧ h.tups p = some a ∧ fo = fo2 + 1 ∧
      ((a.tpl = none ∧ a.s = 0 ∧ ts = []) ∨
        (∃ ltp, a.tpl = some ltp ∧ a.s ≤ ltp.length ∧
          (ltp.take a.s).mapM (obsDoc h fo2) = some ts)) := by
  cases fo with
  | zero => simp [obsDoc] at hob
  | succ fo2 =>
    cases d with
    | mk t var =>
      cases t <;> cases var <;> simp_all [obsDoc]
      case Tuple.vtup p =>
        obtain ⟨a, ha, hf⟩ := Option.bind_eq_some.mp hob
        obtain ⟨tpl0, s0⟩ := a
        cases tpl0 with
        | none =>
          simp at hf
          exact ⟨⟨none, s0⟩, ha, Or.inl ⟨rfl, hf.1, hf.2⟩⟩
        | some ltp =>
          simp only [Option.ite_none_right_eq_some, Option.map_eq_some'] at hf
          obtain ⟨hle, l, hl, he⟩ := hf
          simp only [PDoc.ptup.injEq] at he
          subst he
          exact ⟨⟨some ltp, s0⟩, ha, Or.inr ⟨ltp, rfl, hle, hl⟩⟩
      case Array.varr p =>
        obtain ⟨a, ha, hf⟩ := Option.bind_eq_some.mp hob
        split at hf <;> simp_all [Option.map_eq_some']
      case Dict.vdict p =>
        obtain ⟨a, ha, hf⟩ := Option.bind_eq_some.mp hob
        simp_all [Option.map_eq_some']

/-- `obsDoc` is monotone in its fuel. -/
theorem obs_mono {h : Heap} : ∀ {g : Nat} {t : PDoc} {d : Doc},
    obsDoc h g d = some t → obsDoc h (g + 1) d = some t := by
  intro g
  induction g with
  | zero => intro t d hob; simp [obsDoc] at hob
  | succ g ih =>
    intro t
    cases t with
    | pnull =>
      intro d hob
      obtain ⟨h1, h2⟩ := obs_pnull_inv hob
      rw [obsDoc, h1, h2]
    | pbool b =>
      intro d hob
      obtain ⟨h1, h2⟩ := obs_pbool_inv hob
      rw [obsDoc, h1, h2]
    | pint i =>
      intro d hob
      obtain ⟨h1, h2⟩ := obs_pint_inv hob
      rw [obsDoc, h1, h2]
    | pstr s =>
      intro d hob
      obtain ⟨h1, p, h2, h3⟩ := obs_pstr_inv hob
      rw [obsDoc, h1, h2]
      simp [h3]
    | pchar c =>
      intro d hob
      obtain ⟨h1, h2⟩ := obs_pchar_inv hob
      rw [obsDoc, h1, h2]
    | pllong i =>
      intro d hob
      obtain ⟨h1, h2⟩ := obs_pllong_inv hob
      rw [obsDoc, h1, h2]
    | pfloat q =>
      intro d hob
      obtain ⟨h1, h2⟩ := obs_pfloat_inv hob
      rw [obsDoc, h1, h2]
    | pdouble q =>
      intro d hob
      obtain ⟨h1, h2⟩ := obs_pdouble_inv hob
      rw [obsDoc, h1, h2]
    | pldouble q =>
      intro d hob
      obtain ⟨h1, h2⟩ := obs_pldouble_inv hob
      rw [obsDoc, h1, h2]
    | parr ts =>
      intro d hob
      obtain ⟨hdt, p, a, fo2, hdv, hap, hsle, hfo, hmap⟩ := obs_parr_inv hob
      cases Nat.succ_injective hfo.symm
      refine obs_arr_intro hdt hdv hap hsle ?_
      rw [mapM_opt_eq_some] at hmap ⊢
      exact List.Forall₂.imp (fun a b hab => ih hab) hmap
    | ptup ts =>
      intro d hob
      obtain ⟨hdt, p, a, fo2, hdv, hap, hfo, hrest⟩ := obs_ptup_inv hob
      cases Nat.succ_injective hfo.symm
      rcases hrest with ⟨htp, hs, hts⟩ | ⟨ltp, htp, hsle, hmap⟩
      · cases hts
        exact obs_tup_none_intro hdt hdv hap htp hs
      · refine obs_tup_some_intro hdt hdv hap htp hsle ?_
        rw [mapM_opt_eq_some] at hmap ⊢
        exact List.Forall₂.imp (fun a b hab => ih hab) hmap
    | pdict ts =>
      intro d hob
      obtain ⟨hdt, p, m, fo2, hdv, hmp, hfo, hmap⟩ := obs_pdict_inv hob
      cases Nat.succ_injective hfo.symm
      refine obs_dict_intro hdt hdv hmp ?_
      rw [mapM_opt_eq_some] at hmap ⊢
      refine List.Forall₂.imp (fun a b hab => ?_) hmap
      obtain ⟨kk, hkk, hval⟩ := Option.bind_eq_some.mp hab
      refine Option.bind_eq_some.mpr ⟨kk, hkk, ?_⟩
      obtain ⟨v, hv, hvb⟩ := Option.map_eq_some'.mp hval
      exact Option.map_eq_some'.mpr ⟨v, ih hv, hvb⟩

theorem obs_mono_le {h : Heap} {g g2 : Nat} {d : Doc} {t : PDoc} (hg : g ≤ g2)
    (hob : obsDoc h g d = some t) : obsDoc h g2 d = some t := by
  induction g2 with
  | zero =>
    cases Nat.le_zero.mp hg
    exact hob
  | succ g3 ih =>
    rcases Nat.lt_or_ge g (g3 + 1) with hlt | hge
    · exact obs_mono (ih (Nat.lt_succ_iff.mp hlt))
    · cases Nat.le_antisymm hg hge
      exact hob

/-! ### Reading the input through `cAt` at an offset -/

theorem cAt_drop {input r : List Char} {i : Nat} (hdrop : input.drop i = r) (j : Nat) :
    cAt input (i + j) = cAt r j := by
  unfold cAt
  rw [← hdrop, List.getD_eq_getElem?_getD, List.getD_eq_getElem?_getD, List.getElem?_drop]

theorem cAt_head {input r : List Char} {i : Nat} {c : Char} (hdrop : input.drop i = c :: r) :
    cAt input i = c := by
  have := cAt_drop hdrop 0
  simpa using this

theorem drop_add_of_drop {input pre suffix : List Char} {i : Nat}
    (hd : input.drop i = pre ++ suffix) : input.drop (i + pre.length) = suffix := by
  have h2 : (input.drop i).drop pre.length = suffix := by
    rw [hd]
    simp
  rw [List.drop_drop] at h2
  exact h2

theorem drop_succ_of_drop {input r : List Char} {i : Nat} {c : Char}
    (hd : input.drop i = c :: r) : input.drop (i + 1) = r :=
  @drop_add_of_drop input [c] r i hd

theorem lt_length_of_drop {input r : List Char} {i : Nat} (hdrop : input.drop i = r)
    {j : Nat} (hj : j < r.length) : i + j < input.length := by
  have hlen := congrArg List.length hdrop
  rw [List.length_drop] at hlen
  omega

/-! ### The literal and scanner run lemmas -/

theorem strncmpEq_of_drop : ∀ (lit : List Char) {input r : List Char} {i : Nat},
    input.drop i = lit ++ r → strncmpEq input i lit = true
  | [], _, _, _, _ => rfl
  | c :: cs, input, r, i, hd => by
    rw [strncmpEq, cAt_head (r := cs ++ r) (by simpa using hd), strncmpEq_of_drop cs
      (drop_succ_of_drop (r := cs ++ r) (by simpa using hd))]
    simp

theorem strncmpEq_ne_head {input : List Char} {i : Nat} {c : Char} {cs : List Char}
    (hne : cAt input i ≠ c) : strncmpEq input i (c :: cs) = false := by
  rw [strncmpEq]
  simp [hne]

theorem scanColon_run : ∀ (run : List Char) {input r : List Char} {i total fuel : Nat},
    input.drop i = run ++ ':' :: r → (∀ c ∈ run, c ≠ ':') → total = input.length →
    run.length < fuel → scanColon input total fuel i = i + run.length
  | [], input, r, i, total, fuel, hd, hno, htot, hfuel => by
    cases fuel with
    | zero => omega
    | succ f =>
      rw [scanColon]
      rw [if_pos (by rw [htot]; exact lt_length_of_drop hd (by simp : 0 < (':' :: r).length))]
      rw [if_pos (cAt_head hd)]
      simp
  | c :: cs, input, r, i, total, fuel, hd, hno, htot, hfuel => by
    cases fuel with
    | zero => simp at hfuel
    | succ f =>
      rw [scanColon]
      have hlt : i < total := by
        rw [htot]
        have := lt_length_of_drop hd (j := 0) (by simp)
        omega
      rw [if_pos hlt]
      rw [if_neg (by
        rw [cAt_head (r := cs ++ ':' :: r) (by simpa using hd)]
        exact hno c (by simp))]
      rw [scanColon_run cs (drop_succ_of_drop (r := cs ++ ':' :: r) (by simpa using hd))
        (fun c2 hc2 => hno c2 (by simp [hc2])) htot (by simpa using hfuel)]
      simp
      omega

theorem skipWsVal_one {input r : List Char} {i : Nat} {c : Char} {total fuel : Nat}
    (hd : input.drop i = ' ' :: c :: r)
    (hc : ¬(c = ' ' ∨ c = Char.ofNat 10 ∨ c = Char.ofNat 9 ∨ c = Char.ofNat 13))
    (htot : total = input.length) (hfuel : 2 ≤ fuel) :
    skipWsVal input total fuel i = i + 1 := by
  obtain ⟨f1, hf1⟩ : ∃ f1, fuel = f1 + 1 := ⟨fuel - 1, by omega⟩
  obtain ⟨f2, hf2⟩ : ∃ f2, f1 = f2 + 1 := ⟨f1 - 1, by omega⟩
  subst hf1 hf2
  rw [skipWsVal]
  rw [if_pos (by rw [htot]; exact lt_length_of_drop hd (j := 0) (by simp))]
  rw [if_pos (Or.inl (cAt_head hd))]
  rw [skipWsVal]
  by_cases hlt : i + 1 < total
  · rw [if_pos hlt]
    rw [cAt_head (drop_succ_of_drop hd)]
    rw [if_neg hc]
  · rw [if_neg hlt]

theorem keyTrimRight_stop {input : List Char} {left right fuel : Nat}
    (hc : ¬(left < right ∧ (cAt input right = ' ' ∨ cAt input right = Char.ofNat 10 ∨
      cAt input right = Char.ofNat 9 ∨ cAt input right = Char.ofNat 13)))
    (hfuel : 1 ≤ fuel) : keyTrimRight input left fuel right = right := by
  obtain ⟨f1, hf1⟩ : ∃ f1, fuel = f1 + 1 := ⟨fuel - 1, by omega⟩
  subst hf1
  rw [keyTrimRight, if_neg hc]

theorem trimLeftGo_stop {input : List Char} {endv start fuel : Nat}
    (hin : start < input.length) (hc : isTrimChar (cAt input start) = false)
    (hfuel : 1 ≤ fuel) : trimLeftGo input endv fuel start = Except.ok start := by
  obtain ⟨f1, hf1⟩ : ∃ f1, fuel = f1 + 1 := ⟨fuel - 1, by omega⟩
  subst hf1
  rw [trimLeftGo]
  by_cases hse : start ≤ endv
  · rw [if_pos hse]
    rw [show stdIdx input start = some (cAt input start) by
      unfold stdIdx cAt
      rw [dif_pos hin]
      rw [List.getD_eq_getElem?_getD, List.getElem?_eq_getElem hin]
      rfl]
    simp [hc]
  · rw [if_neg hse]

theorem trimEndGo_stop {input : List Char} {startv endv fuel : Nat}
    (hin : endv < input.length) (hc : isTrimChar (cAt input endv) = false)
    (hfuel : 1 ≤ fuel) : trimEndGo input startv fuel endv = Except.ok endv := by
  obtain ⟨f1, hf1⟩ : ∃ f1, fuel = f1 + 1 := ⟨fuel - 1, by omega⟩
  subst hf1
  rw [trimEndGo]
  by_cases hse : startv ≤ endv
  · rw [if_pos hse]
    rw [show stdIdx input endv = some (cAt input endv) by
      unfold stdIdx cAt
      rw [dif_pos hin]
      rw [List.getD_eq_getElem?_getD, List.getElem?_eq_getElem hin]
      rfl]
    simp [hc]
  · rw [if_neg hse]

theorem findIdx_quote_go : ∀ (l1 l2 : List Char) (st : Nat), (∀ c ∈ l1, ¬(c = '"')) →
    (l1 ++ '"' :: l2).findIdx? (fun c => c = '"') st = some (st + l1.length)
  | [], l2, st, _ => by simp [List.findIdx?_cons]
  | c :: cs, l2, st, hno => by
    rw [List.cons_append, List.findIdx?_cons]
    rw [if_neg (by simpa using hno c (by simp))]
    rw [findIdx_quote_go cs l2 (st + 1) (fun c2 hc2 => hno c2 (by simp [hc2]))]
    simp
    omega

theorem findIdx_quote (l1 l2 : List Char) (hno : ∀ c ∈ l1, ¬(c = '"')) :
    (l1 ++ '"' :: l2).findIdx? (fun c => c = '"') = some l1.length := by
  have := findIdx_quote_go l1 l2 0 hno
  simpa using this

/-! ### Decimal digit strings and the numeric scanner -/

/-- Everything the scanners need to know about a decimal digit character. -/
theorem digit_char_facts (k : Nat) (hk : k < 10) :
    isDigitC (Char.ofNat (48 + k)) = true ∧ (Char.ofNat (48 + k)).toNat = 48 + k ∧
    Char.ofNat (48 + k) ≠ '.' ∧ Char.ofNat (48 + k) ≠ '"' ∧ Char.ofNat (48 + k) ≠ 't' ∧
    Char.ofNat (48 + k) ≠ 'f' ∧ Char.ofNat (48 + k) ≠ 'n' ∧ Char.ofNat (48 + k) ≠ '-' ∧
    Char.ofNat (48 + k) ≠ '+' ∧ Char.ofNat (48 + k) ≠ 'e' ∧ Char.ofNat (48 + k) ≠ 'E' ∧
    Char.ofNat (48 + k) ≠ ' ' ∧ Char.ofNat (48 + k) ≠ Char.ofNat 10 ∧
    Char.ofNat (48 + k) ≠ Char.ofNat 9 ∧ Char.ofNat (48 + k) ≠ Char.ofNat 13 ∧
    Char.ofNat (48 + k) ≠ ',' ∧ Char.ofNat (48 + k) ≠ '{' ∧ Char.ofNat (48 + k) ≠ '[' ∧
    Char.ofNat (48 + k) ≠ '}' ∧ Char.ofNat (48 + k) ≠ ']' ∧ Char.ofNat (48 + k) ≠ ':' ∧
    Char.ofNat (48 + k) ≠ Char.ofNat 0 ∧ isTrimChar (Char.ofNat (48 + k)) = false := by
  interval_cases k <;> exact (by decide)

theorem natDigitsGo_shape : ∀ (fuel n : Nat), n < fuel →
    ∀ c ∈ natDigitsGo fuel n, ∃ k, k < 10 ∧ c = Char.ofNat (48 + k)
  | 0, n, hn => by omega
  | fuel + 1, n, hn => by
    intro c hc
    rw [natDigitsGo] at hc
    by_cases h10 : n < 10
    · rw [if_pos h10] at hc
      simp at hc
      exact ⟨n, h10, hc⟩
    · rw [if_neg h10] at hc
      rcases List.mem_append.mp hc with hc1 | hc2
      · have hrec : n / 10 < fuel := by
          have := Nat.div_lt_self (by omega : 0 < n) (by omega : 1 < 10)
          omega
        exact natDigitsGo_shape fuel (n / 10) hrec c hc1
      · simp at hc2
        exact ⟨n % 10, by omega, hc2⟩

theorem natDigitsGo_len_le : ∀ (fuel n k : Nat), n < fuel → 0 < k → n < 10 ^ k →
    (natDigitsGo fuel n).length ≤ k
  | 0, n, k, hn, hk, hnk => by omega
  | fuel + 1, n, k, hn, hk, hnk => by
    rw [natDigitsGo]
    by_cases h10 : n < 10
    · rw [if_pos h10]
      simpa using hk
    · rw [if_neg h10]
      have hk2 : 2 ≤ k := by
        by_contra hc
        have hk1 : k = 1 := by omega
        rw [hk1] at hnk
        simp at hnk
        omega
      have hrec : n / 10 < fuel := by
        have := Nat.div_lt_self (by omega : 0 < n) (by omega : 1 < 10)
        omega
      have hdiv : n / 10 < 10 ^ (k - 1) := by
        rw [Nat.div_lt_iff_lt_mul (by omega : 0 < 10)]
        have : 10 ^ (k - 1) * 10 = 10 ^ k := by
          rw [← pow_succ]
          congr 1
          omega
        omega
      have := natDigitsGo_len_le fuel (n / 10) (k - 1) hrec (by omega) hdiv
      simp
      omega

theorem natDigitsGo_foldl : ∀ (fuel n : Nat), n < fuel → ∀ (v : Int),
    List.foldl (fun a c => a * 10 + ((c.toNat - 48 : Nat) : Int)) v (natDigitsGo fuel n)
      = v * 10 ^ (natDigitsGo fuel n).length + (n : Int)
  | 0, n, hn => by omega
  | fuel + 1, n, hn => by
    intro v
    rw [natDigitsGo]
    by_cases h10 : n < 10
    · rw [if_pos h10]
      have htn := (digit_char_facts n h10).2.1
      simp [htn]
      try omega
    · rw [if_neg h10]
      have hrec : n / 10 < fuel := by
        have := Nat.div_lt_self (by omega : 0 < n) (by omega : 1 < 10)
        omega
      rw [List.foldl_append]
      rw [natDigitsGo_foldl fuel (n / 10) hrec v]
      have htn := (digit_char_facts (n % 10) (by omega)).2.1
      simp [htn, pow_succ]
      have hdm : ((n / 10 : Nat) : Int) * 10 + ((n % 10 : Nat) : Int) = (n : Int) := by
        push_cast
        omega
      ring_nf
      ring_nf at hdm
      omega

theorem natDigitsGo_ne_nil (fuel n : Nat) (hf : 0 < fuel) : natDigitsGo fuel n ≠ [] := by
  obtain ⟨f1, hf1⟩ : ∃ f1, fuel = f1 + 1 := ⟨fuel - 1, by omega⟩
  subst hf1
  rw [natDigitsGo]
  split <;> simp

/-- Top-level corollary of the master lemma: on a heap where `d` observes
as a Good tree `t`, `Doc::str` in plain mode terminates (with `nodes t`
iterations) and prints exactly the `renderL` text of the tree. -/
theorem Doc.str_renders (h : Heap) (d : Doc) (fo : Nat) (t : PDoc)
    (hob : obsDoc h fo d = some t) (hg : GoodP t = true) :
    Doc.str h d false (nodes t) = some (String.mk (renderL t)) := by
  unfold Doc.str
  have hm := strLoop_tree t h fo d "" 0 [] [] "" 0 hob hg trivial
  rw [Nat.add_zero] at hm
  rw [hm]
  simp only [strCont, drainText]
  apply congrArg
  apply strExt
  simp [strData_append, strData_mk, dataEmptyStr]

theorem numLoop_digits : ∀ (ds : List Char) {input r : List Char} {pos : Nat} {c : Char}
    {fuel : Nat} {v : Int} {L : Nat},
    input.drop pos = ds ++ c :: r →
    (∀ c2 ∈ ds, ∃ k, k < 10 ∧ c2 = Char.ofNat (48 + k)) →
    (isDigitC c || c = '.') = false →
    L + ds.length ≤ 9 →
    ds.length < fuel →
    numLoop input fuel ⟨Ty.Int, 0, L, v, 0, Dec.fromInt 0, false, pos⟩
      = some (NumLoopRes.done ⟨Ty.Int, 0, L + ds.length,
          List.foldl (fun a ch => a * 10 + ((ch.toNat - 48 : Nat) : Int)) v ds, 0,
          Dec.fromInt 0, false, pos + ds.length⟩)
  | [], input, r, pos, c, fuel, v, L, hd, hds, hc, hlen, hfuel => by
    obtain ⟨f1, hf1⟩ : ∃ f1, fuel = f1 + 1 := ⟨fuel - 1, by omega⟩
    subst hf1
    rw [numLoop]
    simp only [List.nil_append] at hd
    simp [cAt_head hd, hc]
  | d0 :: ds, input, r, pos, c, fuel, v, L, hd, hds, hc, hlen, hfuel => by
    obtain ⟨f1, hf1⟩ : ∃ f1, fuel = f1 + 1 := ⟨fuel - 1, by omega⟩
    subst hf1
    obtain ⟨k, hk, hck⟩ := hds d0 (by simp)
    subst hck
    have hface := digit_char_facts k hk
    have hhead : cAt input pos = Char.ofNat (48 + k) :=
      cAt_head (r := ds ++ c :: r) (by simpa using hd)
    rw [numLoop]
    simp only [hhead]
    rw [if_pos (by simp [hface.1])]
    rw [if_neg hface.2.2.1]
    have hlen9 : L ≠ 9 := by
      simp [List.length_cons] at hlen
      omega
    simp [hlen9, hface.2.1]
    rw [numLoop_digits ds (v := v * 10 + (k : Int)) (L := L + 1)
      (drop_succ_of_drop (r := ds ++ c :: r) (by simpa using hd))
      (fun c2 hc2 => hds c2 (by simp [hc2])) hc
      (by simp at hlen ⊢; omega) (by simp at hfuel ⊢; omega)]
    simp
    constructor <;> omega


theorem dataDash : ("-" : String).data = ['-'] := rfl

theorem intToString_toList_nonneg {i : Int} (h0 : 0 ≤ i) :
    (intToString i).toList = natDigitsGo (i.natAbs + 1) i.natAbs := by
  unfold intToString natToString
  rw [if_neg (by omega)]
  simp [String.toList, strData_append, strData_mk, dataEmptyStr]

theorem intToString_toList_neg {i : Int} (h0 : i < 0) :
    (intToString i).toList = '-' :: natDigitsGo (i.natAbs + 1) i.natAbs := by
  unfold intToString natToString
  rw [if_pos (by omega)]
  simp [String.toList, strData_append, strData_mk, dataDash]

theorem strQuote_no_quote (s : String) : ∀ c ∈ strQuote s, ¬(c = '"') := by
  intro c hc
  unfold strQuote at hc
  obtain ⟨ch, hch, he⟩ := List.mem_map.mp hc
  by_cases hq : ch = '"'
  · rw [if_pos hq] at he
    subst he
    decide
  · rw [if_neg hq] at he
    subst he
    exact hq

theorem strQuote_good {s : String} (hg : goodStr s = true) : strQuote s = s.toList := by
  unfold strQuote
  unfold goodStr at hg
  rw [List.all_eq_true] at hg
  have hc : ∀ ch ∈ s.toList, (if ch = '"' then Char.ofNat 39 else ch) = ch := by
    intro ch hch
    have := hg ch hch
    simp at this
    rw [if_neg this.1]
  rw [List.map_congr_left hc]
  simp

theorem prim_scan_null {input r : List Char} {i : Nat} {h : Heap} {fin : Char}
    (hd : input.drop i = renderL PDoc.pnull ++ r) :
    string_to_prim_doc input i fin h = some (h, nullDoc, i + 4) := by
  rw [show renderL PDoc.pnull = ['n', 'u', 'l', 'l'] by simp [renderL]] at hd
  have hcn : cAt input i = 'n' := cAt_head (r := ['u', 'l', 'l'] ++ r) (by simpa using hd)
  unfold string_to_prim_doc
  rw [hcn, if_neg (by decide)]
  rw [strncmpEq_ne_head (by rw [hcn]; decide)]
  rw [strncmpEq_ne_head (by rw [hcn]; decide)]
  rw [strncmpEq_of_drop ['n', 'u', 'l', 'l'] hd]
  simp

theorem prim_scan_true {input r : List Char} {i : Nat} {h : Heap} {fin : Char}
    (hd : input.drop i = ['t', 'r', 'u', 'e'] ++ r) :
    string_to_prim_doc input i fin h = some (h, ⟨Ty.Bool, Val.vbool true⟩, i + 4) := by
  have hcn : cAt input i = 't' := cAt_head (r := ['r', 'u', 'e'] ++ r) (by simpa using hd)
  unfold string_to_prim_doc
  rw [hcn, if_neg (by decide)]
  rw [strncmpEq_of_drop ['t', 'r', 'u', 'e'] hd]
  simp

theorem prim_scan_false {input r : List Char} {i : Nat} {h : Heap} {fin : Char}
    (hd : input.drop i = ['f', 'a', 'l', 's', 'e'] ++ r) :
    string_to_prim_doc input i fin h = some (h, ⟨Ty.Bool, Val.vbool false⟩, i + 5) := by
  have hcn : cAt input i = 'f' := cAt_head (r := ['a', 'l', 's', 'e'] ++ r) (by simpa using hd)
  unfold string_to_prim_doc
  rw [hcn, if_neg (by decide)]
  rw [strncmpEq_ne_head (by rw [hcn]; decide)]
  rw [strncmpEq_of_drop ['f', 'a', 'l', 's', 'e'] hd]
  simp

theorem prim_scan_str {s : String} {input r : List Char} {i : Nat} {h : Heap} {fin : Char}
    (hgs : goodStr s = true) (hd : input.drop i = renderL (PDoc.pstr s) ++ r) :
    string_to_prim_doc input i fin h
      = some ((h.allocStr s).1, ⟨Ty.Str, Val.vstr h.nextId⟩,
          i + (renderL (PDoc.pstr s)).length) := by
  have hdq : input.drop i = '"' :: (strQuote s ++ '"' :: r) := by
    rw [hd]
    simp [renderL, List.append_assoc]
  unfold string_to_prim_doc
  rw [cAt_head hdq, if_pos rfl]
  rw [drop_succ_of_drop hdq]
  rw [findIdx_quote (strQuote s) r (strQuote_no_quote s)]
  have htake : (strQuote s ++ '"' :: r).take (strQuote s).length = strQuote s :=
    List.take_left _ _
  have hcontent : String.mk (strQuote s) = s := by
    rw [strQuote_good hgs]
    rfl
  have hlen : (renderL (PDoc.pstr s)).length = (strQuote s).length + 2 := by
    simp [renderL]
  rw [hlen]
  simp [htake, hcontent, Heap.allocStr]
  try omega



theorem cAt_after_pre {input pre r : List Char} {pos : Nat} {c : Char}
    (hd : input.drop pos = pre ++ c :: r) : cAt input (pos + pre.length) = c :=
  cAt_head (drop_add_of_drop hd)

theorem prim_scan_int {iv : Int} {input r : List Char} {pos : Nat} {c : Char} {h : Heap}
    {fin : Char}
    (hgood : -1000000000 < iv ∧ iv < 1000000000)
    (hd : input.drop pos = (intToString iv).toList ++ c :: r)
    (hterm : c = ',' ∨ c = Char.ofNat 10 ∨ c = fin ∨ c = Char.ofNat 0)
    (hfin : fin = ']' ∨ fin = '}' ∨ fin = ' ') :
    string_to_prim_doc input pos fin h
      = some (h, ⟨Ty.Int, Val.vint iv⟩, pos + (intToString iv).toList.length) := by
  have hcfacts : isDigitC c = false ∧ c ≠ '.' ∧ c ≠ 'e' ∧ c ≠ 'E' ∧
      isTermChar c fin = true := by
    rcases hterm with hc | hc | hc | hc
    · subst hc
      exact ⟨by decide, by decide, by decide, by decide, by simp [isTermChar]⟩
    · subst hc
      exact ⟨by decide, by decide, by decide, by decide, by simp [isTermChar]⟩
    · subst hc
      rcases hfin with hf | hf | hf <;> subst hf <;>
        exact ⟨by decide, by decide, by decide, by decide, by simp [isTermChar]⟩
    · subst hc
      exact ⟨by decide, by decide, by decide, by decide, by simp [isTermChar]⟩
  have hcnum : (isDigitC c || decide (c = '.')) = false := by
    simp [hcfacts.1]
    exact hcfacts.2.1
  have habs9 : iv.natAbs < 10 ^ 9 := by
    have h9 : (10 : Nat) ^ 9 = 1000000000 := by norm_num
    omega
  have hshape := natDigitsGo_shape (iv.natAbs + 1) iv.natAbs (by omega)
  have hlen9 := natDigitsGo_len_le (iv.natAbs + 1) iv.natAbs 9 (by omega) (by omega) habs9
  have hfold := natDigitsGo_foldl (iv.natAbs + 1) iv.natAbs (by omega) 0
  obtain ⟨d0, ds2, hds0⟩ : ∃ d0 ds2,
      natDigitsGo (iv.natAbs + 1) iv.natAbs = d0 :: ds2 := by
    cases hne : natDigitsGo (iv.natAbs + 1) iv.natAbs with
    | nil => exact absurd hne (natDigitsGo_ne_nil _ _ (by omega))
    | cons d0 ds2 => exact ⟨d0, ds2, rfl⟩
  obtain ⟨k0, hk0, hd0⟩ := hshape d0 (by rw [hds0]; simp)
  obtain ⟨hf_dig, hf_toNat, hf_dot, hf_quote, hf_t, hf_f, hf_n, hf_dash, hf_plus, hf_e,
    hf_E, hf_sp, hf_nl, hf_tab, hf_cr, hf_comma, hf_lb, hf_lbk, hf_rb, hf_rbk, hf_colon,
    hf_nul, hf_trim⟩ := digit_char_facts k0 hk0
  rcases Int.lt_or_le iv 0 with hneg | hpos
  · rw [intToString_toList_neg hneg] at hd ⊢
    have hcm : cAt input pos = '-' :=
      cAt_head (r := natDigitsGo (iv.natAbs + 1) iv.natAbs ++ c :: r) (by simpa using hd)
    have hd1 : input.drop (pos + 1) = natDigitsGo (iv.natAbs + 1) iv.natAbs ++ c :: r :=
      drop_succ_of_drop (r := natDigitsGo (iv.natAbs + 1) iv.natAbs ++ c :: r)
        (by simpa using hd)
    have hc0 : cAt input (pos + 1) = Char.ofNat (48 + k0) := by
      rw [hds0] at hd1
      rw [cAt_head hd1, hd0]
    have hcterm : cAt input (pos + 1 + (natDigitsGo (iv.natAbs + 1) iv.natAbs).length) = c :=
      cAt_after_pre hd1
    have hfuel : (natDigitsGo (iv.natAbs + 1) iv.natAbs).length < input.length + 2 := by
      have hll := congrArg List.length hd1
      rw [List.length_drop, List.length_append] at hll
      simp at hll
      omega
    have hnt : cAt input pos ≠ 't' := by rw [hcm]; decide
    have hnf : cAt input pos ≠ 'f' := by rw [hcm]; decide
    have hnn : cAt input pos ≠ 'n' := by rw [hcm]; decide
    unfold string_to_prim_doc
    rw [strncmpEq_ne_head hnt, strncmpEq_ne_head hnf, strncmpEq_ne_head hnn]
    rw [hcm]
    rw [if_neg (by decide)]
    rw [if_pos (Or.inr (Or.inl rfl))]
    simp [hc0, hf_dot]
    rw [numLoop_digits (natDigitsGo (iv.natAbs + 1) iv.natAbs) (v := 0) (L := 0) hd1 hshape
      hcnum (by omega) hfuel]
    rw [hfold]
    simp [hcterm, hcfacts.2.2.1, hcfacts.2.2.2.1, hcfacts.2.2.2.2]
    refine ⟨?_, by omega⟩
    rw [abs_of_nonpos (by omega : iv ≤ 0)]
    ring
  · rw [intToString_toList_nonneg hpos] at hd ⊢
    have hc0 : cAt input pos = Char.ofNat (48 + k0) := by
      rw [hds0] at hd
      rw [cAt_head (by simpa using hd), hd0]
    have hcterm : cAt input (pos + (natDigitsGo (iv.natAbs + 1) iv.natAbs).length) = c :=
      cAt_after_pre hd
    have hfuel : (natDigitsGo (iv.natAbs + 1) iv.natAbs).length < input.length + 2 := by
      have hll := congrArg List.length hd
      rw [List.length_drop, List.length_append] at hll
      simp at hll
      omega
    have hnt : cAt input pos ≠ 't' := by rw [hc0]; exact hf_t
    have hnf : cAt input pos ≠ 'f' := by rw [hc0]; exact hf_f
    have hnn : cAt input pos ≠ 'n' := by rw [hc0]; exact hf_n
    unfold string_to_prim_doc
    rw [strncmpEq_ne_head hnt, strncmpEq_ne_head hnf, strncmpEq_ne_head hnn]
    rw [hc0]
    rw [if_neg hf_quote]
    rw [if_pos (Or.inr (Or.inr (Or.inr hf_dig)))]
    simp [hc0, hf_dash, hf_plus, hf_dot]
    rw [numLoop_digits (natDigitsGo (iv.natAbs + 1) iv.natAbs) (v := 0) (L := 0) hd hshape
      hcnum (by omega) hfuel]
    rw [hfold]
    simp [hcterm, hcfacts.2.2.1, hcfacts.2.2.2.1, hcfacts.2.2.2.2, hf_dash]
    all_goals first | omega | exact hfold

/-! ### Heap-operation facts used by the parser correspondence -/

/-- Pointer-keyed upsert with a key fresh for the whole map appends. -/
theorem mapUpsert_append : ∀ {m : List (Nat × Doc)} {k : Nat} {d : Doc},
    (∀ kd ∈ m, kd.1 ≠ k) → mapUpsert m k d = m ++ [(k, d)]
  | [], k, d, _ => rfl
  | (k0, d0) :: rest, k, d, hfresh => by
    rw [mapUpsert, if_neg (hfresh (k0, d0) (by simp))]
    rw [mapUpsert_append (fun kd hkd => hfresh kd (by simp [hkd]))]
    simp

theorem set_take_succ {α : Type} : ∀ (l : List α) (s : Nat) (x : α), s < l.length →
    (l.set s x).take (s + 1) = l.take s ++ [x]
  | [], s, x, hs => by simp at hs
  | c :: tl, 0, x, hs => by simp
  | c :: tl, s + 1, x, hs => by
    rw [List.set_cons_succ, List.take_succ_cons, List.take_succ_cons,
      set_take_succ tl s x (by simpa using hs)]
    simp

/-- `DocArr::emplace_back` in one step: the live prefix grows by the
pushed document and the buffer stays as long as the capacity. -/
theorem emplace_back_facts {a : ArrObj} (doc : Doc) (hwf : a.arr.length = a.cap)
    (hs : a.s ≤ a.cap) (hc1 : 1 ≤ a.cap) :
    (a.emplace_back doc).arr.take (a.emplace_back doc).s = a.arr.take a.s ++ [doc] ∧
    (a.emplace_back doc).arr.length = (a.emplace_back doc).cap ∧
    (a.emplace_back doc).s = a.s + 1 ∧ (a.emplace_back doc).s ≤ (a.emplace_back doc).cap ∧
    1 ≤ (a.emplace_back doc).cap := by
  unfold ArrObj.emplace_back ArrObj.full
  by_cases hfull : a.s = a.cap
  · rw [if_pos (by simp [hfull])]
    have hlen : (a.arr.take a.s ++ List.replicate (a.cap * 2 - a.s) nullDoc).length
        = a.cap * 2 := by
      simp [hwf]
      omega
    have hslen : a.s < (a.arr.take a.s ++ List.replicate (a.cap * 2 - a.s) nullDoc).length := by
      omega
    refine ⟨?_, by simpa using hlen, rfl, by simp; omega, by simp; omega⟩
    rw [set_take_succ _ _ _ hslen]
    congr 1
    rw [List.take_append_of_le_length (by simp [hwf]; omega)]
    simp [hwf]
  · rw [if_neg (by simp [hfull])]
    have hslt : a.s < a.arr.length := by omega
    refine ⟨?_, by simpa using hwf, rfl, by simp; omega, by simp; omega⟩
    exact set_take_succ _ _ _ hslt

/-- The elementary framing facts of each heap mutation. -/
theorem agree_setDict (h : Heap) (p : Nat) (m : DictObjM) :
    AgreeOn h (h.setDict p m) 0 h.nextId (some p) := by
  intro q h1 h2 h3
  refine ⟨rfl, ?_, rfl, rfl⟩
  simp only [Heap.setDict]
  rw [if_neg (by intro hc; exact h3 (by rw [hc]))]

theorem agree_setArr (h : Heap) (p : Nat) (a : ArrObj) :
    AgreeOn h (h.setArr p a) 0 h.nextId (some p) := by
  intro q h1 h2 h3
  refine ⟨?_, rfl, rfl, rfl⟩
  simp only [Heap.setArr]
  rw [if_neg (by intro hc; exact h3 (by rw [hc]))]

theorem agree_of_ge {h h2 : Heap} (hq : ∀ q, q < h.nextId →
    cellEq h h2 q) : AgreeOn h h2 0 h.nextId none :=
  fun q _ hlt _ => hq q hlt

theorem cellEq_setStr_lt {h : Heap} {p q : Nat} {s : String} (hne : q ≠ p) :
    cellEq h (h.setStr p s) q := by
  refine ⟨rfl, rfl, rfl, ?_⟩
  simp only [Heap.setStr]
  rw [if_neg hne]

theorem agree_allocStr (h : Heap) (s : String) :
    AgreeOn h (h.allocStr s).1 0 h.nextId none := by
  intro q _ hlt _
  refine ⟨rfl, rfl, rfl, ?_⟩
  simp only [Heap.allocStr, Heap.setStr]
  rw [if_neg (by omega)]

theorem agree_allocDict (h : Heap) (m : DictObjM) :
    AgreeOn h (h.allocDict m).1 0 h.nextId none := by
  intro q _ hlt _
  refine ⟨rfl, ?_, rfl, rfl⟩
  simp only [Heap.allocDict, Heap.setDict]
  rw [if_neg (by omega)]

theorem agree_allocArr (h : Heap) (a : ArrObj) :
    AgreeOn h (h.allocArr a).1 0 h.nextId none := by
  intro q _ hlt _
  refine ⟨?_, rfl, rfl, rfl⟩
  simp only [Heap.allocArr, Heap.setArr]
  rw [if_neg (by omega)]

theorem AgreeOn_trans_none {h1 h2 h3 : Heap} {B : Nat}
    (a12 : AgreeOn h1 h2 0 B none) (a23 : AgreeOn h2 h3 0 B none) :
    AgreeOn h1 h3 0 B none := by
  intro q h1q h2q _
  have c12 := a12 q h1q h2q (by simp)
  have c23 := a23 q h1q h2q (by simp)
  exact ⟨c23.1.trans c12.1, c23.2.1.trans c12.2.1, c23.2.2.1.trans c12.2.2.1,
    c23.2.2.2.trans c12.2.2.2⟩

theorem AgreeOn_trans_ex {h1 h2 h3 : Heap} {B : Nat} {ex : Option Nat}
    (a12 : AgreeOn h1 h2 0 B ex) (a23 : AgreeOn h2 h3 0 B ex) :
    AgreeOn h1 h3 0 B ex := by
  intro q h1q h2q h3q
  have c12 := a12 q h1q h2q h3q
  have c23 := a23 q h1q h2q h3q
  exact ⟨c23.1.trans c12.1, c23.2.1.trans c12.2.1, c23.2.2.1.trans c12.2.2.1,
    c23.2.2.2.trans c12.2.2.2⟩

theorem AgreeOn_trans_none2 {h1 h2 h3 : Heap} {lo hi : Nat}
    (a12 : AgreeOn h1 h2 lo hi none) (a23 : AgreeOn h2 h3 lo hi none) :
    AgreeOn h1 h3 lo hi none := by
  intro q h1q h2q _
  have c12 := a12 q h1q h2q (by simp)
  have c23 := a23 q h1q h2q (by simp)
  exact ⟨c23.1.trans c12.1, c23.2.1.trans c12.2.1, c23.2.2.1.trans c12.2.2.1,
    c23.2.2.2.trans c12.2.2.2⟩

/-! ### The parser correspondence: closers and body text -/

/-- What one parser iteration at a closing bracket produces: the final
result when the closed container was the last frame, otherwise the
resumed loop on the rest of the stack just past the bracket. -/
def closeK (input : List Char) (h1 : Heap) (cdoc : Doc) (pos : Nat)
    (log : List OutEvent) (fuel : Nat) : List Doc → Except PErr (Heap × Doc × List OutEvent)
  | [] => Except.ok (h1, cdoc, log)
  | d2 :: rs => parseLoop input input.length false fuel h1 (d2 :: rs) pos log

/-- The dictionary body text after the opening brace. -/
def bodyD : List (String × PDoc) → List Char
  | [] => ['\x7d']
  | e :: es => Char.ofNat 10 :: renderEntsRev (e :: es) ++ [Char.ofNat 10, '\x7d']

theorem renderL_parr (ts : List PDoc) :
    renderL (PDoc.parr ts) = '[' :: (renderArr ts ++ [']']) := by
  cases ts <;> simp [renderL, renderArr]

theorem renderL_pdict (m : List (String × PDoc)) :
    renderL (PDoc.pdict m) = '\x7b' :: bodyD m := by
  cases m <;> simp [renderL, bodyD]

theorem revDictE_eq_map (m : List (String × PDoc)) :
    revDictE m = m.map (fun e => (e.1, revDict e.2)) := by
  induction m with
  | nil => rfl
  | cons e es ih => simp [revDictE, ih]

theorem revDictE_reverse (m : List (String × PDoc)) :
    revDictE m.reverse = (revDictE m).reverse := by
  simp [revDictE_eq_map]

theorem AgreeOn_ex_below {h h2 : Heap} {lo hi pp : Nat}
    (ha : AgreeOn h h2 lo hi (some pp)) (hpp : pp < lo) : AgreeOn h h2 lo hi none := by
  intro q h1 h2q _
  refine ha q h1 h2q ?_
  intro hc
  cases hc
  omega

theorem strs_on {h h2 : Heap} {lo hi : Nat} {ex : Option Nat} {q : Nat}
    (ha : AgreeOn h h2 lo hi ex) (h1 : lo ≤ q) (hq : q < hi) (h3 : some q ≠ ex) :
    h2.strs q = h.strs q :=
  (ha q h1 hq h3).2.2.2

theorem arrs_on {h h2 : Heap} {lo hi : Nat} {ex : Option Nat} {q : Nat}
    (ha : AgreeOn h h2 lo hi ex) (h1 : lo ≤ q) (hq : q < hi) (h3 : some q ≠ ex) :
    h2.arrs q = h.arrs q :=
  (ha q h1 hq h3).1

theorem dicts_on {h h2 : Heap} {lo hi : Nat} {ex : Option Nat} {q : Nat}
    (ha : AgreeOn h h2 lo hi ex) (h1 : lo ≤ q) (hq : q < hi) (h3 : some q ≠ ex) :
    h2.dicts q = h.dicts q :=
  (ha q h1 hq h3).2.1

/-! ### Single parser iterations, one lemma per branch taken -/

theorem pl_step_ws {input : List Char} {i : Nat}
    (hw : cAt input i = ' ' ∨ cAt input i = Char.ofNat 10 ∨ cAt input i = Char.ofNat 9 ∨
      cAt input i = Char.ofNat 13)
    (hlt : i < input.length) (fuel : Nat) (h : Heap) (stk : List Doc) (log : List OutEvent) :
    parseLoop input input.length false (fuel + 1) h stk i log
      = parseLoop input input.length false fuel h stk (i + 1) log := by
  simp only [parseLoop, if_pos hlt, if_pos hw]

theorem pl_step_comma {input : List Char} {i : Nat}
    (hc : cAt input i = ',') (hlt : i < input.length) (fuel : Nat) (h : Heap)
    (doc : Doc) (rest : List Doc) (log : List OutEvent) :
    parseLoop input input.length false (fuel + 1) h (doc :: rest) i log
      = parseLoop input input.length false fuel h (doc :: rest) (i + 1) log := by
  have hnw : ¬(cAt input i = ' ' ∨ cAt input i = Char.ofNat 10 ∨ cAt input i = Char.ofNat 9 ∨
      cAt input i = Char.ofNat 13) := by rw [hc]; decide
  simp only [parseLoop, if_pos hlt, if_neg hnw, if_pos hc]

theorem pl_step_close {input : List Char} {i : Nat}
    (hc : cAt input i = '\x7d' ∨ cAt input i = ']') (hlt : i < input.length) (fuel : Nat)
    (h : Heap) (doc : Doc) (rest : List Doc) (log : List OutEvent) :
    parseLoop input input.length false (fuel + 1) h (doc :: rest) i log
      = closeK input h doc (i + 1) log fuel rest := by
  have hnw : ¬(cAt input i = ' ' ∨ cAt input i = Char.ofNat 10 ∨ cAt input i = Char.ofNat 9 ∨
      cAt input i = Char.ofNat 13) := by rcases hc with hc | hc <;> rw [hc] <;> decide
  have hnc : ¬(cAt input i = ',') := by rcases hc with hc | hc <;> rw [hc] <;> decide
  simp only [parseLoop, if_pos hlt, if_neg hnw, if_neg hnc, if_pos hc]
  cases rest with
  | nil => simp [closeK]
  | cons d2 rs => rw [closeK]
theorem tyAD : ¬(Ty.Array = Ty.Dict) := by decide

theorem pl_step_arr_open_d {input : List Char} {i p : Nat} {h : Heap} {A : ArrObj}
    (hc : cAt input i = '\x7b') (hlt : i < input.length)
    (harr : h.arrs p = some A) (hp : p < h.nextId) (fuel : Nat)
    (rest : List Doc) (log : List OutEvent) :
    parseLoop input input.length false (fuel + 1) h (⟨Ty.Array, Val.varr p⟩ :: rest) i log
      = parseLoop input input.length false fuel
          ((h.allocDict []).1.setArr p
            (A.emplace_back ⟨Ty.Dict, Val.vdict h.nextId⟩))
          (⟨Ty.Dict, Val.vdict h.nextId⟩ :: ⟨Ty.Array, Val.varr p⟩ :: rest) (i + 1) log := by
  have hnw : ¬(cAt input i = ' ' ∨ cAt input i = Char.ofNat 10 ∨ cAt input i = Char.ofNat 9 ∨
      cAt input i = Char.ofNat 13) := by rw [hc]; decide
  have hnc : ¬(cAt input i = ',') := by rw [hc]; decide
  have hncl : ¬(cAt input i = '\x7d' ∨ cAt input i = ']') := by rw [hc]; decide
  have hoty : Doc.ofType h Ty.Dict = ((h.allocDict []).1, ⟨Ty.Dict, Val.vdict h.nextId⟩) :=
    rfl
  have hemp : Doc.emplace_back (h.allocDict []).1 ⟨Ty.Array, Val.varr p⟩
      ⟨Ty.Dict, Val.vdict h.nextId⟩
      = Except.ok ((h.allocDict []).1.setArr p
          (A.emplace_back ⟨Ty.Dict, Val.vdict h.nextId⟩)) := by
    have harr2 : (h.allocDict []).1.arrs p = some A := harr
    simp only [Doc.emplace_back, harr2]
  simp only [parseLoop, if_pos hlt, if_neg hnw, if_neg hnc, if_neg hncl, Doc.get_type,
    if_neg tyAD, eq_self_iff_true, ite_true, if_pos hc, hoty, hemp,
    Bool.false_eq_true, if_false, List.append_nil]

theorem pl_step_arr_open_a {input : List Char} {i p : Nat} {h : Heap} {A : ArrObj}
    (hc : cAt input i = '[') (hlt : i < input.length)
    (harr : h.arrs p = some A) (hp : p < h.nextId) (fuel : Nat)
    (rest : List Doc) (log : List OutEvent) :
    parseLoop input input.length false (fuel + 1) h (⟨Ty.Array, Val.varr p⟩ :: rest) i log
      = parseLoop input input.length false fuel
          ((h.allocArr ArrObj.default8).1.setArr p
            (A.emplace_back ⟨Ty.Array, Val.varr h.nextId⟩))
          (⟨Ty.Array, Val.varr h.nextId⟩ :: ⟨Ty.Array, Val.varr p⟩ :: rest) (i + 1) log := by
  have hnw : ¬(cAt input i = ' ' ∨ cAt input i = Char.ofNat 10 ∨ cAt input i = Char.ofNat 9 ∨
      cAt input i = Char.ofNat 13) := by rw [hc]; decide
  have hnc : ¬(cAt input i = ',') := by rw [hc]; decide
  have hncl : ¬(cAt input i = '\x7d' ∨ cAt input i = ']') := by rw [hc]; decide
  have hnlb : ¬(cAt input i = '\x7b') := by rw [hc]; decide
  have hoty : Doc.ofType h Ty.Array
      = ((h.allocArr ArrObj.default8).1, ⟨Ty.Array, Val.varr h.nextId⟩) := rfl
  have harr2 : (h.allocArr ArrObj.default8).1.arrs p = some A := by
    simp only [Heap.allocArr, Heap.setArr]
    rw [if_neg (by omega)]
    exact harr
  have hemp : Doc.emplace_back (h.allocArr ArrObj.default8).1 ⟨Ty.Array, Val.varr p⟩
      ⟨Ty.Array, Val.varr h.nextId⟩
      = Except.ok ((h.allocArr ArrObj.default8).1.setArr p
          (A.emplace_back ⟨Ty.Array, Val.varr h.nextId⟩)) := by
    simp only [Doc.emplace_back, harr2]
  simp only [parseLoop, if_pos hlt, if_neg hnw, if_neg hnc, if_neg hncl, Doc.get_type,
    if_neg tyAD, eq_self_iff_true, ite_true, if_neg hnlb, if_pos hc, hoty, hemp,
    Bool.false_eq_true, if_false, List.append_nil]

theorem pl_step_arr_prim {input : List Char} {i i2 p : Nat} {h h2 : Heap} {A2 : ArrObj}
    {nd : Doc} {c0 : Char}
    (hc : cAt input i = c0)
    (hnw : ¬(c0 = ' ' ∨ c0 = Char.ofNat 10 ∨ c0 = Char.ofNat 9 ∨ c0 = Char.ofNat 13))
    (hnc : c0 ≠ ',') (hnrb : c0 ≠ '\x7d') (hnrk : c0 ≠ ']') (hnlb : c0 ≠ '\x7b')
    (hnlk : c0 ≠ '[') (hlt : i < input.length)
    (hprim : string_to_prim_doc input i ']' h = some (h2, nd, i2))
    (harr : h2.arrs p = some A2) (fuel : Nat) (rest : List Doc) (log : List OutEvent) :
    parseLoop input input.length false (fuel + 1) h (⟨Ty.Array, Val.varr p⟩ :: rest) i log
      = parseLoop input input.length false fuel (h2.setArr p (A2.emplace_back nd))
          (⟨Ty.Array, Val.varr p⟩ :: rest) i2 log := by
  subst hc
  have hemp : Doc.emplace_back h2 ⟨Ty.Array, Val.varr p⟩ nd
      = Except.ok (h2.setArr p (A2.emplace_back nd)) := by
    simp only [Doc.emplace_back, harr]
  have hncl : ¬(cAt input i = '\x7d' ∨ cAt input i = ']') := by
    push_neg
    exact ⟨hnrb, hnrk⟩
  simp only [parseLoop, if_pos hlt, if_neg hnw, if_neg hnc, if_neg hncl, Doc.get_type,
    if_neg tyAD, eq_self_iff_true, ite_true, if_neg hnlb, if_neg hnlk, if_neg hnrb,
    hprim, hemp, Bool.false_eq_true, if_false, List.append_nil]

theorem pl_step_dict_prim {input : List Char} {i n2 n3 i4 p : Nat} {h h2 : Heap}
    {m : DictObjM} {nd : Doc} {k : String}
    (hc : cAt input i = '"') (hlt : i < input.length)
    (hscan : scanColon input input.length input.length (i + 1) = n2)
    (hn2 : ¬(n2 = input.length))
    (hkey : extractKey input i n2 = k)
    (hws3 : skipWsVal input input.length input.length (n2 + 1) = n3)
    (hn3 : ¬(n3 = input.length))
    (hv1 : ¬(cAt input n3 = '\x7b')) (hv2 : ¬(cAt input n3 = '['))
    (hv3 : ¬(cAt input n3 = '\x7d' ∨ cAt input n3 = ']' ∨ cAt input n3 = ','))
    (hprim : string_to_prim_doc input n3 '\x7d' (h.allocStr k).1 = some (h2, nd, i4))
    (hd2 : h2.dicts p = some m) (fuel : Nat) (rest : List Doc) (log : List OutEvent) :
    parseLoop input input.length false (fuel + 1) h (⟨Ty.Dict, Val.vdict p⟩ :: rest) i log
      = parseLoop input input.length false fuel
          (h2.setDict p (mapUpsert m h.nextId nd)) (⟨Ty.Dict, Val.vdict p⟩ :: rest) i4 log := by
  have hnw : ¬(cAt input i = ' ' ∨ cAt input i = Char.ofNat 10 ∨ cAt input i = Char.ofNat 9 ∨
      cAt input i = Char.ofNat 13) := by rw [hc]; decide
  have hnc : ¬(cAt input i = ',') := by rw [hc]; decide
  have hncl : ¬(cAt input i = '\x7d' ∨ cAt input i = ']') := by rw [hc]; decide
  have hup : Doc.upsert h2 ⟨Ty.Dict, Val.vdict p⟩ (h.allocStr k).2 nd
      = Except.ok (h2.setDict p (mapUpsert m h.nextId nd)) := by
    simp only [Doc.upsert, hd2, Heap.allocStr]
  simp only [parseLoop, if_pos hlt, if_neg hnw, if_neg hnc, if_neg hncl, Doc.get_type,
    eq_self_iff_true, ite_true, hscan, if_neg hn2, hkey, hws3, if_neg hn3, if_neg hv1,
    if_neg hv2, if_neg hv3, hprim, hup, Bool.false_eq_true, if_false, List.append_nil]

theorem pl_step_dict_open_d {input : List Char} {i n2 n3 p : Nat} {h : Heap}
    {m : DictObjM} {k : String}
    (hc : cAt input i = '"') (hlt : i < input.length)
    (hscan : scanColon input input.length input.length (i + 1) = n2)
    (hn2 : ¬(n2 = input.length))
    (hkey : extractKey input i n2 = k)
    (hws3 : skipWsVal input input.length input.length (n2 + 1) = n3)
    (hn3 : ¬(n3 = input.length))
    (hv1 : cAt input n3 = '\x7b')
    (hm : (h.allocStr k).1.dicts p = some m) (hp : p < h.nextId) (fuel : Nat)
    (rest : List Doc) (log : List OutEvent) :
    parseLoop input input.length false (fuel + 1) h (⟨Ty.Dict, Val.vdict p⟩ :: rest) i log
      = parseLoop input input.length false fuel
          (((h.allocStr k).1.allocDict []).1.setDict p
            (mapUpsert m h.nextId ⟨Ty.Dict, Val.vdict (h.nextId + 1)⟩))
          (⟨Ty.Dict, Val.vdict (h.nextId + 1)⟩ :: ⟨Ty.Dict, Val.vdict p⟩ :: rest)
          (n3 + 1) log := by
  have hnw : ¬(cAt input i = ' ' ∨ cAt input i = Char.ofNat 10 ∨ cAt input i = Char.ofNat 9 ∨
      cAt input i = Char.ofNat 13) := by rw [hc]; decide
  have hnc : ¬(cAt input i = ',') := by rw [hc]; decide
  have hncl : ¬(cAt input i = '\x7d' ∨ cAt input i = ']') := by rw [hc]; decide
  have hni : (h.allocStr k).1.nextId = h.nextId + 1 := by simp [Heap.allocStr]
  have hoty : Doc.ofType (h.allocStr k).1 Ty.Dict
      = (((h.allocStr k).1.allocDict []).1,
          ⟨Ty.Dict, Val.vdict ((h.allocStr k).1.nextId)⟩) := rfl
  rw [hni] at hoty
  have hm2 : ((h.allocStr k).1.allocDict []).1.dicts p = some m := by
    have hne : p ≠ (h.allocStr k).1.nextId := by omega
    simp only [Heap.allocDict, Heap.setDict]
    rw [if_neg hne]
    exact hm
  have hup : Doc.upsert ((h.allocStr k).1.allocDict []).1 ⟨Ty.Dict, Val.vdict p⟩
      (h.allocStr k).2 ⟨Ty.Dict, Val.vdict (h.nextId + 1)⟩
      = Except.ok (((h.allocStr k).1.allocDict []).1.setDict p
          (mapUpsert m h.nextId ⟨Ty.Dict, Val.vdict (h.nextId + 1)⟩)) := by
    have hsnd : (h.allocStr k).2 = h.nextId := rfl
    rw [hsnd]
    simp only [Doc.upsert, hm2]
  simp only [parseLoop, if_pos hlt, if_neg hnw, if_neg hnc, if_neg hncl, Doc.get_type,
    eq_self_iff_true, ite_true, hscan, if_neg hn2, hkey, hws3, if_neg hn3, if_pos hv1,
    hoty, hup, Bool.false_eq_true, if_false, List.append_nil]

theorem pl_step_dict_open_a {input : List Char} {i n2 n3 p : Nat} {h : Heap}
    {m : DictObjM} {k : String}
    (hc : cAt input i = '"') (hlt : i < input.length)
    (hscan : scanColon input input.length input.length (i + 1) = n2)
    (hn2 : ¬(n2 = input.length))
    (hkey : extractKey input i n2 = k)
    (hws3 : skipWsVal input input.length input.length (n2 + 1) = n3)
    (hn3 : ¬(n3 = input.length))
    (hv1 : ¬(cAt input n3 = '\x7b')) (hv2 : cAt input n3 = '[')
    (hm : (h.allocStr k).1.dicts p = some m) (fuel : Nat) (rest : List Doc)
    (log : List OutEvent) :
    parseLoop input input.length false (fuel + 1) h (⟨Ty.Dict, Val.vdict p⟩ :: rest) i log
      = parseLoop input input.length false fuel
          (((h.allocStr k).1.allocArr ArrObj.default8).1.setDict p
            (mapUpsert m h.nextId ⟨Ty.Array, Val.varr (h.nextId + 1)⟩))
          (⟨Ty.Array, Val.varr (h.nextId + 1)⟩ :: ⟨Ty.Dict, Val.vdict p⟩ :: rest)
          (n3 + 1) log := by
  have hnw : ¬(cAt input i = ' ' ∨ cAt input i = Char.ofNat 10 ∨ cAt input i = Char.ofNat 9 ∨
      cAt input i = Char.ofNat 13) := by rw [hc]; decide
  have hnc : ¬(cAt input i = ',') := by rw [hc]; decide
  have hncl : ¬(cAt input i = '\x7d' ∨ cAt input i = ']') := by rw [hc]; decide
  have hni : (h.allocStr k).1.nextId = h.nextId + 1 := by simp [Heap.allocStr]
  have hoty : Doc.ofType (h.allocStr k).1 Ty.Array
      = (((h.allocStr k).1.allocArr ArrObj.default8).1,
          ⟨Ty.Array, Val.varr ((h.allocStr k).1.nextId)⟩) := rfl
  rw [hni] at hoty
  have hm2 : ((h.allocStr k).1.allocArr ArrObj.default8).1.dicts p = some m := by
    simp only [Heap.allocArr, Heap.setArr]
    exact hm
  have hup : Doc.upsert ((h.allocStr k).1.allocArr ArrObj.default8).1 ⟨Ty.Dict, Val.vdict p⟩
      (h.allocStr k).2 ⟨Ty.Array, Val.varr (h.nextId + 1)⟩
      = Except.ok (((h.allocStr k).1.allocArr ArrObj.default8).1.setDict p
          (mapUpsert m h.nextId ⟨Ty.Array, Val.varr (h.nextId + 1)⟩)) := by
    have hsnd : (h.allocStr k).2 = h.nextId := rfl
    rw [hsnd]
    simp only [Doc.upsert, hm2]
  simp only [parseLoop, if_pos hlt, if_neg hnw, if_neg hnc, if_neg hncl, Doc.get_type,
    eq_self_iff_true, ite_true, hscan, if_neg hn2, hkey, hws3, if_neg hn3, if_neg hv1,
    if_pos hv2, hoty, hup, Bool.false_eq_true, if_false, List.append_nil]
/-! ### First and last characters of a rendering -/

/-- Is the tree a container (rendered with brackets and a frame push)? -/
def isCont : PDoc → Bool
  | PDoc.ptup _ => true
  | PDoc.parr _ => true
  | PDoc.pdict _ => true
  | _ => false

theorem renderL_head (t : PDoc) (hg : GoodP t = true) :
    ∃ c rest, renderL t = c :: rest ∧
      ¬(c = ' ' ∨ c = Char.ofNat 10 ∨ c = Char.ofNat 9 ∨ c = Char.ofNat 13) ∧
      c ≠ ',' ∧ c ≠ '\x7d' ∧ c ≠ ']' ∧ isTrimChar c = false ∧
      (isCont t = false → c ≠ '\x7b' ∧ c ≠ '[') := by
  cases t with
  | pchar c => simp [GoodP] at hg
  | pllong i => simp [GoodP] at hg
  | pfloat q => simp [GoodP] at hg
  | pdouble q => simp [GoodP] at hg
  | pldouble q => simp [GoodP] at hg
  | ptup l => simp [GoodP] at hg
  | pint i =>
    rcases Int.lt_or_le i 0 with hneg | hpos
    · refine ⟨'-', natDigitsGo (i.natAbs + 1) i.natAbs, ?_, by decide, by decide, by decide,
        by decide, by decide, fun _ => ⟨by decide, by decide⟩⟩
      simp only [renderL]
      exact intToString_toList_neg hneg
    · obtain ⟨d0, ds2, hds0⟩ : ∃ d0 ds2,
          natDigitsGo (i.natAbs + 1) i.natAbs = d0 :: ds2 := by
        cases hne : natDigitsGo (i.natAbs + 1) i.natAbs with
        | nil => exact absurd hne (natDigitsGo_ne_nil _ _ (by omega))
        | cons d0 ds2 => exact ⟨d0, ds2, rfl⟩
      obtain ⟨k0, hk0, hd0⟩ := natDigitsGo_shape (i.natAbs + 1) i.natAbs (by omega) d0
        (by rw [hds0]; simp)
      obtain ⟨hf_dig, hf_toNat, hf_dot, hf_quote, hf_t, hf_f, hf_n, hf_dash, hf_plus, hf_e,
        hf_E, hf_sp, hf_nl, hf_tab, hf_cr, hf_comma, hf_lb, hf_lbk, hf_rb, hf_rbk, hf_colon,
        hf_nul, hf_trim⟩ := digit_char_facts k0 hk0
      refine ⟨Char.ofNat (48 + k0), ds2, ?_, ?_, hf_comma, hf_rb, hf_rbk, hf_trim,
        fun _ => ⟨hf_lb, hf_lbk⟩⟩
      · simp only [renderL]
        rw [intToString_toList_nonneg hpos, hds0, hd0]
      · push_neg
        exact ⟨hf_sp, hf_nl, hf_tab, hf_cr⟩
  | pbool b =>
    cases b with
    | true =>
      exact ⟨'t', ['r', 'u', 'e'], by simp [renderL], by decide, by decide, by decide,
        by decide, by decide, fun _ => ⟨by decide, by decide⟩⟩
    | false =>
      exact ⟨'f', ['a', 'l', 's', 'e'], by simp [renderL], by decide, by decide, by decide,
        by decide, by decide, fun _ => ⟨by decide, by decide⟩⟩
  | pnull =>
    exact ⟨'n', ['u', 'l', 'l'], by simp [renderL], by decide, by decide, by decide,
      by decide, by decide, fun _ => ⟨by decide, by decide⟩⟩
  | pstr s =>
    exact ⟨'"', strQuote s ++ ['"'], by simp [renderL], by decide, by decide, by decide,
      by decide, by decide, fun _ => ⟨by decide, by decide⟩⟩
  | parr l =>
    refine ⟨'[', renderArr l ++ [']'], renderL_parr l, by decide, by decide, by decide,
      by decide, by decide, fun hcf => ?_⟩
    simp [isCont] at hcf
  | pdict m =>
    refine ⟨'\x7b', bodyD m, renderL_pdict m, by decide, by decide, by decide,
      by decide, by decide, fun hcf => ?_⟩
    simp [isCont] at hcf
theorem renderL_last (t : PDoc) (hg : GoodP t = true) :
    ∃ c pre, renderL t = pre ++ [c] ∧ isTrimChar c = false ∧
      (isCont t = false → c ≠ '\x7d' ∧ c ≠ ']') := by
  cases t with
  | pchar c => simp [GoodP] at hg
  | pllong i => simp [GoodP] at hg
  | pfloat q => simp [GoodP] at hg
  | pdouble q => simp [GoodP] at hg
  | pldouble q => simp [GoodP] at hg
  | ptup l => simp [GoodP] at hg
  | pint i =>
    have hne := natDigitsGo_ne_nil (i.natAbs + 1) i.natAbs (by omega)
    rcases List.eq_nil_or_concat (natDigitsGo (i.natAbs + 1) i.natAbs) with hnil | hcc
    · exact absurd hnil hne
    obtain ⟨ds2, dl, hds⟩ := hcc
    obtain ⟨k0, hk0, hd0⟩ := natDigitsGo_shape (i.natAbs + 1) i.natAbs (by omega) dl
      (by rw [hds]; simp)
    obtain ⟨hf_dig, hf_toNat, hf_dot, hf_quote, hf_t, hf_f, hf_n, hf_dash, hf_plus, hf_e,
      hf_E, hf_sp, hf_nl, hf_tab, hf_cr, hf_comma, hf_lb, hf_lbk, hf_rb, hf_rbk, hf_colon,
      hf_nul, hf_trim⟩ := digit_char_facts k0 hk0
    rcases Int.lt_or_le i 0 with hneg | hpos
    · refine ⟨Char.ofNat (48 + k0), '-' :: ds2, ?_, hf_trim, fun _ => ⟨hf_rb, hf_rbk⟩⟩
      simp only [renderL]
      rw [intToString_toList_neg hneg, hds, hd0]
      simp
    · refine ⟨Char.ofNat (48 + k0), ds2, ?_, hf_trim, fun _ => ⟨hf_rb, hf_rbk⟩⟩
      simp only [renderL]
      rw [intToString_toList_nonneg hpos, hds, hd0]
      simp
  | pbool b =>
    cases b with
    | true =>
      exact ⟨'e', ['t', 'r', 'u'], by simp [renderL], by decide,
        fun _ => ⟨by decide, by decide⟩⟩
    | false =>
      exact ⟨'e', ['f', 'a', 'l', 's'], by simp [renderL], by decide,
        fun _ => ⟨by decide, by decide⟩⟩
  | pnull =>
    exact ⟨'l', ['n', 'u', 'l'], by simp [renderL], by decide,
      fun _ => ⟨by decide, by decide⟩⟩
  | pstr s =>
    exact ⟨'"', '"' :: strQuote s, by simp [renderL], by decide,
      fun _ => ⟨by decide, by decide⟩⟩
  | parr l =>
    refine ⟨']', '[' :: renderArr l, ?_, by decide, fun hcf => ?_⟩
    · rw [renderL_parr l]
      simp
    · simp [isCont] at hcf
  | pdict m =>
    cases m with
    | nil =>
      exact ⟨'\x7d', ['\x7b'], by simp [renderL], by decide,
        fun hcf => by simp [isCont] at hcf⟩
    | cons e es =>
      refine ⟨'\x7d', '\x7b' :: Char.ofNat 10 :: renderEntsRev (e :: es) ++ [Char.ofNat 10],
        ?_, by decide, fun hcf => by simp [isCont] at hcf⟩
      rw [renderL_pdict, bodyD]
      simp

theorem cAt_append_nul (input : List Char) (j : Nat) :
    cAt (input ++ [Char.ofNat 0]) j = cAt input j := by
  unfold cAt
  rw [List.getD_eq_getElem?_getD, List.getD_eq_getElem?_getD]
  rcases Nat.lt_trichotomy j input.length with hlt | heq | hgt
  · rw [List.getElem?_append, if_pos hlt]
  · subst heq
    rw [List.getElem?_eq_none (le_refl _), List.getElem?_append_right (le_refl _)]
    simp
  · rw [List.getElem?_eq_none (by omega : input.length ≤ j),
      List.getElem?_eq_none (by simp; omega : (input ++ [Char.ofNat 0]).length ≤ j)]

theorem numLoop_append_nul (input : List Char) :
    ∀ (fuel : Nat) (st : NumSt),
      numLoop (input ++ [Char.ofNat 0]) fuel st = numLoop input fuel st
  | 0, _ => rfl
  | fuel + 1, st => by
    simp only [numLoop, cAt_append_nul, numLoop_append_nul input fuel]

theorem prim_scan_int_end {iv : Int} {input : List Char} {pos : Nat} {h : Heap} {fin : Char}
    (hgood : -1000000000 < iv ∧ iv < 1000000000)
    (hd : input.drop pos = (intToString iv).toList) :
    string_to_prim_doc input pos fin h
      = some (h, ⟨Ty.Int, Val.vint iv⟩, pos + (intToString iv).toList.length) := by
  have hnenil : (intToString iv).toList ≠ [] := by
    rcases Int.lt_or_le iv 0 with hneg | hpos
    · rw [intToString_toList_neg hneg]
      simp
    · rw [intToString_toList_nonneg hpos]
      exact natDigitsGo_ne_nil _ _ (by omega)
  have hposle : pos ≤ input.length := by
    by_contra hcon
    rw [List.drop_eq_nil_of_le (by omega)] at hd
    exact hnenil hd.symm
  have hd2 : (input ++ [Char.ofNat 0]).drop pos = (intToString iv).toList ++
      Char.ofNat 0 :: [] := by
    rw [List.drop_append_of_le_length hposle, hd]
  have hlenend : pos + (intToString iv).toList.length = input.length := by
    have hl := congrArg List.length hd
    rw [List.length_drop] at hl
    omega
  have hca : ∀ j, cAt input j = cAt (input ++ [Char.ofNat 0]) j :=
    fun j => (cAt_append_nul input j).symm
  have habs9 : iv.natAbs < 10 ^ 9 := by
    have h9 : (10 : Nat) ^ 9 = 1000000000 := by norm_num
    omega
  have hshape := natDigitsGo_shape (iv.natAbs + 1) iv.natAbs (by omega)
  have hlen9 := natDigitsGo_len_le (iv.natAbs + 1) iv.natAbs 9 (by omega) (by omega) habs9
  have hfold := natDigitsGo_foldl (iv.natAbs + 1) iv.natAbs (by omega) 0
  obtain ⟨d0, ds2, hds0⟩ : ∃ d0 ds2,
      natDigitsGo (iv.natAbs + 1) iv.natAbs = d0 :: ds2 := by
    cases hne : natDigitsGo (iv.natAbs + 1) iv.natAbs with
    | nil => exact absurd hne (natDigitsGo_ne_nil _ _ (by omega))
    | cons d0 ds2 => exact ⟨d0, ds2, rfl⟩
  obtain ⟨k0, hk0, hd0⟩ := hshape d0 (by rw [hds0]; simp)
  obtain ⟨hf_dig, hf_toNat, hf_dot, hf_quote, hf_t, hf_f, hf_n, hf_dash, hf_plus, hf_e,
    hf_E, hf_sp, hf_nl, hf_tab, hf_cr, hf_comma, hf_lb, hf_lbk, hf_rb, hf_rbk, hf_colon,
    hf_nul, hf_trim⟩ := digit_char_facts k0 hk0
  have hcnum : (isDigitC (Char.ofNat 0) || decide ((Char.ofNat 0) = '.')) = false := by
    decide
  have hterm0 : ∀ j, input.length ≤ j → cAt input j = Char.ofNat 0 :=
    fun j hj => cAt_nul_of_len_le input j hj
  rcases Int.lt_or_le iv 0 with hneg | hpos
  · rw [intToString_toList_neg hneg] at hd hd2 hlenend ⊢
    have hcm : cAt input pos = '-' :=
      cAt_head (r := natDigitsGo (iv.natAbs + 1) iv.natAbs) (by simpa using hd)
    have hd1 : (input ++ [Char.ofNat 0]).drop (pos + 1)
        = natDigitsGo (iv.natAbs + 1) iv.natAbs ++ Char.ofNat 0 :: [] :=
      drop_succ_of_drop (r := natDigitsGo (iv.natAbs + 1) iv.natAbs ++ [Char.ofNat 0])
        (by simpa using hd2)
    have hc0 : cAt input (pos + 1) = Char.ofNat (48 + k0) := by
      have hdi : input.drop (pos + 1) = natDigitsGo (iv.natAbs + 1) iv.natAbs :=
        drop_succ_of_drop (r := natDigitsGo (iv.natAbs + 1) iv.natAbs) (by simpa using hd)
      rw [hds0] at hdi
      rw [cAt_head hdi, hd0]
    have hcterm : cAt input (pos + 1 + (natDigitsGo (iv.natAbs + 1) iv.natAbs).length)
        = Char.ofNat 0 := by
      apply hterm0
      simp at hlenend ⊢
      omega
    have hfuel : (natDigitsGo (iv.natAbs + 1) iv.natAbs).length < input.length + 2 := by
      have hll := congrArg List.length hd1
      rw [List.length_drop, List.length_append] at hll
      simp at hll
      omega
    have hnt : cAt input pos ≠ 't' := by rw [hcm]; decide
    have hnf : cAt input pos ≠ 'f' := by rw [hcm]; decide
    have hnn : cAt input pos ≠ 'n' := by rw [hcm]; decide
    unfold string_to_prim_doc
    rw [strncmpEq_ne_head hnt, strncmpEq_ne_head hnf, strncmpEq_ne_head hnn]
    rw [hcm]
    rw [if_neg (by decide)]
    rw [if_pos (Or.inr (Or.inl rfl))]
    simp [hc0, hf_dot]
    rw [show numLoop input (input.length + 2)
          ⟨Ty.Int, 0, 0, 0, 0, Dec.fromInt 0, false, pos + 1⟩
        = numLoop (input ++ [Char.ofNat 0]) (input.length + 2)
          ⟨Ty.Int, 0, 0, 0, 0, Dec.fromInt 0, false, pos + 1⟩ from
      (numLoop_append_nul input _ _).symm]
    rw [numLoop_digits (natDigitsGo (iv.natAbs + 1) iv.natAbs) (v := 0) (L := 0) hd1 hshape
      hcnum (by omega) hfuel]
    rw [hfold]
    have hne_e : (Char.ofNat 0) ≠ 'e' := by decide
    have hne_E : (Char.ofNat 0) ≠ 'E' := by decide
    have htermc : isTermChar (Char.ofNat 0) fin = true := by simp [isTermChar]
    simp [hcterm, hne_e, hne_E, htermc]
    refine ⟨?_, by omega⟩
    rw [abs_of_nonpos (by omega : iv ≤ 0)]
    ring
  · rw [intToString_toList_nonneg hpos] at hd hd2 hlenend ⊢
    have hc0 : cAt input pos = Char.ofNat (48 + k0) := by
      rw [hds0] at hd
      rw [cAt_head (r := ds2) (by simpa using hd), hd0]
    have hcterm : cAt input (pos + (natDigitsGo (iv.natAbs + 1) iv.natAbs).length)
        = Char.ofNat 0 := by
      apply hterm0
      omega
    have hfuel : (natDigitsGo (iv.natAbs + 1) iv.natAbs).length < input.length + 2 := by
      omega
    have hnt : cAt input pos ≠ 't' := by rw [hc0]; exact hf_t
    have hnf : cAt input pos ≠ 'f' := by rw [hc0]; exact hf_f
    have hnn : cAt input pos ≠ 'n' := by rw [hc0]; exact hf_n
    unfold string_to_prim_doc
    rw [strncmpEq_ne_head hnt, strncmpEq_ne_head hnf, strncmpEq_ne_head hnn]
    rw [hc0]
    rw [if_neg hf_quote]
    rw [if_pos (Or.inr (Or.inr (Or.inr hf_dig)))]
    simp [hc0, hf_dash, hf_plus, hf_dot]
    rw [show numLoop input (input.length + 2)
          ⟨Ty.Int, 0, 0, 0, 0, Dec.fromInt 0, false, pos⟩
        = numLoop (input ++ [Char.ofNat 0]) (input.length + 2)
          ⟨Ty.Int, 0, 0, 0, 0, Dec.fromInt 0, false, pos⟩ from
      (numLoop_append_nul input _ _).symm]
    rw [numLoop_digits (natDigitsGo (iv.natAbs + 1) iv.natAbs) (v := 0) (L := 0) hd2 hshape
      hcnum (by omega) hfuel]
    rw [hfold]
    have hne_e : (Char.ofNat 0) ≠ 'e' := by decide
    have hne_E : (Char.ofNat 0) ≠ 'E' := by decide
    have htermc : isTermChar (Char.ofNat 0) fin = true := by simp [isTermChar]
    simp [hcterm, hne_e, hne_E, htermc, hf_dash]
    all_goals first | omega | exact hfold
/-- One good primitive value, scanned inside a container: the scanner
consumes exactly the rendering, touches at most the string store above
the old frontier, and the produced document observes back to the tree
(in any heap that preserves the new region). -/
theorem prim_scan_good {t1 : PDoc} {input r : List Char} {i : Nat} {h : Heap} {c : Char}
    {fin : Char}
    (hg : GoodP t1 = true) (hnc : isCont t1 = false)
    (hd : input.drop i = renderL t1 ++ c :: r)
    (hterm : c = ',' ∨ c = Char.ofNat 10 ∨ c = fin)
    (hfin : fin = ']' ∨ fin = '\x7d' ∨ fin = ' ') :
    ∃ h2 nd, string_to_prim_doc input i fin h = some (h2, nd, i + (renderL t1).length) ∧
      h2.arrs = h.arrs ∧ h2.dicts = h.dicts ∧ h2.tups = h.tups ∧
      h.nextId ≤ h2.nextId ∧ AgreeOn h h2 0 h.nextId none ∧
      ∀ h3 g, 1 ≤ g → AgreeOn h2 h3 h.nextId h2.nextId none →
        obsDoc h3 g nd = some (revDict t1) := by
  cases t1 with
  | pchar c2 => simp [GoodP] at hg
  | pllong i2 => simp [GoodP] at hg
  | pfloat q => simp [GoodP] at hg
  | pdouble q => simp [GoodP] at hg
  | pldouble q => simp [GoodP] at hg
  | ptup l => simp [GoodP] at hg
  | parr l => simp [isCont] at hnc
  | pdict m => simp [isCont] at hnc
  | pint iv =>
    simp only [GoodP, Bool.and_eq_true, decide_eq_true_eq] at hg
    refine ⟨h, ⟨Ty.Int, Val.vint iv⟩, ?_, rfl, rfl, rfl, le_refl _, AgreeOn_refl h _ _ _,
      ?_⟩
    · have hd2 : input.drop i = (intToString iv).toList ++ c :: r := hd
      rw [prim_scan_int hg hd2 (by tauto) hfin]
      rfl
    · intro h3 g hg1 _
      obtain ⟨g2, rfl⟩ : ∃ g2, g = g2 + 1 := ⟨g - 1, by omega⟩
      rfl
  | pbool b =>
    cases b with
    | true =>
      refine ⟨h, ⟨Ty.Bool, Val.vbool true⟩, ?_, rfl, rfl, rfl, le_refl _,
        AgreeOn_refl h _ _ _, ?_⟩
      · rw [prim_scan_true (r := c :: r) (by simpa [renderL] using hd)]
        rfl
      · intro h3 g hg1 _
        obtain ⟨g2, rfl⟩ : ∃ g2, g = g2 + 1 := ⟨g - 1, by omega⟩
        rfl
    | false =>
      refine ⟨h, ⟨Ty.Bool, Val.vbool false⟩, ?_, rfl, rfl, rfl, le_refl _,
        AgreeOn_refl h _ _ _, ?_⟩
      · rw [prim_scan_false (r := c :: r) (by simpa [renderL] using hd)]
        rfl
      · intro h3 g hg1 _
        obtain ⟨g2, rfl⟩ : ∃ g2, g = g2 + 1 := ⟨g - 1, by omega⟩
        rfl
  | pnull =>
    refine ⟨h, nullDoc, ?_, rfl, rfl, rfl, le_refl _, AgreeOn_refl h _ _ _, ?_⟩
    · rw [prim_scan_null (r := c :: r) hd]
      rfl
    · intro h3 g hg1 _
      obtain ⟨g2, rfl⟩ : ∃ g2, g = g2 + 1 := ⟨g - 1, by omega⟩
      rfl
  | pstr s =>
    have hgs : goodStr s = true := by simpa [GoodP] using hg
    refine ⟨(h.allocStr s).1, ⟨Ty.Str, Val.vstr h.nextId⟩, ?_, rfl, rfl, rfl,
      by simp [Heap.allocStr], agree_allocStr h s, ?_⟩
    · exact prim_scan_str hgs hd
    · intro h3 g hg1 hag
      obtain ⟨g2, rfl⟩ : ∃ g2, g = g2 + 1 := ⟨g - 1, by omega⟩
      have hsa : (h.allocStr s).1.strs h.nextId = some s := by
        simp [Heap.allocStr, Heap.setStr]
      have hs3 : h3.strs h.nextId = some s := by
        rw [strs_on hag (le_refl _) (by simp [Heap.allocStr]) (by simp)]
        exact hsa
      rw [show obsDoc h3 (g2 + 1) ⟨Ty.Str, Val.vstr h.nextId⟩
          = (h3.strs h.nextId).map PDoc.pstr from rfl, hs3]
      rfl

/-- The same scan when the rendering runs to the end of the input: the
bare-primitive branch of `string_to_doc`. -/
theorem prim_scan_good_end {t1 : PDoc} {input : List Char} {i : Nat} {h : Heap} {fin : Char}
    (hg : GoodP t1 = true) (hnc : isCont t1 = false)
    (hd : input.drop i = renderL t1) :
    ∃ h2 nd, string_to_prim_doc input i fin h = some (h2, nd, i + (renderL t1).length) ∧
      h.nextId ≤ h2.nextId ∧
      ∀ g, 1 ≤ g → obsDoc h2 g nd = some (revDict t1) := by
  cases t1 with
  | pchar c2 => simp [GoodP] at hg
  | pllong i2 => simp [GoodP] at hg
  | pfloat q => simp [GoodP] at hg
  | pdouble q => simp [GoodP] at hg
  | pldouble q => simp [GoodP] at hg
  | ptup l => simp [GoodP] at hg
  | parr l => simp [isCont] at hnc
  | pdict m => simp [isCont] at hnc
  | pint iv =>
    simp only [GoodP, Bool.and_eq_true, decide_eq_true_eq] at hg
    refine ⟨h, ⟨Ty.Int, Val.vint iv⟩, ?_, le_refl _, ?_⟩
    · rw [prim_scan_int_end hg hd]
      rfl
    · intro g hg1
      obtain ⟨g2, rfl⟩ : ∃ g2, g = g2 + 1 := ⟨g - 1, by omega⟩
      rfl
  | pbool b =>
    cases b with
    | true =>
      refine ⟨h, ⟨Ty.Bool, Val.vbool true⟩, ?_, le_refl _, ?_⟩
      · rw [prim_scan_true (r := []) (by simpa [renderL] using hd)]
        rfl
      · intro g hg1
        obtain ⟨g2, rfl⟩ : ∃ g2, g = g2 + 1 := ⟨g - 1, by omega⟩
        rfl
    | false =>
      refine ⟨h, ⟨Ty.Bool, Val.vbool false⟩, ?_, le_refl _, ?_⟩
      · rw [prim_scan_false (r := []) (by simpa [renderL] using hd)]
        rfl
      · intro g hg1
        obtain ⟨g2, rfl⟩ : ∃ g2, g = g2 + 1 := ⟨g - 1, by omega⟩
        rfl
  | pnull =>
    refine ⟨h, nullDoc, ?_, le_refl _, ?_⟩
    · rw [prim_scan_null (r := []) (by simpa using hd)]
      rfl
    · intro g hg1
      obtain ⟨g2, rfl⟩ : ∃ g2, g = g2 + 1 := ⟨g - 1, by omega⟩
      rfl
  | pstr s =>
    have hgs : goodStr s = true := by simpa [GoodP] using hg
    refine ⟨(h.allocStr s).1, ⟨Ty.Str, Val.vstr h.nextId⟩, ?_, by simp [Heap.allocStr], ?_⟩
    · exact prim_scan_str hgs (r := []) (by simpa using hd)
    · intro g hg1
      obtain ⟨g2, rfl⟩ : ∃ g2, g = g2 + 1 := ⟨g - 1, by omega⟩
      have hsa : (h.allocStr s).1.strs h.nextId = some s := by
        simp [Heap.allocStr, Heap.setStr]
      rw [show obsDoc (h.allocStr s).1 (g2 + 1) ⟨Ty.Str, Val.vstr h.nextId⟩
          = ((h.allocStr s).1.strs h.nextId).map PDoc.pstr from rfl, hsa]
      rfl

/-- The key-scanning phase of one dictionary entry, on rendered text:
the colon scan lands on the key's colon, the key extraction recovers the
key text, and the whitespace skip lands on the value's first character. -/
theorem dict_key_scan {input r : List Char} {i : Nat} {k : String} {c1 : Char}
    (hgk : goodKey k = true)
    (hd : input.drop i = '"' :: k.toList ++ '"' :: ':' :: ' ' :: c1 :: r)
    (hc1 : ¬(c1 = ' ' ∨ c1 = Char.ofNat 10 ∨ c1 = Char.ofNat 9 ∨ c1 = Char.ofNat 13)) :
    cAt input i = '"' ∧ i < input.length ∧
    scanColon input input.length input.length (i + 1) = i + k.length + 2 ∧
    ¬(i + k.length + 2 = input.length) ∧
    extractKey input i (i + k.length + 2) = k ∧
    skipWsVal input input.length input.length (i + k.length + 3) = i + k.length + 4 ∧
    ¬(i + k.length + 4 = input.length) ∧
    input.drop (i + k.length + 4) = c1 :: r := by
  have hkl : k.toList.length = k.length := rfl
  have hck : cAt input i = '"' := cAt_head hd
  have hlen := congrArg List.length hd
  rw [List.length_drop] at hlen
  simp at hlen
  have hlt : i < input.length := by omega
  have hd1 : input.drop (i + 1) = k.toList ++ '"' :: ':' :: ' ' :: c1 :: r :=
    drop_succ_of_drop hd
  have hdrun : input.drop (i + 1) = (k.toList ++ ['"']) ++ ':' :: (' ' :: c1 :: r) := by
    rw [hd1]
    simp
  have hno : ∀ c ∈ k.toList ++ ['"'], c ≠ ':' := by
    intro c hc
    rcases List.mem_append.mp hc with hc | hc
    · unfold goodKey at hgk
      rw [List.all_eq_true] at hgk
      have hcc := hgk c hc
      simp at hcc
      exact hcc.1.1
    · simp at hc
      subst hc
      decide
  have hfuel : (k.toList ++ ['"']).length < input.length := by
    simp
    omega
  have hscan0 : scanColon input input.length input.length (i + 1)
      = (i + 1) + (k.toList ++ ['"']).length :=
    scanColon_run (k.toList ++ ['"']) hdrun hno rfl hfuel
  have hscan2 : scanColon input input.length input.length (i + 1) = i + k.length + 2 := by
    rw [hscan0]
    simp
    omega
  have hcq : cAt input (i + k.length + 1) = '"' := by
    have hpre := @cAt_after_pre input k.toList (':' :: ' ' :: c1 :: r) (i + 1) '"' hd1
    rw [show i + 1 + k.toList.length = i + k.length + 1 by rw [hkl]; omega] at hpre
    exact hpre
  have hkey : extractKey input i (i + k.length + 2) = k := by
    simp only [extractKey, hck, eq_self_iff_true, ite_true]
    have htr : keyTrimRight input (i + 1) (i + k.length + 2 + 1) (i + k.length + 2 - 1)
        = i + k.length + 1 := by
      rw [show i + k.length + 2 - 1 = i + k.length + 1 by omega]
      refine keyTrimRight_stop ?_ (by omega)
      rintro ⟨hlr, hws2⟩
      rw [hcq] at hws2
      rcases hws2 with hx | hx | hx | hx <;> exact absurd hx (by decide)
    rw [htr, hcq]
    simp only [ne_eq, not_true_eq_false, if_false, ite_false]
    rw [hd1]
    rw [show i + k.length + 1 - (i + 1) = k.toList.length by rw [hkl]; omega]
    rw [List.take_left]
    rfl
  have hdws : input.drop (i + k.length + 3) = ' ' :: c1 :: r := by
    have hdd := @drop_add_of_drop input ('"' :: k.toList ++ ['"', ':'])
      (' ' :: c1 :: r) i (by rw [hd]; simp)
    rw [show i + ('"' :: k.toList ++ ['"', ':']).length = i + k.length + 3 by
      simp; omega] at hdd
    exact hdd
  have hws : skipWsVal input input.length input.length (i + k.length + 3)
      = i + k.length + 3 + 1 := skipWsVal_one hdws hc1 rfl (by omega)
  refine ⟨hck, hlt, hscan2, by omega, hkey, by rw [hws], by omega, ?_⟩
  have hdd := @drop_add_of_drop input ('"' :: k.toList ++ ['"', ':', ' '])
    (c1 :: r) i (by rw [hd]; simp)
  rw [show i + ('"' :: k.toList ++ ['"', ':', ' ']).length = i + k.length + 4 by
    simp; omega] at hdd
  exact hdd
/-! ### Heap shapes after the container-opening steps -/

theorem Heap.setDict_dicts_self (h : Heap) (p : Nat) (m : DictObjM) :
    (h.setDict p m).dicts p = some m := by
  simp [Heap.setDict]

theorem agree_alloc_set_arr {h : Heap} (p : Nat) (X : ArrObj) (d : ArrObj) :
    AgreeOn h ((h.allocArr d).1.setArr p X) 0 h.nextId (some p) :=
  AgreeOn_trans_ex (AgreeOn_drop_ex (agree_allocArr h d))
    (AgreeOn_shrink (agree_setArr (h.allocArr d).1 p X) (le_refl 0)
      (by simp [Heap.allocArr]))

theorem agree_allocdict_set_arr {h : Heap} (p : Nat) (X : ArrObj) (m : DictObjM) :
    AgreeOn h ((h.allocDict m).1.setArr p X) 0 h.nextId (some p) :=
  AgreeOn_trans_ex (AgreeOn_drop_ex (agree_allocDict h m))
    (AgreeOn_shrink (agree_setArr (h.allocDict m).1 p X) (le_refl 0)
      (by simp [Heap.allocDict]))

theorem arr_open_heap_a {h : Heap} {p : Nat} (A : ArrObj) :
    p < h.nextId →
    ((h.allocArr ArrObj.default8).1.setArr p
        (A.emplace_back ⟨Ty.Array, Val.varr h.nextId⟩)).nextId = h.nextId + 1 ∧
    ((h.allocArr ArrObj.default8).1.setArr p
        (A.emplace_back ⟨Ty.Array, Val.varr h.nextId⟩)).arrs h.nextId
      = some ArrObj.default8 ∧
    ((h.allocArr ArrObj.default8).1.setArr p
        (A.emplace_back ⟨Ty.Array, Val.varr h.nextId⟩)).arrs p
      = some (A.emplace_back ⟨Ty.Array, Val.varr h.nextId⟩) ∧
    AgreeOn h ((h.allocArr ArrObj.default8).1.setArr p
        (A.emplace_back ⟨Ty.Array, Val.varr h.nextId⟩)) 0 h.nextId (some p) := by
  intro hp
  refine ⟨by simp [Heap.allocArr, Heap.setArr], ?_, ?_, agree_alloc_set_arr p _ _⟩
  · simp only [Heap.allocArr, Heap.setArr]
    rw [if_neg (by omega)]
    simp
  · simp [Heap.setArr]

theorem arr_open_heap_d {h : Heap} {p : Nat} (A : ArrObj) :
    p < h.nextId →
    ((h.allocDict []).1.setArr p
        (A.emplace_back ⟨Ty.Dict, Val.vdict h.nextId⟩)).nextId = h.nextId + 1 ∧
    ((h.allocDict []).1.setArr p
        (A.emplace_back ⟨Ty.Dict, Val.vdict h.nextId⟩)).dicts h.nextId = some [] ∧
    ((h.allocDict []).1.setArr p
        (A.emplace_back ⟨Ty.Dict, Val.vdict h.nextId⟩)).arrs p
      = some (A.emplace_back ⟨Ty.Dict, Val.vdict h.nextId⟩) ∧
    AgreeOn h ((h.allocDict []).1.setArr p
        (A.emplace_back ⟨Ty.Dict, Val.vdict h.nextId⟩)) 0 h.nextId (some p) := by
  intro hp
  refine ⟨by simp [Heap.allocDict, Heap.setDict, Heap.setArr], ?_, ?_,
    agree_allocdict_set_arr p _ _⟩
  · simp [Heap.allocDict, Heap.setArr, Heap.setDict]
  · simp [Heap.setArr]

theorem dict_open_heap {h : Heap} {p : Nat} {m : DictObjM} {k : String} (cd : Doc)
    (hkb : ∀ kd ∈ m, kd.1 < h.nextId) :
    ∀ hB : Heap, hB.nextId = h.nextId + 2 → hB.strs h.nextId = some k →
    (hB.setDict p (mapUpsert m h.nextId cd)).nextId = h.nextId + 2 ∧
    (hB.setDict p (mapUpsert m h.nextId cd)).dicts p = some (m ++ [(h.nextId, cd)]) ∧
    (hB.setDict p (mapUpsert m h.nextId cd)).strs h.nextId = some k := by
  intro hB hni hs
  have hfresh : mapUpsert m h.nextId cd = m ++ [(h.nextId, cd)] :=
    mapUpsert_append (fun kd hkd => by have := hkb kd hkd; omega)
  refine ⟨by simp [Heap.setDict, hni], ?_, by simp [Heap.setDict, hs]⟩
  rw [Heap.setDict_dicts_self, hfresh]

/-! ### One array element, primitive case -/

theorem arrElemPrim {t1 : PDoc} {input r : List Char} {c : Char} {h : Heap} {p : Nat}
    {A : ArrObj} (rest0 : List Doc) (i : Nat) (log : List OutEvent)
    (hg : GoodP t1 = true) (hcont : isCont t1 = false)
    (harr : h.arrs p = some A) (hwf1 : A.arr.length = A.cap) (hwf2 : A.s ≤ A.cap)
    (hwf3 : 1 ≤ A.cap) (hp : p < h.nextId)
    (hd : input.drop i = renderL t1 ++ c :: r)
    (hterm : c = ',' ∨ c = Char.ofNat 10 ∨ c = ']') :
    ∃ q h1 A1 nd,
      (∀ fuel, parseLoop input input.length false (q + fuel) h
          (⟨Ty.Array, Val.varr p⟩ :: rest0) i log
        = parseLoop input input.length false fuel h1
          (⟨Ty.Array, Val.varr p⟩ :: rest0) (i + (renderL t1).length) log) ∧
      h.nextId ≤ h1.nextId ∧ AgreeOn h h1 0 h.nextId (some p) ∧
      h1.arrs p = some A1 ∧ A1.arr.length = A1.cap ∧ A1.s ≤ A1.cap ∧ 1 ≤ A1.cap ∧
      A1.arr.take A1.s = A.arr.take A.s ++ [nd] ∧
      (∀ h2 g, nodes t1 ≤ g → AgreeOn h1 h2 h.nextId h1.nextId none →
        obsDoc h2 g nd = some (revDict t1)) := by
  obtain ⟨c0, rest1, heq, hnwH, hncH, hnrbH, hnrkH, htrimH, hbrH⟩ := renderL_head t1 hg
  obtain ⟨hnlbH, hnlkH⟩ := hbrH hcont
  obtain ⟨h2, nd, hscan, harrs2, hdicts2, htups2, hni2, hag2, hobs2⟩ :=
    prim_scan_good hg hcont hd hterm (Or.inl rfl)
  have hdc : input.drop i = c0 :: (rest1 ++ c :: r) := by
    rw [hd, heq]
    simp
  have hc0 : cAt input i = c0 := cAt_head hdc
  have hlt : i < input.length := lt_length_of_drop hdc (j := 0) (by simp)
  have harr2 : h2.arrs p = some A := by rw [harrs2]; exact harr
  obtain ⟨hef1, hef2, hef3, hef4, hef5⟩ := emplace_back_facts (a := A) nd hwf1 hwf2 hwf3
  refine ⟨1, h2.setArr p (A.emplace_back nd), A.emplace_back nd, nd, ?_, ?_, ?_,
    Heap.setArr_arrs_self h2 p _, hef2, hef4, hef5, hef1, ?_⟩
  · intro fuel
    rw [show 1 + fuel = fuel + 1 by omega]
    rw [pl_step_arr_prim hc0 hnwH hncH hnrbH hnrkH hnlbH hnlkH hlt hscan harr2]
  · show h.nextId ≤ (h2.setArr p (A.emplace_back nd)).nextId
    simp only [Heap.setArr]
    exact hni2
  · exact AgreeOn_trans_ex (AgreeOn_drop_ex hag2)
      (AgreeOn_shrink (agree_setArr h2 p _) (le_refl 0) hni2)
  · intro h2x g hgn hagf
    have hag21 : AgreeOn h2 (h2.setArr p (A.emplace_back nd)) h.nextId h2.nextId none :=
      AgreeOn_ex_below (AgreeOn_shrink (agree_setArr h2 p _) (Nat.zero_le _)
        (le_refl _)) hp
    have hagc : AgreeOn h2 h2x h.nextId h2.nextId none :=
      AgreeOn_trans_none2 hag21 (by
        have hx : (h2.setArr p (A.emplace_back nd)).nextId = h2.nextId := rfl
        rw [← hx]
        exact hagf)
    exact hobs2 h2x g (le_trans (nodes_pos t1) hgn) hagc

/-! ### One dictionary entry, primitive-valued case -/

theorem dictEntryPrim {k : String} {v : PDoc} {input r : List Char} {c : Char} {h : Heap}
    {p : Nat} {m : DictObjM} (rest0 : List Doc) (i : Nat) (log : List OutEvent)
    (hgk : goodKey k = true) (hg : GoodP v = true) (hcont : isCont v = false)
    (hdm : h.dicts p = some m) (hkb : ∀ kd ∈ m, kd.1 < h.nextId) (hp : p < h.nextId)
    (hd : input.drop i = '"' :: k.toList ++ '"' :: ':' :: ' ' :: (renderL v ++ c :: r))
    (hterm : c = ',' ∨ c = Char.ofNat 10) :
    ∃ q h1 nd,
      (∀ fuel, parseLoop input input.length false (q + fuel) h
          (⟨Ty.Dict, Val.vdict p⟩ :: rest0) i log
        = parseLoop input input.length false fuel h1
          (⟨Ty.Dict, Val.vdict p⟩ :: rest0) (i + (k.length + 4 + (renderL v).length)) log) ∧
      h.nextId < h1.nextId ∧ AgreeOn h h1 0 h.nextId (some p) ∧
      h1.dicts p = some (m ++ [(h.nextId, nd)]) ∧
      (∀ h2 g, nodes v ≤ g → AgreeOn h1 h2 h.nextId h1.nextId none →
        h2.strs h.nextId = some k ∧ obsDoc h2 g nd = some (revDict v)) := by
  obtain ⟨c1, rest1, heq, hnwH, hncH, hnrbH, hnrkH, htrimH, hbrH⟩ := renderL_head v hg
  obtain ⟨hnlbH, hnlkH⟩ := hbrH hcont
  have hdc : input.drop i
      = '"' :: k.toList ++ '"' :: ':' :: ' ' :: c1 :: (rest1 ++ c :: r) := by
    rw [hd, heq]
    simp
  obtain ⟨hck, hlt, hscan, hn2, hkey, hws3, hn3, hdrop3⟩ := dict_key_scan hgk hdc hnwH
  have hdrop3v : input.drop (i + k.length + 4) = renderL v ++ c :: r := by
    rw [hdrop3, heq]
    simp
  obtain ⟨h2, nd, hprim, harrs2, hdicts2, htups2, hni2, hag2, hobs2⟩ :=
    prim_scan_good (h := (h.allocStr k).1) hg hcont hdrop3v
      (by rcases hterm with hx | hx <;> simp [hx]) (Or.inr (Or.inl rfl))
  have hc1at : cAt input (i + k.length + 4) = c1 := cAt_head hdrop3
  have hv3 : ¬(cAt input (i + k.length + 4) = '\x7d' ∨
      cAt input (i + k.length + 4) = ']' ∨ cAt input (i + k.length + 4) = ',') := by
    rw [hc1at]
    push_neg
    exact ⟨hnrbH, hnrkH, hncH⟩
  have hAni : (h.allocStr k).1.nextId = h.nextId + 1 := by simp [Heap.allocStr]
  have hAst : (h.allocStr k).1.strs h.nextId = some k := by
    simp [Heap.allocStr, Heap.setStr]
  have hd2m : h2.dicts p = some m := by rw [hdicts2]; exact hdm
  have hfresh : mapUpsert m h.nextId nd = m ++ [(h.nextId, nd)] :=
    mapUpsert_append (fun kd hkd => by have := hkb kd hkd; omega)
  refine ⟨1, h2.setDict p (mapUpsert m h.nextId nd), nd, ?_, ?_, ?_, ?_, ?_⟩
  · intro fuel
    rw [show 1 + fuel = fuel + 1 by omega]
    rw [pl_step_dict_prim hck hlt hscan hn2 hkey
      (by rw [show i + k.length + 3 = i + k.length + 2 + 1 by omega] at hws3; exact hws3)
      hn3 (by rw [hc1at]; exact hnlbH) (by rw [hc1at]; exact hnlkH) hv3 hprim hd2m]
    have hpos : i + k.length + 4 + (renderL v).length
        = i + (k.length + 4 + (renderL v).length) := by omega
    rw [hpos]
  · show h.nextId < (h2.setDict p (mapUpsert m h.nextId nd)).nextId
    simp only [Heap.setDict]
    omega
  · refine AgreeOn_trans_ex (AgreeOn_drop_ex (agree_allocStr h k)) ?_
    refine AgreeOn_trans_ex (AgreeOn_drop_ex (AgreeOn_shrink hag2 (le_refl 0)
      (by omega))) ?_
    exact AgreeOn_shrink (agree_setDict h2 p _) (le_refl 0) (by omega)
  · rw [Heap.setDict_dicts_self, hfresh]
  · intro h2x g hgn hagf
    have hsni : (h2.setDict p (mapUpsert m h.nextId nd)).nextId = h2.nextId := rfl
    have hag21 : AgreeOn h2 (h2.setDict p (mapUpsert m h.nextId nd))
        h.nextId h2.nextId none :=
      AgreeOn_ex_below (AgreeOn_shrink (agree_setDict h2 p _) (Nat.zero_le _)
        (le_refl _)) hp
    have hagc : AgreeOn h2 h2x h.nextId h2.nextId none :=
      AgreeOn_trans_none2 hag21 (by rw [← hsni]; exact hagf)
    constructor
    · have hs1 : h2x.strs h.nextId = h2.strs h.nextId :=
        strs_on hagc (le_refl _) (by omega) (by simp)
      have hs2 : h2.strs h.nextId = (h.allocStr k).1.strs h.nextId :=
        strs_on hag2 (Nat.zero_le _) (by omega) (by simp)
      rw [hs1, hs2]
      exact hAst
    · refine hobs2 h2x g (le_trans (nodes_pos v) hgn) ?_
      exact AgreeOn_shrink hagc (by omega) (le_refl _)
theorem AgreeOn_ex_ge {h h2 : Heap} {lo hi pp : Nat}
    (ha : AgreeOn h h2 lo hi (some pp)) (hpp : hi ≤ pp) : AgreeOn h h2 lo hi none := by
  intro q h1 h2q _
  refine ha q h1 h2q ?_
  intro hc
  cases hc
  omega

theorem dict_open_arr_heap {h : Heap} {p : Nat} {m : DictObjM} (k : String)
    (hdm : h.dicts p = some m) (hkb : ∀ kd ∈ m, kd.1 < h.nextId) (hp : p < h.nextId) :
    (((h.allocStr k).1.allocArr ArrObj.default8).1.setDict p
        (mapUpsert m h.nextId ⟨Ty.Array, Val.varr (h.nextId + 1)⟩)).nextId = h.nextId + 2 ∧
    (((h.allocStr k).1.allocArr ArrObj.default8).1.setDict p
        (mapUpsert m h.nextId ⟨Ty.Array, Val.varr (h.nextId + 1)⟩)).arrs (h.nextId + 1)
      = some ArrObj.default8 ∧
    (((h.allocStr k).1.allocArr ArrObj.default8).1.setDict p
        (mapUpsert m h.nextId ⟨Ty.Array, Val.varr (h.nextId + 1)⟩)).dicts p
      = some (m ++ [(h.nextId, ⟨Ty.Array, Val.varr (h.nextId + 1)⟩)]) ∧
    (((h.allocStr k).1.allocArr ArrObj.default8).1.setDict p
        (mapUpsert m h.nextId ⟨Ty.Array, Val.varr (h.nextId + 1)⟩)).strs h.nextId = some k ∧
    AgreeOn h (((h.allocStr k).1.allocArr ArrObj.default8).1.setDict p
        (mapUpsert m h.nextId ⟨Ty.Array, Val.varr (h.nextId + 1)⟩)) 0 h.nextId (some p) := by
  have hfresh : mapUpsert m h.nextId (⟨Ty.Array, Val.varr (h.nextId + 1)⟩ : Doc)
      = m ++ [(h.nextId, ⟨Ty.Array, Val.varr (h.nextId + 1)⟩)] :=
    mapUpsert_append (fun kd hkd => by have := hkb kd hkd; omega)
  have hAni : (h.allocStr k).1.nextId = h.nextId + 1 := by simp [Heap.allocStr]
  refine ⟨?_, ?_, ?_, ?_, ?_⟩
  · simp [Heap.setDict, Heap.allocArr, Heap.allocStr]
  · simp [Heap.setDict, Heap.allocArr, Heap.setArr, Heap.allocStr]
  · rw [Heap.setDict_dicts_self, hfresh]
  · simp [Heap.setDict, Heap.allocArr, Heap.setArr, Heap.allocStr, Heap.setStr]
  · refine AgreeOn_trans_ex (AgreeOn_drop_ex (agree_allocStr h k)) ?_
    refine AgreeOn_trans_ex (AgreeOn_drop_ex (AgreeOn_shrink
      (agree_allocArr (h.allocStr k).1 ArrObj.default8) (le_refl 0) (by omega))) ?_
    refine AgreeOn_shrink (agree_setDict ((h.allocStr k).1.allocArr ArrObj.default8).1 p _)
      (le_refl 0) ?_
    have hx : (((h.allocStr k).1.allocArr ArrObj.default8).1).nextId = h.nextId + 2 := by
      simp [Heap.allocArr, Heap.allocStr]
    omega

theorem dict_open_dict_heap {h : Heap} {p : Nat} {m : DictObjM} (k : String)
    (hdm : h.dicts p = some m) (hkb : ∀ kd ∈ m, kd.1 < h.nextId) (hp : p < h.nextId) :
    (((h.allocStr k).1.allocDict []).1.setDict p
        (mapUpsert m h.nextId ⟨Ty.Dict, Val.vdict (h.nextId + 1)⟩)).nextId = h.nextId + 2 ∧
    (((h.allocStr k).1.allocDict []).1.setDict p
        (mapUpsert m h.nextId ⟨Ty.Dict, Val.vdict (h.nextId + 1)⟩)).dicts (h.nextId + 1)
      = some [] ∧
    (((h.allocStr k).1.allocDict []).1.setDict p
        (mapUpsert m h.nextId ⟨Ty.Dict, Val.vdict (h.nextId + 1)⟩)).dicts p
      = some (m ++ [(h.nextId, ⟨Ty.Dict, Val.vdict (h.nextId + 1)⟩)]) ∧
    (((h.allocStr k).1.allocDict []).1.setDict p
        (mapUpsert m h.nextId ⟨Ty.Dict, Val.vdict (h.nextId + 1)⟩)).strs h.nextId = some k ∧
    AgreeOn h (((h.allocStr k).1.allocDict []).1.setDict p
        (mapUpsert m h.nextId ⟨Ty.Dict, Val.vdict (h.nextId + 1)⟩)) 0 h.nextId (some p) := by
  have hfresh : mapUpsert m h.nextId (⟨Ty.Dict, Val.vdict (h.nextId + 1)⟩ : Doc)
      = m ++ [(h.nextId, ⟨Ty.Dict, Val.vdict (h.nextId + 1)⟩)] :=
    mapUpsert_append (fun kd hkd => by have := hkb kd hkd; omega)
  have hAni : (h.allocStr k).1.nextId = h.nextId + 1 := by simp [Heap.allocStr]
  refine ⟨?_, ?_, ?_, ?_, ?_⟩
  · simp [Heap.setDict, Heap.allocDict, Heap.allocStr]
  · simp only [Heap.setDict, Heap.allocDict, Heap.allocStr]
    rw [if_neg (by omega)]
    simp
  · rw [Heap.setDict_dicts_self, hfresh]
  · simp [Heap.setDict, Heap.allocDict, Heap.allocStr, Heap.setStr]
  · refine AgreeOn_trans_ex (AgreeOn_drop_ex (agree_allocStr h k)) ?_
    refine AgreeOn_trans_ex (AgreeOn_drop_ex (AgreeOn_shrink
      (agree_allocDict (h.allocStr k).1 []) (le_refl 0) (by omega))) ?_
    refine AgreeOn_shrink (agree_setDict ((h.allocStr k).1.allocDict []).1 p _)
      (le_refl 0) ?_
    have hx : (((h.allocStr k).1.allocDict []).1).nextId = h.nextId + 2 := by
      simp [Heap.allocDict, Heap.allocStr]
    omega
/-! ### The parse master: containers re-parse to their rendered trees.

Six mutually-recursive theorems walk the rendered text in lock-step with
`parseLoop`: `parseArrC`/`parseDictC` handle one freshly-opened container
through its closing bracket, `arrElem`/`dictEntry` one element or entry,
`arrBody`/`dictBody` the remaining element list with the closer. -/

mutual

theorem parseArrC : ∀ (ts : List PDoc) (input suffix : List Char) (h : Heap) (p : Nat)
    (rest0 : List Doc) (i : Nat) (log : List OutEvent),
    GoodL ts = true → h.arrs p = some ArrObj.default8 → p < h.nextId →
    input.drop i = renderArr ts ++ ']' :: suffix →
    ∃ K h1,
      (∀ fuel, parseLoop input input.length false (K + fuel + 1) h
          (⟨Ty.Array, Val.varr p⟩ :: rest0) i log
        = closeK input h1 ⟨Ty.Array, Val.varr p⟩ (i + (renderArr ts).length + 1) log fuel
            rest0) ∧
      h.nextId ≤ h1.nextId ∧ AgreeOn h h1 0 h.nextId (some p) ∧
      (∀ h2 g, nodesL ts + 1 ≤ g → AgreeOn h1 h2 p h1.nextId none →
        obsDoc h2 g ⟨Ty.Array, Val.varr p⟩ = some (PDoc.parr (revDictL ts)))
  | ts, input, suffix, h, p, rest0, i, log => by
    intro hg harr hp hd
    obtain ⟨K, h1, A1, newDocs, hloop, hni, hagr, harr1, hwfa, hwfb, hwfc, htake, hobs⟩ :=
      arrBody ts input suffix h p ArrObj.default8 rest0 i log hg harr (by decide)
        (by decide) (by decide) hp hd
    refine ⟨K, h1, hloop, hni, hagr, ?_⟩
    intro h2 g hgn hagf
    obtain ⟨g2, rfl⟩ : ∃ g2, g = g2 + 1 := ⟨g - 1, by omega⟩
    have hforall := hobs h2 g2 (by omega) (AgreeOn_shrink hagf (by omega) (le_refl _))
    have harr2 : h2.arrs p = some A1 := by
      have hx := arrs_on hagf (le_refl _) (by omega) (by simp)
      rw [hx, harr1]
    have htk : A1.arr.take A1.s = newDocs := by
      rw [htake]
      rfl
    refine obs_arr_intro rfl rfl harr2 (by omega) ?_
    rw [htk]
    exact mapM_opt_eq_some.mpr hforall
termination_by ts _ _ _ _ _ _ _ => 3 * nodesL ts + 2
decreasing_by
  all_goals simp [nodes, nodesL, nodesE, nodesE_reverse]
  all_goals omega

theorem parseDictC : ∀ (es : List (String × PDoc)) (input suffix : List Char) (h : Heap)
    (p : Nat) (rest0 : List Doc) (i : Nat) (log : List OutEvent),
    GoodE es = true → h.dicts p = some [] → p < h.nextId →
    input.drop i = bodyD es ++ suffix →
    ∃ K h1,
      (∀ fuel, parseLoop input input.length false (K + fuel + 1) h
          (⟨Ty.Dict, Val.vdict p⟩ :: rest0) i log
        = closeK input h1 ⟨Ty.Dict, Val.vdict p⟩ (i + (bodyD es).length) log fuel rest0) ∧
      h.nextId ≤ h1.nextId ∧ AgreeOn h h1 0 h.nextId (some p) ∧
      (∀ h2 g, nodesE es + 1 ≤ g → AgreeOn h1 h2 p h1.nextId none →
        obsDoc h2 g ⟨Ty.Dict, Val.vdict p⟩ = some (PDoc.pdict (revDictE es).reverse))
  | [], input, suffix, h, p, rest0, i, log => by
    intro hg hdm hp hd
    have hdb : input.drop i = '}' :: suffix := by simpa [bodyD] using hd
    have hc0 : cAt input i = '}' := cAt_head hdb
    have hlt : i < input.length := lt_length_of_drop hdb (j := 0) (by simp)
    refine ⟨0, h, ?_, le_refl _, AgreeOn_refl h _ _ _, ?_⟩
    · intro fuel
      rw [show i + (bodyD ([] : List (String × PDoc))).length = i + 1 by simp [bodyD]]
      rw [show (0 : Nat) + fuel + 1 = fuel + 1 by omega]
      rw [pl_step_close (Or.inl hc0) hlt]
    · intro h2 g hgn hagf
      obtain ⟨g2, rfl⟩ : ∃ g2, g = g2 + 1 := ⟨g - 1, by omega⟩
      have hd2 : h2.dicts p = some [] := by
        have hx := dicts_on hagf (le_refl _) (by omega) (by simp)
        rw [hx, hdm]
      have hin : obsDoc h2 (g2 + 1) (⟨Ty.Dict, Val.vdict p⟩ : Doc)
          = some (PDoc.pdict []) := obs_dict_intro rfl rfl hd2 rfl
      simpa [revDictE] using hin
  | e :: es2, input, suffix, h, p, rest0, i, log => by
    intro hg hdm hp hd
    obtain ⟨ps, hps⟩ : ∃ ps, ps = (e :: es2).reverse := ⟨_, rfl⟩
    have hrev : renderEntsRev (e :: es2) = entsTextFwd ps := by
      rw [hps]
      exact (entsTextFwd_reverse (e :: es2)).symm
    have hlenE : (entsTextFwd ps).length = (renderEntsRev (e :: es2)).length := by
      rw [hrev]
    have hdb : input.drop i = Char.ofNat 10 ::
        (entsTextFwd ps ++ Char.ofNat 10 :: '}' :: suffix) := by
      rw [hd, show bodyD (e :: es2)
        = Char.ofNat 10 :: renderEntsRev (e :: es2) ++ [Char.ofNat 10, '}'] from rfl, hrev]
      simp
    have hc0 : cAt input i = Char.ofNat 10 := cAt_head hdb
    have hlt : i < input.length := lt_length_of_drop hdb (j := 0) (by simp)
    have hd1 : input.drop (i + 1)
        = entsTextFwd ps ++ Char.ofNat 10 :: '}' :: suffix := drop_succ_of_drop hdb
    have hgps : GoodE ps = true := by
      rw [hps]
      exact GoodE_reverse hg
    obtain ⟨K2, h1, mnew, hloop2, hni2, hag2, hdict2, hkb2, hobs2⟩ :=
      dictBody ps input suffix h p [] rest0 (i + 1) log hgps hdm (by simp) hp hd1
    refine ⟨K2 + 1, h1, ?_, hni2, hag2, ?_⟩
    · intro fuel
      rw [show K2 + 1 + fuel + 1 = (K2 + fuel + 1) + 1 by omega]
      rw [pl_step_ws (Or.inr (Or.inl hc0)) hlt]
      rw [hloop2 fuel]
      rw [show i + 1 + (entsTextFwd ps).length + 2 = i + (bodyD (e :: es2)).length by
        simp only [bodyD, List.length_cons, List.length_append, List.length_nil, hlenE]
        omega]
    · intro h2 g hgn hagf
      obtain ⟨g2, rfl⟩ : ∃ g2, g = g2 + 1 := ⟨g - 1, by omega⟩
      have hnps : nodesE ps = nodesE (e :: es2) := by
        rw [hps, nodesE_reverse]
      have hforall := hobs2 h2 g2 (by omega)
        (AgreeOn_shrink hagf (by omega) (le_refl _))
      have hd2 : h2.dicts p = some mnew := by
        have hx := dicts_on hagf (le_refl _) (by omega) (by simp)
        rw [hx, hdict2]
        simp
      have hin : obsDoc h2 (g2 + 1) (⟨Ty.Dict, Val.vdict p⟩ : Doc)
          = some (PDoc.pdict (revDictE ps)) :=
        obs_dict_intro rfl rfl hd2 (mapM_opt_eq_some.mpr hforall)
      rw [hps, revDictE_reverse] at hin
      exact hin
termination_by es _ _ _ _ _ _ _ => 3 * nodesE es + 2
decreasing_by
  all_goals subst hps
  all_goals simp [nodes, nodesL, nodesE, nodesE_reverse, nodesE_append]
  all_goals omega

theorem arrElem : ∀ (t1 : PDoc) (input r : List Char) (c : Char) (h : Heap) (p : Nat)
    (A : ArrObj) (rest0 : List Doc) (i : Nat) (log : List OutEvent),
    GoodP t1 = true → h.arrs p = some A → A.arr.length = A.cap → A.s ≤ A.cap →
    1 ≤ A.cap → p < h.nextId →
    input.drop i = renderL t1 ++ c :: r →
    (c = ',' ∨ c = Char.ofNat 10 ∨ c = ']') →
    ∃ q h1 A1 nd,
      (∀ fuel, parseLoop input input.length false (q + fuel) h
          (⟨Ty.Array, Val.varr p⟩ :: rest0) i log
        = parseLoop input input.length false fuel h1
          (⟨Ty.Array, Val.varr p⟩ :: rest0) (i + (renderL t1).length) log) ∧
      h.nextId ≤ h1.nextId ∧ AgreeOn h h1 0 h.nextId (some p) ∧
      h1.arrs p = some A1 ∧ A1.arr.length = A1.cap ∧ A1.s ≤ A1.cap ∧ 1 ≤ A1.cap ∧
      A1.arr.take A1.s = A.arr.take A.s ++ [nd] ∧
      (∀ h2 g, nodes t1 ≤ g → AgreeOn h1 h2 h.nextId h1.nextId none →
        obsDoc h2 g nd = some (revDict t1))
  | PDoc.pchar c2, input, r, c, h, p, A, rest0, i, log => by
    intro hg
    simp [GoodP] at hg
  | PDoc.pllong i2, input, r, c, h, p, A, rest0, i, log => by
    intro hg
    simp [GoodP] at hg
  | PDoc.pfloat q2, input, r, c, h, p, A, rest0, i, log => by
    intro hg
    simp [GoodP] at hg
  | PDoc.pdouble q2, input, r, c, h, p, A, rest0, i, log => by
    intro hg
    simp [GoodP] at hg
  | PDoc.pldouble q2, input, r, c, h, p, A, rest0, i, log => by
    intro hg
    simp [GoodP] at hg
  | PDoc.ptup l, input, r, c, h, p, A, rest0, i, log => by
    intro hg
    simp [GoodP] at hg
  | PDoc.pint iv, input, r, c, h, p, A, rest0, i, log => by
    intro hg harr hw1 hw2 hw3 hp hd hterm
    exact arrElemPrim rest0 i log hg rfl harr hw1 hw2 hw3 hp hd hterm
  | PDoc.pbool b, input, r, c, h, p, A, rest0, i, log => by
    intro hg harr hw1 hw2 hw3 hp hd hterm
    exact arrElemPrim rest0 i log hg rfl harr hw1 hw2 hw3 hp hd hterm
  | PDoc.pnull, input, r, c, h, p, A, rest0, i, log => by
    intro hg harr hw1 hw2 hw3 hp hd hterm
    exact arrElemPrim rest0 i log hg rfl harr hw1 hw2 hw3 hp hd hterm
  | PDoc.pstr s, input, r, c, h, p, A, rest0, i, log => by
    intro hg harr hw1 hw2 hw3 hp hd hterm
    exact arrElemPrim rest0 i log hg rfl harr hw1 hw2 hw3 hp hd hterm
  | PDoc.parr l, input, r, c, h, p, A, rest0, i, log => by
    intro hg harr hw1 hw2 hw3 hp hd hterm
    have hgl : GoodL l = true := by simpa [GoodP] using hg
    have hdb : input.drop i = '[' :: ((renderArr l ++ [']']) ++ c :: r) := by
      rw [hd, renderL_parr]
      simp
    have hc0 : cAt input i = '[' := cAt_head hdb
    have hlt : i < input.length := lt_length_of_drop hdb (j := 0) (by simp)
    obtain ⟨hoA1, hoA2, hoA3, hoA4⟩ := arr_open_heap_a (h := h) (p := p) A hp
    have hd1 : input.drop (i + 1) = renderArr l ++ ']' :: (c :: r) := by
      have hx := drop_succ_of_drop hdb
      rw [hx]
      simp
    obtain ⟨K1, h1c, hloopC, hniC, hagC, hobsC⟩ :=
      parseArrC l input (c :: r)
        ((h.allocArr ArrObj.default8).1.setArr p
          (A.emplace_back ⟨Ty.Array, Val.varr h.nextId⟩))
        h.nextId (⟨Ty.Array, Val.varr p⟩ :: rest0) (i + 1) log hgl hoA2 (by omega) hd1
    obtain ⟨hef1, hef2, hef3, hef4, hef5⟩ :=
      emplace_back_facts (a := A) ⟨Ty.Array, Val.varr h.nextId⟩ hw1 hw2 hw3
    refine ⟨K1 + 2, h1c, A.emplace_back ⟨Ty.Array, Val.varr h.nextId⟩,
      ⟨Ty.Array, Val.varr h.nextId⟩, ?_, by omega, ?_, ?_, hef2, hef4, hef5, hef1, ?_⟩
    · intro fuel
      rw [show K1 + 2 + fuel = (K1 + fuel + 1) + 1 by omega]
      rw [pl_step_arr_open_a hc0 hlt harr hp]
      rw [hloopC fuel]
      rw [closeK]
      rw [show i + 1 + (renderArr l).length + 1 = i + (renderL (PDoc.parr l)).length by
        rw [renderL_parr]
        simp
        omega]
    · refine AgreeOn_trans_ex hoA4 ?_
      have hx : AgreeOn ((h.allocArr ArrObj.default8).1.setArr p
            (A.emplace_back ⟨Ty.Array, Val.varr h.nextId⟩)) h1c 0 h.nextId
            (some h.nextId) :=
        AgreeOn_shrink hagC (le_refl 0) (by omega)
      exact AgreeOn_drop_ex (AgreeOn_ex_ge hx (le_refl h.nextId))
    · have hx := arrs_on hagC (Nat.zero_le p) (by omega)
        (by intro hcon; first | (simp at hcon; omega) | simp at hcon)
      rw [hx, hoA3]
    · intro h2 g hgn hagf
      have hgl2 : nodesL l + 1 ≤ g := by
        have hnn : nodes (PDoc.parr l) = 1 + nodesL l := by simp [nodes]
        omega
      have hout := hobsC h2 g hgl2 hagf
      simpa [revDict] using hout
  | PDoc.pdict md, input, r, c, h, p, A, rest0, i, log => by
    intro hg harr hw1 hw2 hw3 hp hd hterm
    have hgm : GoodE md = true := by simpa [GoodP] using hg
    have hdb : input.drop i = '{' :: (bodyD md ++ c :: r) := by
      rw [hd, renderL_pdict]
      simp
    have hc0 : cAt input i = '{' := cAt_head hdb
    have hlt : i < input.length := lt_length_of_drop hdb (j := 0) (by simp)
    obtain ⟨hoA1, hoA2, hoA3, hoA4⟩ := arr_open_heap_d (h := h) (p := p) A hp
    have hd1 : input.drop (i + 1) = bodyD md ++ (c :: r) := drop_succ_of_drop hdb
    obtain ⟨K1, h1c, hloopC, hniC, hagC, hobsC⟩ :=
      parseDictC md input (c :: r)
        ((h.allocDict []).1.setArr p
          (A.emplace_back ⟨Ty.Dict, Val.vdict h.nextId⟩))
        h.nextId (⟨Ty.Array, Val.varr p⟩ :: rest0) (i + 1) log hgm hoA2 (by omega) hd1
    obtain ⟨hef1, hef2, hef3, hef4, hef5⟩ :=
      emplace_back_facts (a := A) ⟨Ty.Dict, Val.vdict h.nextId⟩ hw1 hw2 hw3
    refine ⟨K1 + 2, h1c, A.emplace_back ⟨Ty.Dict, Val.vdict h.nextId⟩,
      ⟨Ty.Dict, Val.vdict h.nextId⟩, ?_, by omega, ?_, ?_, hef2, hef4, hef5, hef1, ?_⟩
    · intro fuel
      rw [show K1 + 2 + fuel = (K1 + fuel + 1) + 1 by omega]
      rw [pl_step_arr_open_d hc0 hlt harr hp]
      rw [hloopC fuel]
      rw [closeK]
      rw [show i + 1 + (bodyD md).length = i + (renderL (PDoc.pdict md)).length by
        rw [renderL_pdict]
        simp
        omega]
    · refine AgreeOn_trans_ex hoA4 ?_
      have hx : AgreeOn ((h.allocDict []).1.setArr p
            (A.emplace_back ⟨Ty.Dict, Val.vdict h.nextId⟩)) h1c 0 h.nextId
            (some h.nextId) :=
        AgreeOn_shrink hagC (le_refl 0) (by omega)
      exact AgreeOn_drop_ex (AgreeOn_ex_ge hx (le_refl h.nextId))
    · have hx := arrs_on hagC (Nat.zero_le p) (by omega)
        (by intro hcon; first | (simp at hcon; omega) | simp at hcon)
      rw [hx, hoA3]
    · intro h2 g hgn hagf
      have hgm2 : nodesE md + 1 ≤ g := by
        have hnn : nodes (PDoc.pdict md) = 1 + nodesE md := by simp [nodes]
        omega
      have hout := hobsC h2 g hgm2 hagf
      simpa [revDict] using hout
termination_by t1 _ _ _ _ _ _ _ _ _ => 3 * nodes t1
decreasing_by
  all_goals simp [nodes, nodesL, nodesE, nodesE_reverse]
  all_goals omega

theorem dictEntry : ∀ (k : String) (v : PDoc) (input r : List Char) (c : Char) (h : Heap)
    (p : Nat) (m : DictObjM) (rest0 : List Doc) (i : Nat) (log : List OutEvent),
    goodKey k = true → GoodP v = true → h.dicts p = some m →
    (∀ kd ∈ m, kd.1 < h.nextId) → p < h.nextId →
    input.drop i = '"' :: k.toList ++ '"' :: ':' :: ' ' :: (renderL v ++ c :: r) →
    (c = ',' ∨ c = Char.ofNat 10) →
    ∃ q h1 nd,
      (∀ fuel, parseLoop input input.length false (q + fuel) h
          (⟨Ty.Dict, Val.vdict p⟩ :: rest0) i log
        = parseLoop input input.length false fuel h1
          (⟨Ty.Dict, Val.vdict p⟩ :: rest0) (i + (k.length + 4 + (renderL v).length)) log) ∧
      h.nextId < h1.nextId ∧ AgreeOn h h1 0 h.nextId (some p) ∧
      h1.dicts p = some (m ++ [(h.nextId, nd)]) ∧
      (∀ h2 g, nodes v ≤ g → AgreeOn h1 h2 h.nextId h1.nextId none →
        h2.strs h.nextId = some k ∧ obsDoc h2 g nd = some (revDict v))
  | k, PDoc.pchar c2, input, r, c, h, p, m, rest0, i, log => by
    intro hgk hg
    simp [GoodP] at hg
  | k, PDoc.pllong i2, input, r, c, h, p, m, rest0, i, log => by
    intro hgk hg
    simp [GoodP] at hg
  | k, PDoc.pfloat q2, input, r, c, h, p, m, rest0, i, log => by
    intro hgk hg
    simp [GoodP] at hg
  | k, PDoc.pdouble q2, input, r, c, h, p, m, rest0, i, log => by
    intro hgk hg
    simp [GoodP] at hg
  | k, PDoc.pldouble q2, input, r, c, h, p, m, rest0, i, log => by
    intro hgk hg
    simp [GoodP] at hg
  | k, PDoc.ptup l, input, r, c, h, p, m, rest0, i, log => by
    intro hgk hg
    simp [GoodP] at hg
  | k, PDoc.pint iv, input, r, c, h, p, m, rest0, i, log => by
    intro hgk hg hdm hkb hp hd hterm
    exact dictEntryPrim rest0 i log hgk hg rfl hdm hkb hp hd hterm
  | k, PDoc.pbool b, input, r, c, h, p, m, rest0, i, log => by
    intro hgk hg hdm hkb hp hd hterm
    exact dictEntryPrim rest0 i log hgk hg rfl hdm hkb hp hd hterm
  | k, PDoc.pnull, input, r, c, h, p, m, rest0, i, log => by
    intro hgk hg hdm hkb hp hd hterm
    exact dictEntryPrim rest0 i log hgk hg rfl hdm hkb hp hd hterm
  | k, PDoc.pstr s, input, r, c, h, p, m, rest0, i, log => by
    intro hgk hg hdm hkb hp hd hterm
    exact dictEntryPrim rest0 i log hgk hg rfl hdm hkb hp hd hterm
  | k, PDoc.parr l, input, r, c, h, p, m, rest0, i, log => by
    intro hgk hg hdm hkb hp hd hterm
    have hgl : GoodL l = true := by simpa [GoodP] using hg
    have hdc : input.drop i = '"' :: k.toList ++ '"' :: ':' :: ' ' :: '[' ::
        ((renderArr l ++ [']']) ++ c :: r) := by
      rw [hd, renderL_parr]
      simp
    obtain ⟨hck, hlt, hscan, hn2, hkey, hws3, hn3, hdrop3⟩ :=
      dict_key_scan hgk hdc (by decide)
    have hcv : cAt input (i + k.length + 4) = '[' := cAt_head hdrop3
    obtain ⟨hB1, hB2, hB3, hB4, hB5⟩ := dict_open_arr_heap k hdm hkb hp
    have hd1 : input.drop (i + k.length + 4 + 1) = renderArr l ++ ']' :: (c :: r) := by
      have hx := drop_succ_of_drop hdrop3
      rw [hx]
      simp
    obtain ⟨K1, h1c, hloopC, hniC, hagC, hobsC⟩ :=
      parseArrC l input (c :: r)
        (((h.allocStr k).1.allocArr ArrObj.default8).1.setDict p
          (mapUpsert m h.nextId ⟨Ty.Array, Val.varr (h.nextId + 1)⟩))
        (h.nextId + 1) (⟨Ty.Dict, Val.vdict p⟩ :: rest0) (i + k.length + 4 + 1) log
        hgl hB2 (by omega) hd1
    refine ⟨K1 + 2, h1c, ⟨Ty.Array, Val.varr (h.nextId + 1)⟩, ?_, by omega, ?_, ?_, ?_⟩
    · intro fuel
      rw [show K1 + 2 + fuel = (K1 + fuel + 1) + 1 by omega]
      rw [pl_step_dict_open_a hck hlt hscan hn2 hkey hws3 hn3 (by rw [hcv]; decide)
        hcv hdm]
      rw [hloopC fuel]
      rw [closeK]
      rw [show i + k.length + 4 + 1 + (renderArr l).length + 1
          = i + (k.length + 4 + (renderL (PDoc.parr l)).length) by
        rw [renderL_parr]
        simp
        omega]
    · refine AgreeOn_trans_ex hB5 ?_
      have hx : AgreeOn (((h.allocStr k).1.allocArr ArrObj.default8).1.setDict p
            (mapUpsert m h.nextId ⟨Ty.Array, Val.varr (h.nextId + 1)⟩)) h1c 0 h.nextId
            (some (h.nextId + 1)) :=
        AgreeOn_shrink hagC (le_refl 0) (by omega)
      exact AgreeOn_drop_ex (AgreeOn_ex_ge hx (by omega))
    · have hx := dicts_on hagC (Nat.zero_le p) (by omega)
        (by intro hcon; first | (simp at hcon; omega) | simp at hcon)
      rw [hx, hB3]
    · intro h2 g hgn hagf
      constructor
      · have hs1 : h2.strs h.nextId = h1c.strs h.nextId :=
          strs_on hagf (le_refl _) (by omega) (by simp)
        have hs2 : h1c.strs h.nextId = (((h.allocStr k).1.allocArr ArrObj.default8).1.setDict p
            (mapUpsert m h.nextId ⟨Ty.Array, Val.varr (h.nextId + 1)⟩)).strs h.nextId :=
          strs_on hagC (Nat.zero_le _) (by omega)
            (by intro hcon; first | (simp at hcon; omega) | simp at hcon)
        rw [hs1, hs2, hB4]
      · have hgl2 : nodesL l + 1 ≤ g := by
          have hnn : nodes (PDoc.parr l) = 1 + nodesL l := by simp [nodes]
          omega
        have hout := hobsC h2 g hgl2 (AgreeOn_shrink hagf (by omega) (le_refl _))
        simpa [revDict] using hout
  | k, PDoc.pdict md, input, r, c, h, p, m, rest0, i, log => by
    intro hgk hg hdm hkb hp hd hterm
    have hgm : GoodE md = true := by simpa [GoodP] using hg
    have hdc : input.drop i = '"' :: k.toList ++ '"' :: ':' :: ' ' :: '{' ::
        (bodyD md ++ c :: r) := by
      rw [hd, renderL_pdict]
      simp
    obtain ⟨hck, hlt, hscan, hn2, hkey, hws3, hn3, hdrop3⟩ :=
      dict_key_scan hgk hdc (by decide)
    have hcv : cAt input (i + k.length + 4) = '{' := cAt_head hdrop3
    obtain ⟨hB1, hB2, hB3, hB4, hB5⟩ := dict_open_dict_heap k hdm hkb hp
    have hd1 : input.drop (i + k.length + 4 + 1) = bodyD md ++ (c :: r) :=
      drop_succ_of_drop hdrop3
    obtain ⟨K1, h1c, hloopC, hniC, hagC, hobsC⟩ :=
      parseDictC md input (c :: r)
        (((h.allocStr k).1.allocDict []).1.setDict p
          (mapUpsert m h.nextId ⟨Ty.Dict, Val.vdict (h.nextId + 1)⟩))
        (h.nextId + 1) (⟨Ty.Dict, Val.vdict p⟩ :: rest0) (i + k.length + 4 + 1) log
        hgm hB2 (by omega) hd1
    refine ⟨K1 + 2, h1c, ⟨Ty.Dict, Val.vdict (h.nextId + 1)⟩, ?_, by omega, ?_, ?_, ?_⟩
    · intro fuel
      rw [show K1 + 2 + fuel = (K1 + fuel + 1) + 1 by omega]
      rw [pl_step_dict_open_d hck hlt hscan hn2 hkey hws3 hn3 hcv hdm hp]
      rw [hloopC fuel]
      rw [closeK]
      rw [show i + k.length + 4 + 1 + (bodyD md).length
          = i + (k.length + 4 + (renderL (PDoc.pdict md)).length) by
        rw [renderL_pdict]
        simp
        omega]
    · refine AgreeOn_trans_ex hB5 ?_
      have hx : AgreeOn (((h.allocStr k).1.allocDict []).1.setDict p
            (mapUpsert m h.nextId ⟨Ty.Dict, Val.vdict (h.nextId + 1)⟩)) h1c 0 h.nextId
            (some (h.nextId + 1)) :=
        AgreeOn_shrink hagC (le_refl 0) (by omega)
      exact AgreeOn_drop_ex (AgreeOn_ex_ge hx (by omega))
    · have hx := dicts_on hagC (Nat.zero_le p) (by omega)
        (by intro hcon; first | (simp at hcon; omega) | simp at hcon)
      rw [hx, hB3]
    · intro h2 g hgn hagf
      constructor
      · have hs1 : h2.strs h.nextId = h1c.strs h.nextId :=
          strs_on hagf (le_refl _) (by omega) (by simp)
        have hs2 : h1c.strs h.nextId = (((h.allocStr k).1.allocDict []).1.setDict p
            (mapUpsert m h.nextId ⟨Ty.Dict, Val.vdict (h.nextId + 1)⟩)).strs h.nextId :=
          strs_on hagC (Nat.zero_le _) (by omega)
            (by intro hcon; first | (simp at hcon; omega) | simp at hcon)
        rw [hs1, hs2, hB4]
      · have hgm2 : nodesE md + 1 ≤ g := by
          have hnn : nodes (PDoc.pdict md) = 1 + nodesE md := by simp [nodes]
          omega
        have hout := hobsC h2 g hgm2 (AgreeOn_shrink hagf (by omega) (le_refl _))
        simpa [revDict] using hout
termination_by k v _ _ _ _ _ _ _ _ _ => 3 * nodes v
decreasing_by
  all_goals simp [nodes, nodesL, nodesE, nodesE_reverse]
  all_goals omega

theorem arrBody : ∀ (ts : List PDoc) (input suffix : List Char) (h : Heap) (p : Nat)
    (A : ArrObj) (rest0 : List Doc) (i : Nat) (log : List OutEvent),
    GoodL ts = true → h.arrs p = some A → A.arr.length = A.cap → A.s ≤ A.cap →
    1 ≤ A.cap → p < h.nextId →
    input.drop i = renderArr ts ++ ']' :: suffix →
    ∃ K h1 A1 newDocs,
      (∀ fuel, parseLoop input input.length false (K + fuel + 1) h
          (⟨Ty.Array, Val.varr p⟩ :: rest0) i log
        = closeK input h1 ⟨Ty.Array, Val.varr p⟩ (i + (renderArr ts).length + 1) log fuel
            rest0) ∧
      h.nextId ≤ h1.nextId ∧ AgreeOn h h1 0 h.nextId (some p) ∧
      h1.arrs p = some A1 ∧ A1.arr.length = A1.cap ∧ A1.s ≤ A1.cap ∧ 1 ≤ A1.cap ∧
      A1.arr.take A1.s = A.arr.take A.s ++ newDocs ∧
      (∀ h2 g, nodesL ts ≤ g → AgreeOn h1 h2 h.nextId h1.nextId none →
        List.Forall₂ (fun dd tv => obsDoc h2 g dd = some tv) newDocs (revDictL ts))
  | [], input, suffix, h, p, A, rest0, i, log => by
    intro hg harr hw1 hw2 hw3 hp hd
    have hdb : input.drop i = ']' :: suffix := by simpa [renderArr] using hd
    have hc0 : cAt input i = ']' := cAt_head hdb
    have hlt : i < input.length := lt_length_of_drop hdb (j := 0) (by simp)
    refine ⟨0, h, A, [], ?_, le_refl _, AgreeOn_refl h _ _ _, harr, hw1, hw2, hw3,
      by simp, ?_⟩
    · intro fuel
      rw [show i + (renderArr ([] : List PDoc)).length + 1 = i + 1 by simp [renderArr]]
      rw [show (0 : Nat) + fuel + 1 = fuel + 1 by omega]
      rw [pl_step_close (Or.inr hc0) hlt]
    · intro h2 g hgn hagf
      simp only [revDictL]
      exact List.Forall₂.nil
  | [t1], input, suffix, h, p, A, rest0, i, log => by
    intro hg harr hw1 hw2 hw3 hp hd
    have hg1 : GoodP t1 = true := by simpa [GoodL] using hg
    have hdb : input.drop i = renderL t1 ++ ']' :: suffix := by
      simpa [renderArr] using hd
    obtain ⟨q, h1, A1, nd, hloopE, hniE, hagE, harr1, hwfa, hwfb, hwfc, htake1, hobsE⟩ :=
      arrElem t1 input suffix ']' h p A rest0 i log hg1 harr hw1 hw2 hw3 hp hdb
        (Or.inr (Or.inr rfl))
    have hcc : cAt input (i + (renderL t1).length) = ']' :=
      @cAt_after_pre input (renderL t1) suffix i ']' hdb
    have hlt2 : i + (renderL t1).length < input.length :=
      lt_length_of_drop hdb (j := (renderL t1).length) (by simp)
    refine ⟨q, h1, A1, [nd], ?_, hniE, hagE, harr1, hwfa, hwfb, hwfc, htake1, ?_⟩
    · intro fuel
      rw [show q + fuel + 1 = q + (fuel + 1) by omega]
      rw [hloopE (fuel + 1)]
      rw [pl_step_close (Or.inr hcc) hlt2]
      rw [show i + (renderArr [t1]).length + 1 = i + (renderL t1).length + 1 by
        simp [renderArr]]
    · intro h2 g hgn hagf
      have hgn1 : nodes t1 ≤ g := by
        have hx : nodesL [t1] = nodes t1 + 0 := by simp [nodesL]
        omega
      simp only [revDictL]
      exact List.Forall₂.cons (hobsE h2 g hgn1 hagf) List.Forall₂.nil
  | t1 :: t2 :: ts3, input, suffix, h, p, A, rest0, i, log => by
    intro hg harr hw1 hw2 hw3 hp hd
    have hgc : GoodP t1 = true ∧ GoodP t2 = true ∧ GoodL ts3 = true := by
      simpa [GoodL, Bool.and_eq_true, and_assoc] using hg
    have hgrest : GoodL (t2 :: ts3) = true := by
      simp [GoodL, Bool.and_eq_true]
      exact ⟨hgc.2.1, hgc.2.2⟩
    have hra : renderArr (t1 :: t2 :: ts3)
        = renderL t1 ++ (if primLike t1 then [',', ' '] else [',', Char.ofNat 10])
            ++ renderArr (t2 :: ts3) := rfl
    cases hpl : primLike t1 with
    | true =>
      have hdb : input.drop i
          = renderL t1 ++ ',' :: (' ' :: (renderArr (t2 :: ts3) ++ ']' :: suffix)) := by
        rw [hd, hra, hpl]
        simp
      obtain ⟨q, h1e, A1, nd, hloopE, hniE, hagE, harr1, hwfa, hwfb, hwfc, htake1,
        hobsE⟩ :=
        arrElem t1 input (' ' :: (renderArr (t2 :: ts3) ++ ']' :: suffix)) ',' h p A
          rest0 i log hgc.1 harr hw1 hw2 hw3 hp hdb (Or.inl rfl)
      have hcc : cAt input (i + (renderL t1).length) = ',' :=
        @cAt_after_pre input (renderL t1)
          (' ' :: (renderArr (t2 :: ts3) ++ ']' :: suffix)) i ',' hdb
      have hltc : i + (renderL t1).length < input.length :=
        lt_length_of_drop hdb (j := (renderL t1).length) (by simp)
      have hdw : input.drop (i + (renderL t1).length + 1)
          = ' ' :: (renderArr (t2 :: ts3) ++ ']' :: suffix) :=
        drop_succ_of_drop (@drop_add_of_drop input (renderL t1)
          (',' :: ' ' :: (renderArr (t2 :: ts3) ++ ']' :: suffix)) i (by rw [hdb]))
      have hcw : cAt input (i + (renderL t1).length + 1) = ' ' := cAt_head hdw
      have hltw : i + (renderL t1).length + 1 < input.length :=
        lt_length_of_drop hdw (j := 0) (by simp)
      have hd2 : input.drop (i + (renderL t1).length + 2)
          = renderArr (t2 :: ts3) ++ ']' :: suffix := drop_succ_of_drop hdw
      obtain ⟨K2, h1, A2, newDocs2, hloop2, hni2, hag2, harr2, hwfa2, hwfb2, hwfc2,
        htake2, hobs2⟩ :=
        arrBody (t2 :: ts3) input suffix h1e p A1 rest0
          (i + (renderL t1).length + 2) log hgrest harr1 hwfa hwfb hwfc (by omega) hd2
      refine ⟨q + 2 + K2, h1, A2, nd :: newDocs2, ?_, by omega, ?_, harr2, hwfa2,
        hwfb2, hwfc2, ?_, ?_⟩
      · intro fuel
        rw [show q + 2 + K2 + fuel + 1 = q + (K2 + fuel + 3) by omega]
        rw [hloopE (K2 + fuel + 3)]
        rw [show K2 + fuel + 3 = (K2 + fuel + 2) + 1 by omega]
        rw [pl_step_comma hcc hltc]
        rw [show K2 + fuel + 2 = (K2 + fuel + 1) + 1 by omega]
        rw [pl_step_ws (Or.inl hcw) hltw]
        rw [hloop2 fuel]
        rw [show i + (renderL t1).length + 2 + (renderArr (t2 :: ts3)).length + 1
            = i + (renderArr (t1 :: t2 :: ts3)).length + 1 by
          rw [hra, hpl]
          simp
          omega]
      · refine AgreeOn_trans_ex hagE ?_
        exact AgreeOn_shrink hag2 (le_refl 0) (by omega)
      · rw [htake2, htake1]
        simp
      · intro h2 g hgn hagf
        have hchain : AgreeOn h1e h2 h.nextId h1e.nextId none := by
          refine AgreeOn_trans_none2 (AgreeOn_ex_below
            (AgreeOn_shrink hag2 (Nat.zero_le _) (le_refl _)) hp) ?_
          exact AgreeOn_shrink hagf (le_refl _) (by omega)
        simp only [revDictL]
        refine List.Forall₂.cons ?_ ?_
        · exact hobsE h2 g (by have := nodesL_cons t1 (t2 :: ts3); omega) hchain
        · exact hobs2 h2 g (by have := nodesL_cons t1 (t2 :: ts3); omega)
            (AgreeOn_shrink hagf (by omega) (le_refl _))
    | false =>
      have hdb : input.drop i
          = renderL t1 ++ ',' :: (Char.ofNat 10 ::
              (renderArr (t2 :: ts3) ++ ']' :: suffix)) := by
        rw [hd, hra, hpl]
        simp
      obtain ⟨q, h1e, A1, nd, hloopE, hniE, hagE, harr1, hwfa, hwfb, hwfc, htake1,
        hobsE⟩ :=
        arrElem t1 input (Char.ofNat 10 :: (renderArr (t2 :: ts3) ++ ']' :: suffix)) ','
          h p A rest0 i log hgc.1 harr hw1 hw2 hw3 hp hdb (Or.inl rfl)
      have hcc : cAt input (i + (renderL t1).length) = ',' :=
        @cAt_after_pre input (renderL t1)
          (Char.ofNat 10 :: (renderArr (t2 :: ts3) ++ ']' :: suffix)) i ',' hdb
      have hltc : i + (renderL t1).length < input.length :=
        lt_length_of_drop hdb (j := (renderL t1).length) (by simp)
      have hdw : input.drop (i + (renderL t1).length + 1)
          = Char.ofNat 10 :: (renderArr (t2 :: ts3) ++ ']' :: suffix) :=
        drop_succ_of_drop (@drop_add_of_drop input (renderL t1)
          (',' :: Char.ofNat 10 :: (renderArr (t2 :: ts3) ++ ']' :: suffix)) i
          (by rw [hdb]))
      have hcw : cAt input (i + (renderL t1).length + 1) = Char.ofNat 10 := cAt_head hdw
      have hltw : i + (renderL t1).length + 1 < input.length :=
        lt_length_of_drop hdw (j := 0) (by simp)
      have hd2 : input.drop (i + (renderL t1).length + 2)
          = renderArr (t2 :: ts3) ++ ']' :: suffix := drop_succ_of_drop hdw
      obtain ⟨K2, h1, A2, newDocs2, hloop2, hni2, hag2, harr2, hwfa2, hwfb2, hwfc2,
        htake2, hobs2⟩ :=
        arrBody (t2 :: ts3) input suffix h1e p A1 rest0
          (i + (renderL t1).length + 2) log hgrest harr1 hwfa hwfb hwfc (by omega) hd2
      refine ⟨q + 2 + K2, h1, A2, nd :: newDocs2, ?_, by omega, ?_, harr2, hwfa2,
        hwfb2, hwfc2, ?_, ?_⟩
      · intro fuel
        rw [show q + 2 + K2 + fuel + 1 = q + (K2 + fuel + 3) by omega]
        rw [hloopE (K2 + fuel + 3)]
        rw [show K2 + fuel + 3 = (K2 + fuel + 2) + 1 by omega]
        rw [pl_step_comma hcc hltc]
        rw [show K2 + fuel + 2 = (K2 + fuel + 1) + 1 by omega]
        rw [pl_step_ws (Or.inr (Or.inl hcw)) hltw]
        rw [hloop2 fuel]
        rw [show i + (renderL t1).length + 2 + (renderArr (t2 :: ts3)).length + 1
            = i + (renderArr (t1 :: t2 :: ts3)).length + 1 by
          rw [hra, hpl]
          simp
          omega]
      · refine AgreeOn_trans_ex hagE ?_
        exact AgreeOn_shrink hag2 (le_refl 0) (by omega)
      · rw [htake2, htake1]
        simp
      · intro h2 g hgn hagf
        have hchain : AgreeOn h1e h2 h.nextId h1e.nextId none := by
          refine AgreeOn_trans_none2 (AgreeOn_ex_below
            (AgreeOn_shrink hag2 (Nat.zero_le _) (le_refl _)) hp) ?_
          exact AgreeOn_shrink hagf (le_refl _) (by omega)
        simp only [revDictL]
        refine List.Forall₂.cons ?_ ?_
        · exact hobsE h2 g (by have := nodesL_cons t1 (t2 :: ts3); omega) hchain
        · exact hobs2 h2 g (by have := nodesL_cons t1 (t2 :: ts3); omega)
            (AgreeOn_shrink hagf (by omega) (le_refl _))
termination_by ts _ _ _ _ _ _ _ _ => 3 * nodesL ts + 1
decreasing_by
  all_goals have hp1 := nodes_pos t1
  all_goals simp [nodes, nodesL, nodesE, nodesL_cons]
  all_goals omega

theorem dictBody : ∀ (ps : List (String × PDoc)) (input suffix : List Char) (h : Heap)
    (p : Nat) (m : DictObjM) (rest0 : List Doc) (i : Nat) (log : List OutEvent),
    GoodE ps = true → h.dicts p = some m → (∀ kd ∈ m, kd.1 < h.nextId) → p < h.nextId →
    input.drop i = entsTextFwd ps ++ Char.ofNat 10 :: '}' :: suffix →
    ∃ K h1 mnew,
      (∀ fuel, parseLoop input input.length false (K + fuel + 1) h
          (⟨Ty.Dict, Val.vdict p⟩ :: rest0) i log
        = closeK input h1 ⟨Ty.Dict, Val.vdict p⟩ (i + (entsTextFwd ps).length + 2) log
            fuel rest0) ∧
      h.nextId ≤ h1.nextId ∧ AgreeOn h h1 0 h.nextId (some p) ∧
      h1.dicts p = some (m ++ mnew) ∧ (∀ kd ∈ m ++ mnew, kd.1 < h1.nextId) ∧
      (∀ h2 g, nodesE ps ≤ g → AgreeOn h1 h2 h.nextId h1.nextId none →
        List.Forall₂ (entryObsRel h2 g) mnew (revDictE ps))
  | [], input, suffix, h, p, m, rest0, i, log => by
    intro hg hdm hkb hp hd
    have hdb : input.drop i = Char.ofNat 10 :: ('}' :: suffix) := by
      simpa [entsTextFwd] using hd
    have hc0 : cAt input i = Char.ofNat 10 := cAt_head hdb
    have hlt : i < input.length := lt_length_of_drop hdb (j := 0) (by simp)
    have hd1 : input.drop (i + 1) = '}' :: suffix := drop_succ_of_drop hdb
    have hc1 : cAt input (i + 1) = '}' := cAt_head hd1
    have hlt1 : i + 1 < input.length := lt_length_of_drop hd1 (j := 0) (by simp)
    refine ⟨1, h, [], ?_, le_refl _, AgreeOn_refl h _ _ _, by simpa using hdm,
      by simpa using hkb, ?_⟩
    · intro fuel
      rw [show i + (entsTextFwd ([] : List (String × PDoc))).length + 2 = i + 1 + 1 by
        simp [entsTextFwd]]
      rw [show (1 : Nat) + fuel + 1 = (fuel + 1) + 1 by omega]
      rw [pl_step_ws (Or.inr (Or.inl hc0)) hlt]
      rw [pl_step_close (Or.inl hc1) hlt1]
    · intro h2 g hgn hagf
      simp only [revDictE]
      exact List.Forall₂.nil
  | [(k, v)], input, suffix, h, p, m, rest0, i, log => by
    intro hg hdm hkb hp hd
    have hgc : goodKey k = true ∧ GoodP v = true := by
      simpa [GoodE, Bool.and_eq_true] using hg
    have hdE : input.drop i
        = '"' :: k.toList ++ '"' :: ':' :: ' ' ::
            (renderL v ++ Char.ofNat 10 :: ('}' :: suffix)) := by
      rw [hd]
      simp [entsTextFwd, List.append_assoc]
    obtain ⟨q, h1e, nd, hloopE, hniE, hagE, hdictE, hobsE⟩ :=
      dictEntry k v input ('}' :: suffix) (Char.ofNat 10) h p m rest0 i log hgc.1 hgc.2
        hdm hkb hp hdE (Or.inr rfl)
    have hdE2 : input.drop i
        = ('"' :: k.toList ++ '"' :: ':' :: ' ' :: renderL v)
            ++ Char.ofNat 10 :: ('}' :: suffix) := by
      rw [hdE]
      simp
    have hplen : ('"' :: k.toList ++ '"' :: ':' :: ' ' :: renderL v).length
        = k.length + 4 + (renderL v).length := by
      simp
      omega
    have hdaft : input.drop (i + (k.length + 4 + (renderL v).length))
        = Char.ofNat 10 :: ('}' :: suffix) := by
      have hx := @drop_add_of_drop input
        ('"' :: k.toList ++ '"' :: ':' :: ' ' :: renderL v)
        (Char.ofNat 10 :: ('}' :: suffix)) i hdE2
      rw [hplen] at hx
      exact hx
    have hcnl : cAt input (i + (k.length + 4 + (renderL v).length)) = Char.ofNat 10 :=
      cAt_head hdaft
    have hd1 : input.drop (i + (k.length + 4 + (renderL v).length) + 1)
        = '}' :: suffix := drop_succ_of_drop hdaft
    have hcrb : cAt input (i + (k.length + 4 + (renderL v).length) + 1) = '}' :=
      cAt_head hd1
    have hltnl : i + (k.length + 4 + (renderL v).length) < input.length :=
      lt_length_of_drop hdaft (j := 0) (by simp)
    have hltrb : i + (k.length + 4 + (renderL v).length) + 1 < input.length :=
      lt_length_of_drop hd1 (j := 0) (by simp)
    refine ⟨q + 1, h1e, [(h.nextId, nd)], ?_, le_of_lt hniE, hagE, hdictE, ?_, ?_⟩
    · intro fuel
      rw [show i + (entsTextFwd [(k, v)]).length + 2
          = i + (k.length + 4 + (renderL v).length) + 1 + 1 by
        simp [entsTextFwd]
        omega]
      rw [show q + 1 + fuel + 1 = q + (fuel + 1 + 1) by omega]
      rw [hloopE (fuel + 1 + 1)]
      rw [pl_step_ws (Or.inr (Or.inl hcnl)) hltnl]
      rw [pl_step_close (Or.inl hcrb) hltrb]
    · intro kd hkd
      rcases List.mem_append.mp hkd with hx | hx
      · have := hkb kd hx
        omega
      · have hx2 : kd = (h.nextId, nd) := by simpa using hx
        rw [hx2]
        exact hniE
    · intro h2 g hgn hagf
      have hnE : nodesE [(k, v)] = nodes v + 0 := by simp [nodesE]
      obtain ⟨hstr, hobsv⟩ := hobsE h2 g (by omega) hagf
      simp only [revDictE]
      refine List.Forall₂.cons ?_ List.Forall₂.nil
      simp [entryObsRel, hstr, hobsv]
  | (k, v) :: e2 :: ps3, input, suffix, h, p, m, rest0, i, log => by
    intro hg hdm hkb hp hd
    have hgkv : goodKey k = true ∧ GoodP v = true := by
      simp only [GoodE, Bool.and_eq_true] at hg
      exact hg.1
    have hgrest : GoodE (e2 :: ps3) = true := by
      simp only [GoodE, Bool.and_eq_true] at hg ⊢
      exact hg.2
    have hET : entsTextFwd ((k, v) :: e2 :: ps3)
        = ('"' :: k.toList ++ ['"', ':', ' '] ++ renderL v)
          ++ (if primLike v then [',', ' ', Char.ofNat 10] else [',', Char.ofNat 10])
          ++ entsTextFwd (e2 :: ps3) := rfl
    cases hpl : primLike v with
    | true =>
      have hdE : input.drop i
          = '"' :: k.toList ++ '"' :: ':' :: ' ' ::
              (renderL v ++ ',' :: (' ' :: (Char.ofNat 10 :: (entsTextFwd (e2 :: ps3) ++ Char.ofNat 10 :: '}' :: suffix)))) := by
        rw [hd, hET, hpl]
        simp
      obtain ⟨q, h1e, nd, hloopE, hniE, hagE, hdictE, hobsE⟩ :=
        dictEntry k v input (' ' :: (Char.ofNat 10 :: (entsTextFwd (e2 :: ps3) ++ Char.ofNat 10 :: '}' :: suffix))) ',' h p m rest0 i log hgkv.1 hgkv.2
          hdm hkb hp hdE (Or.inl rfl)
      have hdE2 : input.drop i
          = ('"' :: k.toList ++ '"' :: ':' :: ' ' :: renderL v)
              ++ ',' :: (' ' :: (Char.ofNat 10 :: (entsTextFwd (e2 :: ps3) ++ Char.ofNat 10 :: '}' :: suffix))) := by
        rw [hdE]
        simp
      have hplen : ('"' :: k.toList ++ '"' :: ':' :: ' ' :: renderL v).length
          = k.length + 4 + (renderL v).length := by
        simp
        omega
      have hda1 : input.drop (i + (k.length + 4 + (renderL v).length)) = ',' :: (' ' :: (Char.ofNat 10 :: (entsTextFwd (e2 :: ps3) ++ Char.ofNat 10 :: '}' :: suffix))) := by
        have hx := @drop_add_of_drop input
          ('"' :: k.toList ++ '"' :: ':' :: ' ' :: renderL v)
          (',' :: (' ' :: (Char.ofNat 10 :: (entsTextFwd (e2 :: ps3) ++ Char.ofNat 10 :: '}' :: suffix)))) i hdE2
        rw [hplen] at hx
        exact hx
      have hsc1 : cAt input (i + (k.length + 4 + (renderL v).length)) = ',' := cAt_head hda1
      have hlt1 : i + (k.length + 4 + (renderL v).length) < input.length := lt_length_of_drop hda1 (j := 0) (by simp)
      have hda2 : input.drop (i + (k.length + 4 + (renderL v).length) + 1) = ' ' :: (Char.ofNat 10 :: (entsTextFwd (e2 :: ps3) ++ Char.ofNat 10 :: '}' :: suffix)) := drop_succ_of_drop hda1
      have hsc2 : cAt input (i + (k.length + 4 + (renderL v).length) + 1) = ' ' := cAt_head hda2
      have hlt2 : i + (k.length + 4 + (renderL v).length) + 1 < input.length := lt_length_of_drop hda2 (j := 0) (by simp)
      have hda3 : input.drop (i + (k.length + 4 + (renderL v).length) + 1 + 1)
          = Char.ofNat 10 :: (entsTextFwd (e2 :: ps3) ++ Char.ofNat 10 :: '}' :: suffix) := drop_succ_of_drop hda2
      have hsc3 : cAt input (i + (k.length + 4 + (renderL v).length) + 1 + 1) = Char.ofNat 10 := cAt_head hda3
      have hlt3 : i + (k.length + 4 + (renderL v).length) + 1 + 1 < input.length :=
        lt_length_of_drop hda3 (j := 0) (by simp)
      have hdrest : input.drop (i + (k.length + 4 + (renderL v).length) + 1 + 1 + 1) = entsTextFwd (e2 :: ps3) ++ Char.ofNat 10 :: '}' :: suffix :=
        drop_succ_of_drop hda3
      have hkb2 : ∀ kd ∈ m ++ [(h.nextId, nd)], kd.1 < h1e.nextId := by
        intro kd hkd
        rcases List.mem_append.mp hkd with hx | hx
        · have := hkb kd hx
          omega
        · have hx2 : kd = (h.nextId, nd) := by simpa using hx
          rw [hx2]
          exact hniE
      obtain ⟨K2, h1, mnew2, hloop2, hni2, hag2, hdict2, hkb3, hobs2⟩ :=
        dictBody (e2 :: ps3) input suffix h1e p (m ++ [(h.nextId, nd)]) rest0
          (i + (k.length + 4 + (renderL v).length) + 1 + 1 + 1) log hgrest hdictE hkb2 (by omega) hdrest
      refine ⟨q + 3 + K2, h1, (h.nextId, nd) :: mnew2, ?_, by omega, ?_, ?_, ?_, ?_⟩
      · intro fuel
        rw [show i + (entsTextFwd ((k, v) :: e2 :: ps3)).length + 2
            = i + (k.length + 4 + (renderL v).length) + 1 + 1 + 1 + (entsTextFwd (e2 :: ps3)).length + 2 by
          rw [hET, hpl]
          simp
          omega]
        rw [show q + 3 + K2 + fuel + 1 = q + (K2 + fuel + 4) by omega]
        rw [hloopE (K2 + fuel + 4)]
        rw [show K2 + fuel + 4 = (K2 + fuel + 3) + 1 by omega]
        rw [pl_step_comma hsc1 hlt1]
        rw [show K2 + fuel + 3 = (K2 + fuel + 2) + 1 by omega]
        rw [pl_step_ws (Or.inl hsc2) hlt2]
        rw [show K2 + fuel + 2 = (K2 + fuel + 1) + 1 by omega]
        rw [pl_step_ws (Or.inr (Or.inl hsc3)) hlt3]
        rw [hloop2 fuel]
      · refine AgreeOn_trans_ex hagE ?_
        exact AgreeOn_shrink hag2 (le_refl 0) (by omega)
      · rw [hdict2]
        simp
      · intro kd hkd
        apply hkb3 kd
        simp only [List.mem_append, List.mem_cons] at hkd ⊢
        tauto
      · intro h2 g hgn hagf
        have hnE : nodesE ((k, v) :: e2 :: ps3) = nodes v + nodesE (e2 :: ps3) := by
          simp [nodesE]
        have hchain : AgreeOn h1e h2 h.nextId h1e.nextId none := by
          refine AgreeOn_trans_none2 (AgreeOn_ex_below
            (AgreeOn_shrink hag2 (Nat.zero_le _) (le_refl _)) hp) ?_
          exact AgreeOn_shrink hagf (le_refl _) (by omega)
        obtain ⟨hstr, hobsv⟩ := hobsE h2 g (by omega) hchain
        simp only [revDictE]
        refine List.Forall₂.cons ?_ ?_
        · simp [entryObsRel, hstr, hobsv]
        · exact hobs2 h2 g (by omega) (AgreeOn_shrink hagf (by omega) (le_refl _))
    | false =>
      have hdE : input.drop i
          = '"' :: k.toList ++ '"' :: ':' :: ' ' ::
              (renderL v ++ ',' :: (Char.ofNat 10 :: (entsTextFwd (e2 :: ps3) ++ Char.ofNat 10 :: '}' :: suffix))) := by
        rw [hd, hET, hpl]
        simp
      obtain ⟨q, h1e, nd, hloopE, hniE, hagE, hdictE, hobsE⟩ :=
        dictEntry k v input (Char.ofNat 10 :: (entsTextFwd (e2 :: ps3) ++ Char.ofNat 10 :: '}' :: suffix)) ',' h p m rest0 i log hgkv.1 hgkv.2
          hdm hkb hp hdE (Or.inl rfl)
      have hdE2 : input.drop i
          = ('"' :: k.toList ++ '"' :: ':' :: ' ' :: renderL v)
              ++ ',' :: (Char.ofNat 10 :: (entsTextFwd (e2 :: ps3) ++ Char.ofNat 10 :: '}' :: suffix)) := by
        rw [hdE]
        simp
      have hplen : ('"' :: k.toList ++ '"' :: ':' :: ' ' :: renderL v).length
          = k.length + 4 + (renderL v).length := by
        simp
        omega
      have hda1 : input.drop (i + (k.length + 4 + (renderL v).length)) = ',' :: (Char.ofNat 10 :: (entsTextFwd (e2 :: ps3) ++ Char.ofNat 10 :: '}' :: suffix)) := by
        have hx := @drop_add_of_drop input
          ('"' :: k.toList ++ '"' :: ':' :: ' ' :: renderL v)
          (',' :: (Char.ofNat 10 :: (entsTextFwd (e2 :: ps3) ++ Char.ofNat 10 :: '}' :: suffix))) i hdE2
        rw [hplen] at hx
        exact hx
      have hsc1 : cAt input (i + (k.length + 4 + (renderL v).length)) = ',' := cAt_head hda1
      have hlt1 : i + (k.length + 4 + (renderL v).length) < input.length := lt_length_of_drop hda1 (j := 0) (by simp)
      have hda2 : input.drop (i + (k.length + 4 + (renderL v).length) + 1) = Char.ofNat 10 :: (entsTextFwd (e2 :: ps3) ++ Char.ofNat 10 :: '}' :: suffix) := drop_succ_of_drop hda1
      have hsc2 : cAt input (i + (k.length + 4 + (renderL v).length) + 1) = Char.ofNat 10 := cAt_head hda2
      have hlt2 : i + (k.length + 4 + (renderL v).length) + 1 < input.length := lt_length_of_drop hda2 (j := 0) (by simp)
      have hdrest : input.drop (i + (k.length + 4 + (renderL v).length) + 1 + 1) = entsTextFwd (e2 :: ps3) ++ Char.ofNat 10 :: '}' :: suffix :=
        drop_succ_of_drop hda2
      have hkb2 : ∀ kd ∈ m ++ [(h.nextId, nd)], kd.1 < h1e.nextId := by
        intro kd hkd
        rcases List.mem_append.mp hkd with hx | hx
        · have := hkb kd hx
          omega
        · have hx2 : kd = (h.nextId, nd) := by simpa using hx
          rw [hx2]
          exact hniE
      obtain ⟨K2, h1, mnew2, hloop2, hni2, hag2, hdict2, hkb3, hobs2⟩ :=
        dictBody (e2 :: ps3) input suffix h1e p (m ++ [(h.nextId, nd)]) rest0
          (i + (k.length + 4 + (renderL v).length) + 1 + 1) log hgrest hdictE hkb2 (by omega) hdrest
      refine ⟨q + 2 + K2, h1, (h.nextId, nd) :: mnew2, ?_, by omega, ?_, ?_, ?_, ?_⟩
      · intro fuel
        rw [show i + (entsTextFwd ((k, v) :: e2 :: ps3)).length + 2
            = i + (k.length + 4 + (renderL v).length) + 1 + 1 + (entsTextFwd (e2 :: ps3)).length + 2 by
          rw [hET, hpl]
          simp
          omega]
        rw [show q + 2 + K2 + fuel + 1 = q + (K2 + fuel + 3) by omega]
        rw [hloopE (K2 + fuel + 3)]
        rw [show K2 + fuel + 3 = (K2 + fuel + 2) + 1 by omega]
        rw [pl_step_comma hsc1 hlt1]
        rw [show K2 + fuel + 2 = (K2 + fuel + 1) + 1 by omega]
        rw [pl_step_ws (Or.inr (Or.inl hsc2)) hlt2]
        rw [hloop2 fuel]
      · refine AgreeOn_trans_ex hagE ?_
        exact AgreeOn_shrink hag2 (le_refl 0) (by omega)
      · rw [hdict2]
        simp
      · intro kd hkd
        apply hkb3 kd
        simp only [List.mem_append, List.mem_cons] at hkd ⊢
        tauto
      · intro h2 g hgn hagf
        have hnE : nodesE ((k, v) :: e2 :: ps3) = nodes v + nodesE (e2 :: ps3) := by
          simp [nodesE]
        have hchain : AgreeOn h1e h2 h.nextId h1e.nextId none := by
          refine AgreeOn_trans_none2 (AgreeOn_ex_below
            (AgreeOn_shrink hag2 (Nat.zero_le _) (le_refl _)) hp) ?_
          exact AgreeOn_shrink hagf (le_refl _) (by omega)
        obtain ⟨hstr, hobsv⟩ := hobsE h2 g (by omega) hchain
        simp only [revDictE]
        refine List.Forall₂.cons ?_ ?_
        · simp [entryObsRel, hstr, hobsv]
        · exact hobs2 h2 g (by omega) (AgreeOn_shrink hagf (by omega) (le_refl _))
termination_by ps _ _ _ _ _ _ _ _ => 3 * nodesE ps + 1
decreasing_by
  all_goals have hp1 := nodes_pos v
  all_goals simp [nodes, nodesL, nodesE, nodesE_reverse, nodesL_cons, nodesE_cons]
  all_goals omega

end
/-! ### Top-level entry: `string_to_doc` on a rendering -/

theorem cAt_first {input : List Char} {c : Char} {rest : List Char}
    (he : input = c :: rest) : cAt input 0 = c :=
  cAt_head (r := rest) (by simpa using he)

theorem cAt_last {input pre : List Char} {c : Char} (he : input = pre ++ [c]) :
    cAt input (input.length - 1) = c := by
  have hd0 : input.drop 0 = pre ++ c :: [] := by simpa using he
  have hx := @cAt_after_pre input pre [] 0 c hd0
  rw [show (0 : Nat) + pre.length = input.length - 1 by rw [he]; simp] at hx
  exact hx

theorem std_trims {input : List Char} (h1 : 1 ≤ input.length)
    (hc0 : isTrimChar (cAt input 0) = false)
    (hcL : isTrimChar (cAt input (input.length - 1)) = false) :
    trimLeftGo input (input.length - 1) (input.length + 3) 0 = Except.ok 0 ∧
    trimEndGo input 0 (input.length + 3) (input.length - 1)
      = Except.ok (input.length - 1) :=
  ⟨trimLeftGo_stop (by omega) hc0 (by omega),
   trimEndGo_stop (by omega) hcL (by omega)⟩

theorem bodyD_concat : ∀ m : List (String × PDoc),
    ∃ preB, bodyD m = preB ++ ['}']
  | [] => ⟨[], rfl⟩
  | e :: es => ⟨Char.ofNat 10 :: renderEntsRev (e :: es) ++ [Char.ofNat 10], by
    simp [bodyD]⟩

/-- A good primitive round-trips through the bare-primitive branch of
`string_to_doc`. -/
theorem string_to_doc_good_prim {t : PDoc} (hg : GoodP t = true)
    (hcont : isCont t = false) :
    ∃ pfuel h2 d2,
      string_to_doc (renderL t) false pfuel = Except.ok (h2, d2, []) ∧
      ∀ g, 1 ≤ g → obsDoc h2 g d2 = some (revDict t) := by
  obtain ⟨c0, rest0, heq, hnw0, hnc0, hnrb0, hnrk0, htrim0, hbr0⟩ := renderL_head t hg
  obtain ⟨hnlb0, hnlk0⟩ := hbr0 hcont
  obtain ⟨cL, preL, heqL, htrimL, hbrL⟩ := renderL_last t hg
  obtain ⟨hnrbL, hnrkL⟩ := hbrL hcont
  have hlen1 : 1 ≤ (renderL t).length := by rw [heq]; simp
  have hc0 : cAt (renderL t) 0 = c0 := cAt_first heq
  have hcL : cAt (renderL t) ((renderL t).length - 1) = cL := cAt_last heqL
  obtain ⟨hL, hR⟩ := std_trims hlen1 (by rw [hc0]; exact htrim0)
    (by rw [hcL]; exact htrimL)
  obtain ⟨h2, nd, hscan, hni, hobs⟩ :=
    @prim_scan_good_end t (renderL t) 0 Heap.empty ' ' hg hcont (by simp)
  refine ⟨1, h2, nd, ?_, hobs⟩
  have hend : (if (renderL t).length = 0 then SIZE_T_MAX else (renderL t).length - 1)
      = (renderL t).length - 1 := by rw [if_neg (by omega)]
  simp only [string_to_doc, hend, hL, hR]
  rw [if_neg (by omega)]
  rw [if_neg (by
    intro hcon
    rw [hc0] at hcon
    exact hnlb0 hcon.1)]
  rw [if_neg (by
    intro hcon
    rw [hc0] at hcon
    exact hnlk0 hcon.1)]
  rw [if_pos ⟨by rw [hc0]; exact hnlk0, by rw [hcL]; exact hnrkL,
    by rw [hc0]; exact hnlb0, by rw [hcL]; exact hnrbL⟩]
  rw [hscan]

/-- A good dictionary round-trips through the brace branch of
`string_to_doc`. -/
theorem string_to_doc_good_dict {m : List (String × PDoc)}
    (hg : GoodP (PDoc.pdict m) = true) :
    ∃ pfuel h2 d2 g,
      string_to_doc (renderL (PDoc.pdict m)) false pfuel = Except.ok (h2, d2, []) ∧
      obsDoc h2 g d2 = some (revDict (PDoc.pdict m)) := by
  have hgm : GoodE m = true := by simpa [GoodP] using hg
  have heq : renderL (PDoc.pdict m) = '{' :: bodyD m := renderL_pdict m
  obtain ⟨preB, hpre⟩ := bodyD_concat m
  have heqL : renderL (PDoc.pdict m) = ('{' :: preB) ++ ['}'] := by
    rw [heq, hpre]
    simp
  have hlen1 : 1 ≤ (renderL (PDoc.pdict m)).length := by rw [heq]; simp
  have hc0 : cAt (renderL (PDoc.pdict m)) 0 = '{' := cAt_first heq
  have hcL : cAt (renderL (PDoc.pdict m)) ((renderL (PDoc.pdict m)).length - 1) = '}' :=
    cAt_last heqL
  obtain ⟨hL, hR⟩ := std_trims hlen1 (by rw [hc0]; decide) (by rw [hcL]; decide)
  have hd0 : Doc.ofType Heap.empty Ty.Dict
      = ((Heap.empty.allocDict []).1, ⟨Ty.Dict, Val.vdict 0⟩) := rfl
  have hdicts0 : (Heap.empty.allocDict []).1.dicts 0 = some [] := by
    simp [Heap.allocDict, Heap.setDict, Heap.empty]
  have hni0 : (Heap.empty.allocDict []).1.nextId = 1 := by
    simp [Heap.allocDict, Heap.empty]
  have hdrop : (renderL (PDoc.pdict m)).drop 1 = bodyD m ++ ([] : List Char) := by
    rw [heq]
    simp
  obtain ⟨K, h1, hloop, hniD, hagD, hobsD⟩ :=
    parseDictC m (renderL (PDoc.pdict m)) [] (Heap.empty.allocDict []).1 0 [] 1 []
      hgm hdicts0 (by omega) hdrop
  have hl := hloop 0
  rw [closeK] at hl
  refine ⟨K + 0 + 1, h1, ⟨Ty.Dict, Val.vdict 0⟩, nodesE m + 1, ?_, ?_⟩
  · have hend : (if (renderL (PDoc.pdict m)).length = 0 then SIZE_T_MAX
        else (renderL (PDoc.pdict m)).length - 1)
        = (renderL (PDoc.pdict m)).length - 1 := by rw [if_neg (by omega)]
    simp only [string_to_doc, hend, hL, hR]
    rw [if_neg (by omega)]
    rw [if_pos ⟨hc0, hcL⟩]
    simp only [hd0, Bool.false_eq_true, if_false]
    rw [show (0 : Nat) + 1 = 1 from rfl]
    exact hl
  · have hx := hobsD h1 (nodesE m + 1) (le_refl _) (AgreeOn_refl h1 0 h1.nextId none)
    simpa [revDict] using hx

/-- A good array round-trips through the bracket branch of
`string_to_doc`. -/
theorem string_to_doc_good_arr {l : List PDoc} (hg : GoodP (PDoc.parr l) = true) :
    ∃ pfuel h2 d2 g,
      string_to_doc (renderL (PDoc.parr l)) false pfuel = Except.ok (h2, d2, []) ∧
      obsDoc h2 g d2 = some (revDict (PDoc.parr l)) := by
  have hgl : GoodL l = true := by simpa [GoodP] using hg
  have heq : renderL (PDoc.parr l) = '[' :: (renderArr l ++ [']']) := renderL_parr l
  have heqL : renderL (PDoc.parr l) = ('[' :: renderArr l) ++ [']'] := by
    rw [heq]
    simp
  have hlen1 : 1 ≤ (renderL (PDoc.parr l)).length := by rw [heq]; simp
  have hc0 : cAt (renderL (PDoc.parr l)) 0 = '[' := cAt_first heq
  have hcL : cAt (renderL (PDoc.parr l)) ((renderL (PDoc.parr l)).length - 1) = ']' :=
    cAt_last heqL
  obtain ⟨hL, hR⟩ := std_trims hlen1 (by rw [hc0]; decide) (by rw [hcL]; decide)
  have hd0 : Doc.ofType Heap.empty Ty.Array
      = ((Heap.empty.allocArr ArrObj.default8).1, ⟨Ty.Array, Val.varr 0⟩) := rfl
  have harrs0 : (Heap.empty.allocArr ArrObj.default8).1.arrs 0 = some ArrObj.default8 := by
    simp [Heap.allocArr, Heap.setArr, Heap.empty]
  have hni0 : (Heap.empty.allocArr ArrObj.default8).1.nextId = 1 := by
    simp [Heap.allocArr, Heap.empty]
  have hdrop : (renderL (PDoc.parr l)).drop 1 = renderArr l ++ ']' :: ([] : List Char) := by
    rw [heq]
    simp
  obtain ⟨K, h1, hloop, hniD, hagD, hobsD⟩ :=
    parseArrC l (renderL (PDoc.parr l)) [] (Heap.empty.allocArr ArrObj.default8).1 0 [] 1 []
      hgl harrs0 (by omega) hdrop
  have hl := hloop 0
  rw [closeK] at hl
  refine ⟨K + 0 + 1, h1, ⟨Ty.Array, Val.varr 0⟩, nodesL l + 1, ?_, ?_⟩
  · have hend : (if (renderL (PDoc.parr l)).length = 0 then SIZE_T_MAX
        else (renderL (PDoc.parr l)).length - 1)
        = (renderL (PDoc.parr l)).length - 1 := by rw [if_neg (by omega)]
    simp only [string_to_doc, hend, hL, hR]
    rw [if_neg (by omega)]
    rw [if_neg (by
      intro hcon
      rw [hc0] at hcon
      exact absurd hcon.1 (by decide))]
    rw [if_pos ⟨hc0, hcL⟩]
    simp only [hd0, Bool.false_eq_true, if_false]
    rw [show (0 : Nat) + 1 = 1 from rfl]
    exact hl
  · have hx := hobsD h1 (nodesL l + 1) (le_refl _) (AgreeOn_refl h1 0 h1.nextId none)
    simpa [revDict] using hx
/-- Claim C2 (corrected): the round-trip does not preserve kinds in general
(see `roundtrip_kind_cex`: an `LLong` reparses as `Int`), but on the Good
class of trees — null, bools, `Int`s below 10^9 in magnitude, strings free
of quotes and NUL, arrays and dictionaries thereof with colon-free keys —
parsing the plain-mode rendering (`string_to_doc` applied to
`Doc.str` with `visualize = false`) succeeds and yields a tree equal to the
original up to reversal of each dictionary's entry order, i.e. equal modulo
dict key-order: the reparsed observation is `revDict t`, and
`PEquiv (revDict t) t` holds. -/
theorem roundtrip_amended (h : Heap) (d : Doc) (fo : Nat) (t : PDoc)
    (hob : obsDoc h fo d = some t) (hg : GoodP t = true) :
    ∃ sfuel s pfuel h2 d2 g,
      Doc.str h d false sfuel = some s ∧
      string_to_doc s.toList false pfuel = Except.ok (h2, d2, []) ∧
      obsDoc h2 g d2 = some (revDict t) ∧ PEquiv (revDict t) t := by
  have hrender := Doc.str_renders h d fo t hob hg
  have hstl : (String.mk (renderL t)).toList = renderL t := rfl
  by_cases hcont : isCont t = false
  · obtain ⟨pf, h2, d2, hparse, hobs⟩ := string_to_doc_good_prim hg hcont
    exact ⟨nodes t, String.mk (renderL t), pf, h2, d2, 1, hrender,
      by rw [hstl]; exact hparse, hobs 1 (le_refl 1), revDict_equiv t⟩
  · cases t with
    | ptup l => simp [GoodP] at hg
    | parr l =>
      obtain ⟨pf, h2, d2, g, hparse, hobs⟩ := string_to_doc_good_arr hg
      exact ⟨nodes (PDoc.parr l), String.mk (renderL (PDoc.parr l)), pf, h2, d2, g,
        hrender, by rw [hstl]; exact hparse, hobs, revDict_equiv (PDoc.parr l)⟩
    | pdict m =>
      obtain ⟨pf, h2, d2, g, hparse, hobs⟩ := string_to_doc_good_dict hg
      exact ⟨nodes (PDoc.pdict m), String.mk (renderL (PDoc.pdict m)), pf, h2, d2, g,
        hrender, by rw [hstl]; exact hparse, hobs, revDict_equiv (PDoc.pdict m)⟩
    | pchar c => exact absurd rfl hcont
    | pint i => exact absurd rfl hcont
    | pllong i => exact absurd rfl hcont
    | pfloat q => exact absurd rfl hcont
    | pdouble q => exact absurd rfl hcont
    | pldouble q => exact absurd rfl hcont
    | pbool b => exact absurd rfl hcont
    | pstr s => exact absurd rfl hcont
    | pnull => exact absurd rfl hcont

def rtW_heap : Heap :=
  { nextId := 2, arrs := fun _ => none, tups := fun _ => none,
    dicts := fun q => if q = 0 then some [(1, ⟨Ty.Int, Val.vint 5⟩)] else none,
    strs := fun q => if q = 1 then some "a" else none }

def rtW_doc : Doc := ⟨Ty.Dict, Val.vdict 0⟩

def rtW_tree : PDoc := PDoc.pdict [("a", PDoc.pint 5)]

theorem roundtrip_amended_witness :
    obsDoc rtW_heap 2 rtW_doc = some rtW_tree ∧ GoodP rtW_tree = true ∧
    (∃ sfuel s pfuel h2 d2 g,
      Doc.str rtW_heap rtW_doc false sfuel = some s ∧
      string_to_doc s.toList false pfuel = Except.ok (h2, d2, []) ∧
      obsDoc h2 g d2 = some (revDict rtW_tree) ∧ PEquiv (revDict rtW_tree) rtW_tree) :=
  ⟨rfl, by simp [rtW_tree, GoodP, GoodE, goodKey],
   roundtrip_amended rtW_heap rtW_doc 2 rtW_tree rfl
     (by simp [rtW_tree, GoodP, GoodE, goodKey])⟩
end JoSonM
